import Mathlib

/-! # Replicated key-value store: state machine, read barrier and write gate

A shallow embedding of `internal/store/store.go`, `internal/raft/fsm.go`,
`internal/raft/raft.go`, `internal/http/handlers.go`,
`internal/auth/middleware.go` and `internal/cluster/config.go`, followed by the
properties established about them.

Conventions of the embedding:

* a Go `byte` is a `Fin 256`; a Go `string` and a Go `[]byte` are both a
  `List Byte`.  A nil slice and an empty slice are identified: the code only
  takes `len`, ranges over, copies, encodes and writes slices, and none of these
  tell the two apart, except the JSON encoder, which the code only ever reaches
  with slices built by `make` (non-nil) or guarded by `omitempty`;
* a Go `map[string][]byte` is an association list with pairwise distinct keys
  (`AList`).  The order of the entries plays the part of Go's unspecified
  iteration order: statements quantify over every such list and speak about
  content (look-ups) only;
* in the sequential model mutexes are left out and every operation is one
  atomic step; the section on concurrent callers models the mutex and the
  statements of `Put`, `Get` and `Delete` one by one, a read or a write of the
  map taking two steps, so that accesses can overlap and a data race can
  happen;
* the sequential model keeps contents only; the section on the memory models
  slices and maps as references, for what `Dump` and `Load` share with their
  callers;
* a method that mutates the receiver returns the new receiver value.
-/

namespace KV

/-! ## Bytes and strings -/

/-- One Go `byte`. -/
abbrev Byte := Fin 256

/-- Contents of a Go `string` or `[]byte`. -/
abbrev Bytes := List Byte

/-- Bytes of an ASCII string literal of the source. -/
def ascii (s : String) : Bytes := s.data.map (fun c => Fin.ofNat c.toNat)

/-- Go `make([]byte, n)`: `n` zero bytes. -/
def makeBytes (n : Nat) : Bytes := List.replicate n 0

/-- Go `copy(dst, src)`: the first `min (len dst) (len src)` elements of `dst`
are overwritten with those of `src`. -/
def goCopy (dst src : Bytes) : Bytes := src.take dst.length ++ dst.drop src.length

/-- Source idiom `vv := make([]byte, len(v)); copy(vv, v)`. -/
def cloneBytes (v : Bytes) : Bytes := goCopy (makeBytes v.length) v

/-! ## `internal/store/store.go` -/

/-- Go `map[string][]byte`. -/
abbrev GoMap := AList (fun _ : Bytes => Bytes)

/-- Entry of a `map[string][]byte`. -/
abbrev Entry := Sigma (fun _ : Bytes => Bytes)

/-- Go `v, ok := m[key]`: the zero value and `false` when the key is missing. -/
def GoMap.index (m : GoMap) (key : Bytes) : Bytes × Bool :=
  match m.lookup key with
  | some v => (v, true)
  | none => ([], false)

/-- Body of the loops `for k, v := range src { vv := clone v; dst[k] = vv }` of
`Dump` and `Load`, run over the entries in the order `visit`. -/
def copyInto (visit : List Entry) (dst : GoMap) : GoMap :=
  visit.foldl (fun m e => m.insert e.1 (cloneBytes e.2)) dst

/-- The type `Store` of `store.go` (field `data`; the mutex is not modelled). -/
structure Store where
  data : GoMap

/-- The constructor `NewStore`. -/
def NewStore : Store := ⟨∅⟩

/-- The method `Store.Put`: `s.data[key] = val`. -/
def Store.Put (s : Store) (key val : Bytes) : Store := ⟨s.data.insert key val⟩

/-- The method `Store.Get`. -/
def Store.Get (s : Store) (key : Bytes) : Bytes × Bool := s.data.index key

/-- The method `Store.Delete`: the returned flag and the store afterwards. -/
def Store.Delete (s : Store) (key : Bytes) : Bool × Store :=
  let ok := (s.data.index key).2
  if ok then (ok, ⟨s.data.erase key⟩) else (ok, s)

/-- The method `Store.Dump`. -/
def Store.Dump (s : Store) : GoMap := copyInto s.data.entries ∅

/-- The method `Store.Load`: the previous content of the receiver is dropped. -/
def Store.Load (_s : Store) (state : GoMap) : Store := ⟨copyInto state.entries ∅⟩

/-! ## `internal/raft/fsm.go`: commands -/

/-- The type `KVCommand` of `fsm.go`. -/
structure KVCommand where
  Op : Bytes
  Key : Bytes
  Value : Bytes
deriving DecidableEq, Repr

/-- Errors returned by `encoding/json`, by kind: `*SyntaxError` (also the
unexpected end of input of `Unmarshal`), `*UnmarshalTypeError`,
`base64.CorruptInputError`, and for a stream `io.EOF` and `io.ErrUnexpectedEOF`.
Offsets and messages are not modelled. -/
inductive JsonError
  | syntaxError
  | unmarshalType
  | corruptBase64
  | eof
  | unexpectedEOF
deriving DecidableEq, Repr

instance instDecidableEqExcept {ε α : Type} [DecidableEq ε] [DecidableEq α] :
    DecidableEq (Except ε α) := fun a b =>
  match a, b with
  | .ok x, .ok y => if h : x = y then isTrue (by rw [h]) else isFalse (fun e => h (by cases e; rfl))
  | .error x, .error y =>
    if h : x = y then isTrue (by rw [h]) else isFalse (fun e => h (by cases e; rfl))
  | .ok _, .error _ => isFalse (fun e => by cases e)
  | .error _, .ok _ => isFalse (fun e => by cases e)

/-- What `FSM.Apply` returns as `interface{}`: `nil`, an `error` of
`json.Unmarshal`, or a string. -/
inductive ApplyResult
  | nil
  | err (e : JsonError)
  | str (s : Bytes)
deriving DecidableEq, Repr

/-! ## `unicode/utf8` of the standard library -/

/-- Byte of a character literal of the source. -/
def ch (c : Char) : Byte := Fin.ofNat c.toNat

/-- Go conversion `byte(n)`. -/
def byteOf (n : Nat) : Byte := Fin.ofNat n

/-- The constant `utf8.RuneError`, also `unicode.ReplacementChar`. -/
def RuneError : Nat := 0xFFFD

/-- The tables `first` and `acceptRanges` of `unicode/utf8`: for a first byte,
the length of the encoding (1 for ASCII, 0 for a byte that starts none) and the
range accepted for the second byte. -/
def utf8First (p0 : Nat) : Nat × Nat × Nat :=
  if p0 < 0x80 then (1, 0, 0)
  else if p0 < 0xC2 then (0, 0, 0)
  else if p0 < 0xE0 then (2, 0x80, 0xBF)
  else if p0 = 0xE0 then (3, 0xA0, 0xBF)
  else if p0 = 0xED then (3, 0x80, 0x9F)
  else if p0 < 0xF0 then (3, 0x80, 0xBF)
  else if p0 = 0xF0 then (4, 0x90, 0xBF)
  else if p0 < 0xF4 then (4, 0x80, 0xBF)
  else if p0 = 0xF4 then (4, 0x80, 0x8F)
  else (0, 0, 0)

/-- The function `utf8.DecodeRune`: the rune and its width in bytes; an invalid
encoding gives `(RuneError, 1)`.  Masks and shifts are written as remainders and
products: `p0&mask2` is `p0 % 32`, `b&maskx` is `b % 64`, `x<<6` is `x * 64`. -/
def decodeRune (p : Bytes) : Nat × Nat :=
  match p with
  | [] => (RuneError, 0)
  | p0 :: _ =>
    let x := utf8First p0.val
    if x.1 = 1 then (p0.val, 1)
    else if x.1 = 0 then (RuneError, 1)
    else if p.length < x.1 then (RuneError, 1)
    else
      let b1 := (p.getD 1 0).val
      if b1 < x.2.1 ∨ x.2.2 < b1 then (RuneError, 1)
      else if x.1 ≤ 2 then (p0.val % 32 * 64 + b1 % 64, 2)
      else
        let b2 := (p.getD 2 0).val
        if b2 < 0x80 ∨ 0xBF < b2 then (RuneError, 1)
        else if x.1 ≤ 3 then (p0.val % 16 * 4096 + b1 % 64 * 64 + b2 % 64, 3)
        else
          let b3 := (p.getD 3 0).val
          if b3 < 0x80 ∨ 0xBF < b3 then (RuneError, 1)
          else (p0.val % 8 * 262144 + b1 % 64 * 4096 + b2 % 64 * 64 + b3 % 64, 4)

/-- The function `utf8.AppendRune` on a non-negative rune, from the empty
slice. -/
def appendRune (r : Nat) : Bytes :=
  if r ≤ 0x7F then [byteOf r]
  else if r ≤ 0x7FF then [byteOf (0xC0 + r / 64), byteOf (0x80 + r % 64)]
  else if 0x10FFFF < r ∨ (0xD800 ≤ r ∧ r ≤ 0xDFFF) then [0xEF, 0xBF, 0xBD]
  else if r ≤ 0xFFFF then
    [byteOf (0xE0 + r / 4096), byteOf (0x80 + r / 64 % 64), byteOf (0x80 + r % 64)]
  else
    [byteOf (0xF0 + r / 262144), byteOf (0x80 + r / 4096 % 64), byteOf (0x80 + r / 64 % 64),
      byteOf (0x80 + r % 64)]

/-- Loop of `utf8.Valid`, written with `DecodeRune`: the input is invalid at the
first byte where the decoding gives `(RuneError, 1)`, which is where `Valid`
returns false; `skip` bytes of the rune in progress are still to be passed
over. -/
def utf8ValidFrom : Nat → Bytes → Bool
  | _, [] => true
  | skip + 1, _ :: rest => utf8ValidFrom skip rest
  | 0, c :: rest =>
    if decodeRune (c :: rest) = (RuneError, 1) then false
    else utf8ValidFrom ((decodeRune (c :: rest)).2 - 1) rest

/-- The function `utf8.Valid`. -/
def utf8Valid (s : Bytes) : Bool := utf8ValidFrom 0 s

/-- One turn of the coercion to valid UTF-8 that `encoding/json` applies to
strings: an ASCII byte and a well-formed encoded rune stand, any other byte
becomes U+FFFD. -/
def coerceUnit (s : Bytes) : Bytes × Nat :=
  match s with
  | [] => ([], 0)
  | c :: _ =>
    if c.val < 0x80 then ([c], 1) else (appendRune (decodeRune s).1, (decodeRune s).2)

/-- Loop of the coercion: `skip` bytes of the rune in progress are still to be
passed over. -/
def coerceFrom : Nat → Bytes → Bytes
  | _, [] => []
  | skip + 1, _ :: rest => coerceFrom skip rest
  | 0, c :: rest => (coerceUnit (c :: rest)).1 ++ coerceFrom ((coerceUnit (c :: rest)).2 - 1) rest

/-- A string "coerced to valid UTF-8, replacing invalid bytes with the Unicode
replacement rune", as the documentation of `json.Marshal` puts it. -/
def coerceUTF8 (s : Bytes) : Bytes := coerceFrom 0 s

/-! ## `encoding/base64` of the standard library, `StdEncoding` -/

/-- The alphabet of `base64.StdEncoding`. -/
def encodeStd : Bytes := ascii "ABCDEFGHIJKLMNOPQRSTUVWXYZabcdefghijklmnopqrstuvwxyz0123456789+/"

/-- Digit `n` of the alphabet. -/
def b64Char (n : Nat) : Byte := encodeStd.getD n 0

/-- The table `decodeMap`: the value of an alphabet byte, `none` for `0xff`. -/
def b64Val (c : Byte) : Option Nat :=
  if ch 'A' ≤ c ∧ c ≤ ch 'Z' then some (c.val - 65)
  else if ch 'a' ≤ c ∧ c ≤ ch 'z' then some (c.val - 97 + 26)
  else if ch '0' ≤ c ∧ c ≤ ch '9' then some (c.val - 48 + 52)
  else if c = ch '+' then some 62
  else if c = ch '/' then some 63
  else none

/-- The method `Encoding.Encode` of `StdEncoding` (padding with `=`): three
bytes give four digits of the 24-bit value `a<<16 | b<<8 | c`. -/
def b64Encode : Bytes → Bytes
  | [] => []
  | [a] =>
    let val := a.val * 65536
    [b64Char (val / 262144 % 64), b64Char (val / 4096 % 64), ch '=', ch '=']
  | [a, b] =>
    let val := a.val * 65536 + b.val * 256
    [b64Char (val / 262144 % 64), b64Char (val / 4096 % 64), b64Char (val / 64 % 64), ch '=']
  | a :: b :: c :: rest =>
    let val := a.val * 65536 + b.val * 256 + c.val
    b64Char (val / 262144 % 64) :: b64Char (val / 4096 % 64) :: b64Char (val / 64 % 64) ::
      b64Char (val % 64) :: b64Encode rest

/-- The loops `for si < len(src) && (src[si] == '\n' || src[si] == '\r')` of
`decodeQuantum`. -/
def skipNewlines : Bytes → Bytes
  | [] => []
  | c :: rest => if c = ch '\n' ∨ c = ch '\r' then skipNewlines rest else c :: rest

/-- The bytes of the 24-bit value of a quantum of `dlen` digits (`dlen - 1`
bytes). -/
def quantumBytes (dbuf : List Nat) : Bytes :=
  let val := dbuf.getD 0 0 * 262144 + dbuf.getD 1 0 * 4096 + dbuf.getD 2 0 * 64 + dbuf.getD 3 0
  [byteOf (val / 65536), byteOf (val / 256), byteOf val].take (dbuf.length - 1)

/-- The method `Encoding.Decode` of `StdEncoding` as repeated `decodeQuantum`,
`dbuf` holding the digits of the quantum in progress: line breaks are skipped,
padding must complete the last quantum and end the input.  `none` is
`CorruptInputError`. -/
def b64DecodeFrom : List Nat → Bytes → Option Bytes
  | dbuf, [] => if dbuf = [] then some [] else none
  | dbuf, c :: rest =>
    match b64Val c with
    | some out =>
      if dbuf.length = 3 then
        match b64DecodeFrom [] rest with
        | some tail => some (quantumBytes (dbuf ++ [out]) ++ tail)
        | none => none
      else b64DecodeFrom (dbuf ++ [out]) rest
    | none =>
      if c = ch '\n' ∨ c = ch '\r' then b64DecodeFrom dbuf rest
      else if c ≠ ch '=' then none
      else if dbuf.length < 2 then none
      else if dbuf.length = 2 then
        match skipNewlines rest with
        | [] => none
        | c2 :: rest2 =>
          if c2 ≠ ch '=' then none
          else if skipNewlines rest2 ≠ [] then none
          else some (quantumBytes dbuf)
      else if skipNewlines rest ≠ [] then none
      else some (quantumBytes dbuf)

/-- The method `Encoding.Decode` of `StdEncoding`. -/
def b64Decode (src : Bytes) : Option Bytes := b64DecodeFrom [] src

/-! ## `encoding/json` of the standard library: strings -/

/-- The constant `hex` of `encoding/json`. -/
def hex : Bytes := ascii "0123456789abcdef"

/-- The table `htmlSafeSet` on an ASCII byte: printable, and none of
`"`, `&`, `<`, `>`, `\`. -/
def htmlSafe (b : Byte) : Bool :=
  0x20 ≤ b.val ∧ b ≠ ch '"' ∧ b ≠ ch '&' ∧ b ≠ ch '<' ∧ b ≠ ch '>' ∧ b ≠ ch '\\'

/-- One turn of the loop of `appendString` (with `escapeHTML`) at the head of
the rest of the source string: the bytes written for it and the number of bytes
of the source they stand for.  (Releases before Go 1.22 write backspace and form
feed as `\u0008` and `\u000c`; `unquoteBytes` reads both spellings as the same
byte.) -/
def escapeUnit (s : Bytes) : Bytes × Nat :=
  match s with
  | [] => ([], 0)
  | b :: _ =>
    if b.val < 0x80 then
      if htmlSafe b then ([b], 1)
      else if b = ch '\\' ∨ b = ch '"' then ([ch '\\', b], 1)
      else if b = 0x08 then ([ch '\\', ch 'b'], 1)
      else if b = 0x0C then ([ch '\\', ch 'f'], 1)
      else if b = ch '\n' then ([ch '\\', ch 'n'], 1)
      else if b = ch '\r' then ([ch '\\', ch 'r'], 1)
      else if b = ch '\t' then ([ch '\\', ch 't'], 1)
      else ([ch '\\', ch 'u', ch '0', ch '0', hex.getD (b.val / 16) 0, hex.getD (b.val % 16) 0], 1)
    else
      let d := decodeRune (s.take 4)
      if d = (RuneError, 1) then (ascii "\\ufffd", 1)
      else if d.1 = 0x2028 ∨ d.1 = 0x2029 then
        ([ch '\\', ch 'u', ch '2', ch '0', ch '2', hex.getD (d.1 % 16) 0], d.2)
      else (s.take d.2, d.2)

/-- Loop of `appendString`: `skip` bytes of the rune in progress are still to be
passed over. -/
def escapeFrom : Nat → Bytes → Bytes
  | _, [] => []
  | skip + 1, _ :: rest => escapeFrom skip rest
  | 0, c :: rest => (escapeUnit (c :: rest)).1 ++ escapeFrom ((escapeUnit (c :: rest)).2 - 1) rest

/-- The function `appendString` of `encoding/json` with `escapeHTML` set, from
the empty buffer: the quoted JSON string for `src`. -/
def appendString (src : Bytes) : Bytes := ch '"' :: (escapeFrom 0 src ++ [ch '"'])

/-- Value of a hexadecimal digit, as in `getu4`. -/
def hexVal (c : Byte) : Option Nat :=
  if ch '0' ≤ c ∧ c ≤ ch '9' then some (c.val - 48)
  else if ch 'a' ≤ c ∧ c ≤ ch 'f' then some (c.val - 97 + 10)
  else if ch 'A' ≤ c ∧ c ≤ ch 'F' then some (c.val - 65 + 10)
  else none

/-- The function `getu4`: the code unit of a `\uXXXX` at the head of `s`, `none`
for `-1`. -/
def getu4 (s : Bytes) : Option Nat :=
  match s with
  | b0 :: b1 :: h1 :: h2 :: h3 :: h4 :: _ =>
    if b0 ≠ ch '\\' ∨ b1 ≠ ch 'u' then none
    else
      match hexVal h1, hexVal h2, hexVal h3, hexVal h4 with
      | some d1, some d2, some d3, some d4 => some (((d1 * 16 + d2) * 16 + d3) * 16 + d4)
      | _, _, _, _ => none
  | _ => none

/-- The function `utf16.DecodeRune`, the second unit possibly `-1` (`none`). -/
def utf16DecodeRune (r1 : Nat) (r2 : Option Nat) : Nat :=
  match r2 with
  | some r2 =>
    if 0xD800 ≤ r1 ∧ r1 < 0xDC00 ∧ 0xDC00 ≤ r2 ∧ r2 < 0xE000 then
      (r1 - 0xD800) * 1024 + (r2 - 0xDC00) + 0x10000
    else RuneError
  | none => RuneError

/-- One turn of the loop of `unquoteBytes` at the head of the rest of the string
body: the bytes written and the number of bytes read; `none` when the function
gives up (`ok = false`). -/
def unquoteUnit (s : Bytes) : Option (Bytes × Nat) :=
  match s with
  | [] => none
  | c :: rest =>
    if c = ch '\\' then
      match rest with
      | [] => none
      | e :: _ =>
        if e = ch '"' ∨ e = ch '\\' ∨ e = ch '/' ∨ e = ch '\'' then some ([e], 2)
        else if e = ch 'b' then some ([0x08], 2)
        else if e = ch 'f' then some ([0x0C], 2)
        else if e = ch 'n' then some ([ch '\n'], 2)
        else if e = ch 'r' then some ([ch '\r'], 2)
        else if e = ch 't' then some ([ch '\t'], 2)
        else if e = ch 'u' then
          match getu4 s with
          | none => none
          | some rr =>
            if 0xD800 ≤ rr ∧ rr < 0xE000 then
              let dec := utf16DecodeRune rr (getu4 (s.drop 6))
              if dec ≠ RuneError then some (appendRune dec, 12)
              else some (appendRune RuneError, 6)
            else some (appendRune rr, 6)
        else none
    else if c = ch '"' ∨ c.val < 0x20 then none
    else if c.val < 0x80 then some ([c], 1)
    else some (appendRune (decodeRune s).1, (decodeRune s).2)

/-- Loop of `unquoteBytes` over the body of a string literal (the bytes between
the quotes): `skip` bytes of the unit in progress are still to be passed over. -/
def unquoteFrom : Nat → Bytes → Option Bytes
  | _, [] => some []
  | skip + 1, _ :: rest => unquoteFrom skip rest
  | 0, c :: rest =>
    match unquoteUnit (c :: rest) with
    | none => none
    | some (out, size) =>
      match unquoteFrom (size - 1) rest with
      | none => none
      | some tail => some (out ++ tail)

/-- The function `unquoteBytes` on the body of a string literal. -/
def unquote (body : Bytes) : Option Bytes := unquoteFrom 0 body

/-! ## `encoding/json` of the standard library: the scanner

The scanner of `scanner.go` reads one byte at a time; `decode.go` first runs it
over the whole input (`checkValid`) and then walks the input again to build the
Go value.  Here the scanner carries the JSON values it has read, so that one
pass gives both the verdict of `checkValid` and the value to store. -/

/-- A JSON value as read by the scanner: numbers keep their text, strings are
unquoted. -/
inductive JValue
  | null
  | bool (b : Bool)
  | number (text : Bytes)
  | string (s : Bytes)
  | array (elems : List JValue)
  | object (members : List (Bytes × JValue))

/-- An entry of `scanner.parseState` with the part of the enclosing value read
so far: `parseObjectKey`, `parseObjectValue` (with the key of the member in
progress) and `parseArrayValue`. -/
inductive Frame
  | objectKey (members : List (Bytes × JValue))
  | objectValue (members : List (Bytes × JValue)) (key : Bytes)
  | arrayValue (elems : List JValue)

/-- The step function the scanner is in (`scanner.step`), with the text of the
literal in progress; `endValue v` is `stateEndValue` (and `stateEndTop` when the
parse stack is empty) after the value `v`. -/
inductive Step
  | beginValue
  | beginValueOrEmpty
  | beginStringOrEmpty
  | beginString
  | inString (body : Bytes)
  | inStringEsc (body : Bytes)
  | inStringEscU (body : Bytes)
  | inStringEscU1 (body : Bytes)
  | inStringEscU12 (body : Bytes)
  | inStringEscU123 (body : Bytes)
  | neg (text : Bytes)
  | zero (text : Bytes)
  | one (text : Bytes)
  | dot (text : Bytes)
  | dot0 (text : Bytes)
  | e (text : Bytes)
  | eSign (text : Bytes)
  | e0 (text : Bytes)
  | t
  | tr
  | tru
  | f
  | fa
  | fal
  | fals
  | n
  | nu
  | nul
  | endValue (v : JValue)
  | error

/-- The type `scanner` of `scanner.go`. -/
structure Scanner where
  step : Step
  parseState : List Frame

/-- The constant `maxNestingDepth`. -/
def maxNestingDepth : Nat := 10000

/-- The function `isSpace`. -/
def isSpace (c : Byte) : Bool := c = ch ' ' ∨ c = ch '\t' ∨ c = ch '\r' ∨ c = ch '\n'

/-- Whether `c` is a decimal digit. -/
def isDigit (c : Byte) : Bool := ch '0' ≤ c ∧ c ≤ ch '9'

/-- Whether `c` is a hexadecimal digit, as tested by `stateInStringEscU`. -/
def isHexDigit (c : Byte) : Bool :=
  (ch '0' ≤ c ∧ c ≤ ch '9') ∨ (ch 'a' ≤ c ∧ c ≤ ch 'f') ∨ (ch 'A' ≤ c ∧ c ≤ ch 'F')

/-- The scanner after `scanner.error`. -/
def Scanner.failed : Scanner := ⟨.error, []⟩

/-- The scanner of `scanner.reset`. -/
def Scanner.reset : Scanner := ⟨.beginValue, []⟩

/-- The method `pushParseState`, which refuses to nest deeper than
`maxNestingDepth`. -/
def pushParseState (stack : List Frame) (frame : Frame) (success : Step) : Scanner :=
  if (frame :: stack).length ≤ maxNestingDepth then ⟨success, frame :: stack⟩ else Scanner.failed

/-- The function `stateEndValue` (with `stateEndTop`) on the byte `c` after the
value `v`: the value joins the enclosing array or object at the separator. -/
def stateEndValue (v : JValue) (stack : List Frame) (c : Byte) : Scanner :=
  match stack with
  | [] => if isSpace c then ⟨.endValue v, []⟩ else Scanner.failed
  | frame :: outer =>
    if isSpace c then ⟨.endValue v, stack⟩
    else
      match frame with
      | .objectKey members =>
        match v with
        | .string key => if c = ch ':' then ⟨.beginValue, .objectValue members key :: outer⟩
          else Scanner.failed
        | _ => Scanner.failed
      | .objectValue members key =>
        if c = ch ',' then ⟨.beginString, .objectKey (members ++ [(key, v)]) :: outer⟩
        else if c = ch '}' then ⟨.endValue (.object (members ++ [(key, v)])), outer⟩
        else Scanner.failed
      | .arrayValue elems =>
        if c = ch ',' then ⟨.beginValue, .arrayValue (elems ++ [v]) :: outer⟩
        else if c = ch ']' then ⟨.endValue (.array (elems ++ [v])), outer⟩
        else Scanner.failed

/-- The function `stateBeginValue`. -/
def stateBeginValue (stack : List Frame) (c : Byte) : Scanner :=
  if isSpace c then ⟨.beginValue, stack⟩
  else if c = ch '{' then pushParseState stack (.objectKey []) .beginStringOrEmpty
  else if c = ch '[' then pushParseState stack (.arrayValue []) .beginValueOrEmpty
  else if c = ch '"' then ⟨.inString [], stack⟩
  else if c = ch '-' then ⟨.neg [c], stack⟩
  else if c = ch '0' then ⟨.zero [c], stack⟩
  else if c = ch 't' then ⟨.t, stack⟩
  else if c = ch 'f' then ⟨.f, stack⟩
  else if c = ch 'n' then ⟨.n, stack⟩
  else if ch '1' ≤ c ∧ c ≤ ch '9' then ⟨.one [c], stack⟩
  else Scanner.failed

/-- The function `stateBeginString`. -/
def stateBeginString (stack : List Frame) (c : Byte) : Scanner :=
  if isSpace c then ⟨.beginString, stack⟩
  else if c = ch '"' then ⟨.inString [], stack⟩
  else Scanner.failed

/-- The function `state0`, after the integer part of a number. -/
def state0 (text : Bytes) (stack : List Frame) (c : Byte) : Scanner :=
  if c = ch '.' then ⟨.dot (text ++ [c]), stack⟩
  else if c = ch 'e' ∨ c = ch 'E' then ⟨.e (text ++ [c]), stack⟩
  else stateEndValue (.number text) stack c

/-- The function `stateESign`. -/
def stateESign (text : Bytes) (stack : List Frame) (c : Byte) : Scanner :=
  if isDigit c then ⟨.e0 (text ++ [c]), stack⟩ else Scanner.failed

/-- One call `s.step(s, c)`. -/
def Scanner.next (s : Scanner) (c : Byte) : Scanner :=
  match s.step with
  | .beginValue => stateBeginValue s.parseState c
  | .beginValueOrEmpty =>
    if isSpace c then s
    else if c = ch ']' then
      match s.parseState with
      | .arrayValue elems :: outer => ⟨.endValue (.array elems), outer⟩
      | _ => Scanner.failed
    else stateBeginValue s.parseState c
  | .beginStringOrEmpty =>
    if isSpace c then s
    else if c = ch '}' then
      match s.parseState with
      | .objectKey members :: outer => ⟨.endValue (.object members), outer⟩
      | _ => Scanner.failed
    else stateBeginString s.parseState c
  | .beginString => stateBeginString s.parseState c
  | .inString body =>
    if c = ch '"' then
      match unquote body with
      | some str => ⟨.endValue (.string str), s.parseState⟩
      | none => Scanner.failed
    else if c = ch '\\' then ⟨.inStringEsc (body ++ [c]), s.parseState⟩
    else if c.val < 0x20 then Scanner.failed
    else ⟨.inString (body ++ [c]), s.parseState⟩
  | .inStringEsc body =>
    if c = ch 'b' ∨ c = ch 'f' ∨ c = ch 'n' ∨ c = ch 'r' ∨ c = ch 't' ∨ c = ch '\\' ∨ c = ch '/'
        ∨ c = ch '"' then
      ⟨.inString (body ++ [c]), s.parseState⟩
    else if c = ch 'u' then ⟨.inStringEscU (body ++ [c]), s.parseState⟩
    else Scanner.failed
  | .inStringEscU body =>
    if isHexDigit c then ⟨.inStringEscU1 (body ++ [c]), s.parseState⟩ else Scanner.failed
  | .inStringEscU1 body =>
    if isHexDigit c then ⟨.inStringEscU12 (body ++ [c]), s.parseState⟩ else Scanner.failed
  | .inStringEscU12 body =>
    if isHexDigit c then ⟨.inStringEscU123 (body ++ [c]), s.parseState⟩ else Scanner.failed
  | .inStringEscU123 body =>
    if isHexDigit c then ⟨.inString (body ++ [c]), s.parseState⟩ else Scanner.failed
  | .neg text =>
    if c = ch '0' then ⟨.zero (text ++ [c]), s.parseState⟩
    else if ch '1' ≤ c ∧ c ≤ ch '9' then ⟨.one (text ++ [c]), s.parseState⟩
    else Scanner.failed
  | .zero text => state0 text s.parseState c
  | .one text =>
    if isDigit c then ⟨.one (text ++ [c]), s.parseState⟩ else state0 text s.parseState c
  | .dot text =>
    if isDigit c then ⟨.dot0 (text ++ [c]), s.parseState⟩ else Scanner.failed
  | .dot0 text =>
    if isDigit c then ⟨.dot0 (text ++ [c]), s.parseState⟩
    else if c = ch 'e' ∨ c = ch 'E' then ⟨.e (text ++ [c]), s.parseState⟩
    else stateEndValue (.number text) s.parseState c
  | .e text =>
    if c = ch '+' ∨ c = ch '-' then ⟨.eSign (text ++ [c]), s.parseState⟩
    else stateESign text s.parseState c
  | .eSign text => stateESign text s.parseState c
  | .e0 text =>
    if isDigit c then ⟨.e0 (text ++ [c]), s.parseState⟩
    else stateEndValue (.number text) s.parseState c
  | .t => if c = ch 'r' then ⟨.tr, s.parseState⟩ else Scanner.failed
  | .tr => if c = ch 'u' then ⟨.tru, s.parseState⟩ else Scanner.failed
  | .tru => if c = ch 'e' then ⟨.endValue (.bool true), s.parseState⟩ else Scanner.failed
  | .f => if c = ch 'a' then ⟨.fa, s.parseState⟩ else Scanner.failed
  | .fa => if c = ch 'l' then ⟨.fal, s.parseState⟩ else Scanner.failed
  | .fal => if c = ch 's' then ⟨.fals, s.parseState⟩ else Scanner.failed
  | .fals => if c = ch 'e' then ⟨.endValue (.bool false), s.parseState⟩ else Scanner.failed
  | .n => if c = ch 'u' then ⟨.nu, s.parseState⟩ else Scanner.failed
  | .nu => if c = ch 'l' then ⟨.nul, s.parseState⟩ else Scanner.failed
  | .nul => if c = ch 'l' then ⟨.endValue .null, s.parseState⟩ else Scanner.failed
  | .endValue v => stateEndValue v s.parseState c
  | .error => Scanner.failed

/-- Whether the scanner has stopped on an error. -/
def Scanner.isError (s : Scanner) : Bool :=
  match s.step with
  | .error => true
  | _ => false

/-- The method `scanner.eof`: the top-level value when the input may end here
(a number ends with the input), `none` for `scanError`. -/
def Scanner.eof (s : Scanner) : Option JValue :=
  match s.parseState, s.step with
  | [], .endValue v => some v
  | [], .zero text => some (.number text)
  | [], .one text => some (.number text)
  | [], .dot0 text => some (.number text)
  | [], .e0 text => some (.number text)
  | _, _ => none

/-- The function `checkValid` together with the value read: the scanner is run
over all of `data` and asked whether the input may end. -/
def checkValid (data : Bytes) : Except JsonError JValue :=
  match (data.foldl Scanner.next Scanner.reset).eof with
  | some v => .ok v
  | none => .error .syntaxError

/-- The method `Decoder.readValue` on a stream that delivers `stream` and then
ends, from the scanner state `s`: the first value of the stream is read, what
follows it is not looked at.  The stream ending before any value gives `io.EOF`,
ending inside one `io.ErrUnexpectedEOF`. -/
def readValue : Scanner → Bytes → Except JsonError JValue
  | s, [] =>
    match s.eof with
    | some v => .ok v
    | none =>
      match s.step, s.parseState with
      | .beginValue, [] => .error .eof
      | .error, _ => .error .syntaxError
      | _, _ => .error .unexpectedEOF
  | s, c :: rest =>
    match s.step, s.parseState with
    | .endValue v, [] => .ok v
    | _, _ =>
      if (s.next c).isError then
        match s.eof with
        | some v => .ok v
        | none => .error .syntaxError
      else readValue (s.next c) rest

/-! ## `encoding/json` of the standard library: storing into Go values -/

/-- A `[]byte` variable while the decoder writes to it: its backing array (read
as zero beyond the end) and its length. -/
structure Slice where
  array : Bytes
  len : Nat

/-- The nil slice. -/
def Slice.nil : Slice := ⟨[], 0⟩

/-- The elements of a slice. -/
def Slice.bytes (s : Slice) : Bytes := (List.range s.len).map (fun i => s.array.getD i 0)

/-- Assignment `array[i] = b`, the array grown with zeros as far as needed. -/
def putAt (array : Bytes) (i : Nat) (b : Byte) : Bytes :=
  (array ++ List.replicate (i + 1 - array.length) 0).set i b

/-- Storing a number literal into a `uint8`: `strconv.ParseUint(s, 10, 64)` and
the overflow check; `none` is the `UnmarshalTypeError`. -/
def parseUint8 (text : Bytes) : Option Byte :=
  if text ≠ [] ∧ text.all isDigit then
    let n := text.foldl (fun acc c => acc * 10 + (c.val - 48)) 0
    if n < 256 then some (byteOf n) else none
  else none

/-- The loop of `decodeState.array` into a `[]byte`: element `i` of the JSON
array is stored into `array[i]`; a number must fit a `uint8`, `null` leaves the
element as it is, any other value is an `UnmarshalTypeError`. -/
def decodeElems : List JValue → Nat → Bytes → Except JsonError Bytes
  | [], _, array => .ok array
  | v :: vs, i, array =>
    match v with
    | .number text =>
      match parseUint8 text with
      | some b => decodeElems vs (i + 1) (putAt array i b)
      | none => .error .unmarshalType
    | .null => decodeElems vs (i + 1) array
    | _ => .error .unmarshalType

/-- Storing a JSON value into a `[]byte` that holds `prev`: a string is decoded
as base64, `null` gives the nil slice, an array is stored element by element
over the backing array and cut to its length. -/
def decodeBytes (prev : Slice) (v : JValue) : Except JsonError Slice :=
  match v with
  | .null => .ok Slice.nil
  | .string s =>
    match b64Decode s with
    | some b => .ok ⟨b, b.length⟩
    | none => .error .corruptBase64
  | .array elems =>
    match decodeElems elems 0 prev.array with
    | .ok array => .ok (if elems.length = 0 then Slice.nil else ⟨array, elems.length⟩)
    | .error e => .error e
  | _ => .error .unmarshalType

/-- Storing a JSON value into a `string` that holds `prev`: `null` leaves it. -/
def decodeString (prev : Bytes) (v : JValue) : Except JsonError Bytes :=
  match v with
  | .string s => .ok s
  | .null => .ok prev
  | _ => .error .unmarshalType

/-- The function `foldRune` as far as the comparison with ASCII names needs it:
the Kelvin sign folds to `K` and the long s to `S`; every other rune outside
ASCII folds to a rune outside ASCII and is left as it is. -/
def foldRune (r : Nat) : Nat :=
  if r = 0x212A then 0x4B else if r = 0x17F then 0x53 else r

/-- One turn of the loop of `appendFoldedName`. -/
def foldUnit (s : Bytes) : Bytes × Nat :=
  match s with
  | [] => ([], 0)
  | c :: _ =>
    if c.val < 0x80 then
      (if ch 'a' ≤ c ∧ c ≤ ch 'z' then [byteOf (c.val - 32)] else [c], 1)
    else (appendRune (foldRune (decodeRune s).1), (decodeRune s).2)

/-- Loop of `appendFoldedName`. -/
def foldFrom : Nat → Bytes → Bytes
  | _, [] => []
  | skip + 1, _ :: rest => foldFrom skip rest
  | 0, c :: rest => (foldUnit (c :: rest)).1 ++ foldFrom ((foldUnit (c :: rest)).2 - 1) rest

/-- The function `foldName`. -/
def foldName (s : Bytes) : Bytes := foldFrom 0 s

/-- The fields of `KVCommand`, by JSON name. -/
inductive Field
  | op
  | key
  | value
deriving DecidableEq, Repr

/-- Field look-up of `decodeState.object` for `KVCommand`: by exact name, then by
folded name. -/
def findField (key : Bytes) : Option Field :=
  if key = ascii "op" then some .op
  else if key = ascii "key" then some .key
  else if key = ascii "value" then some .value
  else if foldName key = foldName (ascii "op") then some .op
  else if foldName key = foldName (ascii "key") then some .key
  else if foldName key = foldName (ascii "value") then some .value
  else none

/-- The variable `cmd` of `FSM.Apply` while `json.Unmarshal` writes to it. -/
structure CmdTarget where
  Op : Bytes
  Key : Bytes
  Value : Slice

/-- One member of a JSON object stored into a `KVCommand`; a member that names no
field is skipped. -/
def decodeMember (t : CmdTarget) (m : Bytes × JValue) : Except JsonError CmdTarget :=
  match findField m.1 with
  | none => .ok t
  | some .op =>
    match decodeString t.Op m.2 with
    | .ok s => .ok { t with Op := s }
    | .error e => .error e
  | some .key =>
    match decodeString t.Key m.2 with
    | .ok s => .ok { t with Key := s }
    | .error e => .error e
  | some .value =>
    match decodeBytes t.Value m.2 with
    | .ok s => .ok { t with Value := s }
    | .error e => .error e

/-- The loop of `decodeState.object` into a `KVCommand`; the first error met is
the one `Unmarshal` returns. -/
def decodeMembers : CmdTarget → List (Bytes × JValue) → Except JsonError CmdTarget
  | t, [] => .ok t
  | t, m :: ms =>
    match decodeMember t m with
    | .ok t1 => decodeMembers t1 ms
    | .error e => .error e

/-- Storing a JSON value into the zero `KVCommand`: `null` leaves it, an object
is stored member by member, anything else is an `UnmarshalTypeError`. -/
def decodeKVCommand (v : JValue) : Except JsonError KVCommand :=
  match v with
  | .null => .ok ⟨[], [], []⟩
  | .object members =>
    match decodeMembers ⟨[], [], Slice.nil⟩ members with
    | .ok t => .ok ⟨t.Op, t.Key, t.Value.bytes⟩
    | .error e => .error e
  | _ => .error .unmarshalType

/-- The call `json.Unmarshal(data, &cmd)` of `FSM.Apply`, `cmd` being the zero
`KVCommand`. -/
def Unmarshal (data : Bytes) : Except JsonError KVCommand :=
  match checkValid data with
  | .ok v => decodeKVCommand v
  | .error e => .error e

/-- The loop of `decodeState.object` into a `map[string][]byte`: every member is
stored into a fresh element and put in the map under its key. -/
def decodeMapMembers : GoMap → List (Bytes × JValue) → Except JsonError GoMap
  | m, [] => .ok m
  | m, (key, v) :: rest =>
    match decodeBytes Slice.nil v with
    | .ok s => decodeMapMembers (m.insert key s.bytes) rest
    | .error e => .error e

/-- Storing a JSON value into a nil `map[string][]byte`: `null` leaves it nil
(here the empty map). -/
def decodeMap (v : JValue) : Except JsonError GoMap :=
  match v with
  | .null => .ok ∅
  | .object members => decodeMapMembers ∅ members
  | _ => .error .unmarshalType

/-- The call `json.NewDecoder(snapshot).Decode(&state)` of `FSM.Restore` on a
stream that delivers `stream` and then ends, `state` being nil. -/
def Decode (stream : Bytes) : Except JsonError GoMap :=
  match readValue Scanner.reset stream with
  | .ok v => decodeMap v
  | .error e => .error e

/-! ## `encoding/json` of the standard library: encoding -/

/-- The function `encodeByteSlice` on a non-nil slice: base64 in quotes. -/
def encodeByteSlice (v : Bytes) : Bytes := ch '"' :: (b64Encode v ++ [ch '"'])

/-- The method `KVCommand.Marshal` of `raft.go`, that is `json.Marshal` on the
struct: the fields in order under their JSON names, `value` left out when
empty (`omitempty`).  The encoder returns no error on this type. -/
def KVCommand.Marshal (c : KVCommand) : Bytes :=
  ascii "\x7b\"op\":" ++ appendString c.Op ++ ascii ",\"key\":" ++ appendString c.Key ++
    (if c.Value.length = 0 then [] else ascii ",\"value\":" ++ encodeByteSlice c.Value) ++
    ascii "\x7d"

/-- The members written by `mapEncoder.encode`, a comma before each but the
first. -/
def encodeEntries : Bool → List Entry → Bytes
  | _, [] => []
  | first, e :: es =>
    (if first then [] else [ch ',']) ++ appendString e.1 ++ [ch ':'] ++ encodeByteSlice e.2 ++
      encodeEntries false es

/-- The method `mapEncoder.encode` on a non-nil `map[string][]byte`: the members
sorted by key. -/
def encodeMap (m : GoMap) : Bytes :=
  ch '{' :: (encodeEntries true (m.entries.insertionSort (fun a b => a.1 ≤ b.1)) ++ [ch '}'])

/-- The method `Encoder.Encode`: the encoding followed by a newline. -/
def Encode (m : GoMap) : Bytes := encodeMap m ++ [ch '\n']

/-! ## `internal/raft/fsm.go`: the state machine -/

/-- The method `FSM.Apply` on the payload `data` of the log entry, with
`json.Unmarshal(data, &cmd)` passed as `unmarshal`: returns the result and the
store afterwards. -/
def FSM.ApplyWith (unmarshal : Bytes → Except JsonError KVCommand) (st : Store) (data : Bytes) :
    ApplyResult × Store :=
  match unmarshal data with
  | .error e => (.err e, st)
  | .ok cmd =>
    if cmd.Op = ascii "put" then (.nil, st.Put cmd.Key cmd.Value)
    else if cmd.Op = ascii "delete" then (.nil, (st.Delete cmd.Key).2)
    else (.str (ascii "unknown command"), st)

/-- The method `FSM.Apply` on the payload `data` of the log entry: the result
and the store afterwards. -/
def FSM.Apply (st : Store) (data : Bytes) : ApplyResult × Store := FSM.ApplyWith Unmarshal st data

/-- The method `FSM.Snapshot`: the state held by the `snapshot` it returns (the
error returned is always `nil`). -/
def FSM.Snapshot (st : Store) : GoMap := st.Dump

/-- The method `snapshot.Persist` on a sink that accepts every write: the bytes
written to the sink. -/
def snapshot.Persist (state : GoMap) : Bytes := Encode state

/-- The method `FSM.Restore` on a snapshot stream that delivers `snapshot` and
then ends: the error returned (`none` for `nil`) and the store afterwards. -/
def FSM.Restore (st : Store) (snapshot : Bytes) : Option JsonError × Store :=
  match Decode snapshot with
  | .error e => (some e, st)
  | .ok state => (none, st.Load state)

/-- The engine delivering the payloads of a log to `FSM.Apply` one after the
other: the per-entry results and the final store. -/
def FSM.applyLog (unmarshal : Bytes → Except JsonError KVCommand) :
    Store → List Bytes → List ApplyResult × Store
  | st, [] => ([], st)
  | st, d :: ds =>
    let r := FSM.ApplyWith unmarshal st d
    let rest := FSM.applyLog unmarshal r.2 ds
    (r.1 :: rest.1, rest.2)

/-! ## `internal/raft/raft.go`: the node -/

/-- The type `raft.RaftState` of the consensus library. -/
inductive RaftState
  | Follower
  | Candidate
  | Leader
  | Shutdown
deriving DecidableEq, Repr

/-- The method `RaftState.String` of the consensus library. -/
def RaftState.String : RaftState → Bytes
  | .Follower => ascii "Follower"
  | .Candidate => ascii "Candidate"
  | .Leader => ascii "Leader"
  | .Shutdown => ascii "Shutdown"

/-- What the node observes of its `*raft.Raft`: role, leader address, and the
index of the last log entry applied to the local state machine. -/
structure Raft where
  state : RaftState
  leader : Bytes
  appliedIndex : Nat

/-- The type `Node` of `raft.go` (the `fsm` field plays no part in the methods
modelled here). -/
structure Node where
  raft : Raft

/-- The method `Node.IsLeader`. -/
def Node.IsLeader (n : Node) : Bool := n.raft.state = RaftState.Leader

/-- The method `Node.Leader`. -/
def Node.Leader (n : Node) : Bytes := n.raft.leader

/-- The method `Node.VerifyRead`: `none` is the `nil` error, `some msg` an
error with that message.  The context argument is never used by the body. -/
def Node.VerifyRead (n : Node) : Option Bytes :=
  if n.IsLeader then none
  else
    let state := n.raft.state
    if state ≠ RaftState.Follower ∧ state ≠ RaftState.Leader then
      some (ascii "node not in valid state for reads: " ++ state.String)
    else none

/-! ## `internal/http/handlers.go` -/

/-- Response headers. -/
abbrev Header := List (Bytes × Bytes)

/-- The method `Header.Set` (the keys used by the source are canonical). -/
def Header.Set (h : Header) (key value : Bytes) : Header :=
  (key, value) :: h.filter (fun kv => kv.1 ≠ key)

/-- The method `Header.Get`, `none` when the key is not set. -/
def Header.Get (h : Header) (key : Bytes) : Option Bytes := h.lookup key

/-- What a handler has sent through its `http.ResponseWriter`. -/
structure ResponseWriter where
  header : Header
  status : Option Nat
  body : Bytes
deriving DecidableEq, Repr

/-- A fresh `http.ResponseWriter`. -/
def ResponseWriter.new : ResponseWriter := ⟨[], none, []⟩

/-- The method `WriteHeader`: the first status code sent stays. -/
def ResponseWriter.WriteHeader (w : ResponseWriter) (code : Nat) : ResponseWriter :=
  match w.status with
  | none => { w with status := some code }
  | some _ => w

/-- The method `Write`: sends status 200 first when none was sent. -/
def ResponseWriter.Write (w : ResponseWriter) (b : Bytes) : ResponseWriter :=
  let w1 := w.WriteHeader 200
  { w1 with body := w1.body ++ b }

/-- The function `http.Error` of the standard library. -/
def httpError (w : ResponseWriter) (msg : Bytes) (code : Nat) : ResponseWriter :=
  let h1 := Header.Set w.header (ascii "Content-Type") (ascii "text/plain; charset=utf-8")
  let h2 := Header.Set h1 (ascii "X-Content-Type-Options") (ascii "nosniff")
  ResponseWriter.Write (ResponseWriter.WriteHeader { w with header := h2 } code) (msg ++ ascii "\n")

/-- The fields of `*http.Request` read by the handlers; `Body` is the outcome of
`io.ReadAll(r.Body)`. -/
structure Request where
  Method : Bytes
  Path : Bytes
  Body : Except Bytes Bytes

/-- The interface `RaftNode` of `raft_interface.go`, over a world `σ` holding
whatever the implementation reads and changes.  An error is its message,
`none` is `nil`. -/
structure RaftNode (σ : Type) where
  IsLeader : σ → Bool
  Leader : σ → Bytes
  Apply : KVCommand → σ → Option Bytes × σ
  VerifyRead : σ → Option Bytes

/-- The type `Server` of `handlers.go`: `store` reads the store the server points
to out of the world. -/
structure Server (σ : Type) where
  store : σ → Store
  raft : RaftNode σ

/-- Outcome of one handler call: whether it panicked, what was sent, the world
afterwards, and the commands passed to `RaftNode.Apply`, in order. -/
structure Handled (σ : Type) where
  panicked : Bool
  resp : ResponseWriter
  world : σ
  proposed : List KVCommand

/-- Go slice expression `s[n:]`: `none` stands for the run-time panic when
`n > len(s)`. -/
def sliceFrom (s : Bytes) (n : Nat) : Option Bytes :=
  if n ≤ s.length then some (s.drop n) else none

/-- The method `Server.HandlePut`. -/
def Server.HandlePut {σ : Type} (s : Server σ) (r : Request) (world : σ) : Handled σ :=
  let w := ResponseWriter.new
  if r.Method ≠ ascii "PUT" then
    ⟨false, httpError w (ascii "Method not allowed") 405, world, []⟩
  else if !s.raft.IsLeader world then
    let leader := s.raft.Leader world
    let w1 := if leader ≠ [] then { w with header := Header.Set w.header (ascii "X-Leader") leader }
      else w
    ⟨false, httpError w1 (ascii "Not the leader") 400, world, []⟩
  else
    match sliceFrom r.Path (ascii "/kv/").length with
    | none => ⟨true, w, world, []⟩
    | some key =>
      if key = [] then ⟨false, httpError w (ascii "Key is required") 400, world, []⟩
      else
        match r.Body with
        | .error _ => ⟨false, httpError w (ascii "Failed to read body") 400, world, []⟩
        | .ok val =>
          let cmd : KVCommand := { Op := ascii "put", Key := key, Value := val }
          match s.raft.Apply cmd world with
          | (some err, world1) =>
            ⟨false, httpError w (ascii "Failed to apply command: " ++ err) 500, world1, [cmd]⟩
          | (none, world1) => ⟨false, w.WriteHeader 204, world1, [cmd]⟩

/-- The method `Server.HandleGet`. -/
def Server.HandleGet {σ : Type} (s : Server σ) (r : Request) (world : σ) : Handled σ :=
  let w := ResponseWriter.new
  if r.Method ≠ ascii "GET" then
    ⟨false, httpError w (ascii "Method not allowed") 405, world, []⟩
  else
    match sliceFrom r.Path (ascii "/kv/").length with
    | none => ⟨true, w, world, []⟩
    | some key =>
      if key = [] then ⟨false, httpError w (ascii "Key is required") 400, world, []⟩
      else
        match s.raft.VerifyRead world with
        | some err => ⟨false, httpError w (ascii "Failed to verify read: " ++ err) 500, world, []⟩
        | none =>
          let (val, ok) := (s.store world).Get key
          if !ok then ⟨false, httpError w (ascii "Key not found") 404, world, []⟩
          else
            let h1 := Header.Set w.header (ascii "Content-Type") (ascii "application/octet-stream")
            let w1 := { w with header := h1 }
            ⟨false, (w1.WriteHeader 200).Write val, world, []⟩

/-- The method `Server.HandleDelete`. -/
def Server.HandleDelete {σ : Type} (s : Server σ) (r : Request) (world : σ) : Handled σ :=
  let w := ResponseWriter.new
  if r.Method ≠ ascii "DELETE" then
    ⟨false, httpError w (ascii "Method not allowed") 405, world, []⟩
  else if !s.raft.IsLeader world then
    let leader := s.raft.Leader world
    let w1 := if leader ≠ [] then { w with header := Header.Set w.header (ascii "X-Leader") leader }
      else w
    ⟨false, httpError w1 (ascii "Not the leader") 400, world, []⟩
  else
    match sliceFrom r.Path (ascii "/kv/").length with
    | none => ⟨true, w, world, []⟩
    | some key =>
      if key = [] then ⟨false, httpError w (ascii "Key is required") 400, world, []⟩
      else
        let ok := ((s.store world).Get key).2
        if !ok then ⟨false, httpError w (ascii "Key not found") 404, world, []⟩
        else
          let cmd : KVCommand := { Op := ascii "delete", Key := key, Value := [] }
          match s.raft.Apply cmd world with
          | (some err, world1) =>
            ⟨false, httpError w (ascii "Failed to apply command: " ++ err) 500, world1, [cmd]⟩
          | (none, world1) => ⟨false, w.WriteHeader 204, world1, [cmd]⟩

/-- The test double `mockRaftNode` of `handlers_test.go`. -/
structure mockRaftNode where
  isLeader : Bool
  leader : Bytes

/-- The methods of `mockRaftNode`, over the store it points to: `Apply` acts on
the store directly and returns `nil`, `VerifyRead` returns `nil`. -/
def mockRaftNode.node (m : mockRaftNode) : RaftNode Store where
  IsLeader := fun _ => m.isLeader
  Leader := fun _ => m.leader
  Apply := fun cmd st =>
    if cmd.Op = ascii "put" then (none, st.Put cmd.Key cmd.Value)
    else if cmd.Op = ascii "delete" then (none, (st.Delete cmd.Key).2)
    else (none, st)
  VerifyRead := fun _ => none

/-- The call `NewServer(kvStore, mockRaft)` of the handler tests. -/
def mockServer (m : mockRaftNode) : Server Store := ⟨id, m.node⟩

/-! ## `internal/raft/raft.go` behind the interface `RaftNode` -/

/-- A running node as the handlers meet it: the node and the store its state
machine writes to. -/
structure NodeWorld where
  node : Node
  store : Store

/-- The method `Node.Apply`: the command is marshalled (which returns no error)
and handed to the engine; `raftApply` stands for `n.raft.Apply(data, timeout)`
followed by `future.Error()`. -/
def Node.Apply (raftApply : Bytes → NodeWorld → Option Bytes × NodeWorld) (cmd : KVCommand)
    (world : NodeWorld) : Option Bytes × NodeWorld :=
  raftApply cmd.Marshal world

/-- The type `*Node` as an implementation of the interface `RaftNode`. -/
def Node.raftNode (raftApply : Bytes → NodeWorld → Option Bytes × NodeWorld) :
    RaftNode NodeWorld where
  IsLeader := fun world => world.node.IsLeader
  Leader := fun world => world.node.Leader
  Apply := Node.Apply raftApply
  VerifyRead := fun world => world.node.VerifyRead

/-- The call `NewServer(store, node)` on a node. -/
def nodeServer (raftApply : Bytes → NodeWorld → Option Bytes × NodeWorld) : Server NodeWorld :=
  ⟨fun world => world.store, Node.raftNode raftApply⟩

/-! ## `internal/auth/middleware.go` -/

/-- The function `strings.Split(s, sep)` for a separator of one byte: the pieces
of `s` between the occurrences of `sep`, one more than there are occurrences. -/
def stringsSplit (sep : Byte) : Bytes → List Bytes
  | [] => [[]]
  | c :: rest =>
    if c = sep then [] :: stringsSplit sep rest
    else
      match stringsSplit sep rest with
      | [] => [[c]]
      | piece :: pieces => (c :: piece) :: pieces

/-- An `*http.Request` together with its headers. -/
structure HeaderRequest extends Request where
  Header : KV.Header

/-- The handler returned by `AuthMiddleware(token)(next)`. -/
def AuthMiddleware {σ : Type} (token : Bytes) (next : Request → σ → Handled σ)
    (r : HeaderRequest) (world : σ) : Handled σ :=
  let w := ResponseWriter.new
  if token = [] then next r.toRequest world
  else
    let authHeader := (r.Header.Get (ascii "Authorization")).getD []
    if authHeader = [] then
      ⟨false, httpError w (ascii "Authorization header required") 401, world, []⟩
    else
      let parts := stringsSplit (ch ' ') authHeader
      if parts.length ≠ 2 ∨ parts.getD 0 [] ≠ ascii "Bearer" then
        ⟨false, httpError w (ascii "Invalid authorization format. Use: Bearer <token>") 401,
          world, []⟩
      else if parts.getD 1 [] ≠ token then
        ⟨false, httpError w (ascii "Invalid token") 401, world, []⟩
      else next r.toRequest world

/-! ## `internal/raft/raft.go`: membership changes -/

/-- A membership change handed to the engine: the calls
`AddVoter(id, address, prevIndex, timeout)` and
`RemoveServer(id, prevIndex, timeout)` of the consensus library. -/
inductive ConfigChange
  | AddVoter (id address : Bytes) (prevIndex timeout : Nat)
  | RemoveServer (id : Bytes) (prevIndex timeout : Nat)
deriving DecidableEq, Repr

/-- Outcome of `Node.Join` or `Node.Remove`: the error returned (`none` is
`nil`), the world afterwards, and the membership changes handed to the engine,
in order. -/
structure Changed where
  err : Option Bytes
  world : NodeWorld
  submitted : List ConfigChange

/-- The method `Node.Join`; `engine` stands for the call on `n.raft` followed by
`future.Error()`. -/
def Node.Join (engine : ConfigChange → NodeWorld → Option Bytes × NodeWorld)
    (nodeID raftAddress : Bytes) (world : NodeWorld) : Changed :=
  let srvID := nodeID
  let srvAddr := raftAddress
  let future := engine (.AddVoter srvID srvAddr 0 0) world
  ⟨future.1, future.2, [.AddVoter srvID srvAddr 0 0]⟩

/-- The method `Node.Remove`; `engine` as in `Node.Join`. -/
def Node.Remove (engine : ConfigChange → NodeWorld → Option Bytes × NodeWorld)
    (nodeID : Bytes) (world : NodeWorld) : Changed :=
  let srvID := nodeID
  let future := engine (.RemoveServer srvID 0 0) world
  ⟨future.1, future.2, [.RemoveServer srvID 0 0]⟩

/-! ## `internal/cluster/config.go` -/

/-- The type `Config` of `config.go`. -/
structure Config where
  NodeID : Bytes
  ListenAddr : Bytes
  RaftAddr : Bytes
  Peers : List Bytes
  Bootstrap : Bool
  JoinURL : Bytes
  AuthToken : Bytes

/-- The type `Node` of package `cluster`. -/
structure cluster.Node where
  ID : Bytes
  Address : Bytes
deriving DecidableEq, Repr

/-- The type `Cluster` of `config.go`. -/
structure Cluster where
  Self : cluster.Node
  Peers : List cluster.Node
  Config : KV.Config

/-- The constructor `NewCluster`: the loop appends one `Node{Address: addr}` per
configured peer, whose `ID` keeps the zero value. -/
def NewCluster (config : Config) : Cluster :=
  ⟨⟨config.NodeID, config.ListenAddr⟩,
    config.Peers.foldl (fun peers addr => peers ++ [⟨[], addr⟩]) [],
    config⟩

/-- The method `Cluster.GetMembers`. -/
def Cluster.GetMembers (c : Cluster) : List cluster.Node := [c.Self] ++ c.Peers

/-! ## `internal/store/store.go` under concurrent callers

Each goroutine carries out one call of `Put`, `Get` or `Delete`; the statements
of the method body are the steps, and a scheduler picks the goroutine that
takes the next step.  A statement that reads or writes `s.data` is not one
step: it begins and it ends, and other goroutines may take steps in between.
The state records whether a data race on the map has happened: an access that
begins while a write to the map is in progress, or a write that begins while
another access is in progress (the run-time stops such a program with
`concurrent map read and map write` or `concurrent map writes`, or the access
sees the map half written). -/

/-- One call on the store. -/
inductive Call
  | Put (key val : Bytes)
  | Get (key : Bytes)
  | Delete (key : Bytes)
deriving DecidableEq, Repr

/-- What a call returns: nothing (`Put`), value and flag (`Get`), flag
(`Delete`). -/
inductive Ret
  | unit
  | value (v : Bytes) (ok : Bool)
  | found (ok : Bool)
deriving DecidableEq, Repr

/-- The call carried out alone, on the store of the sequential model. -/
def Call.run (c : Call) (s : Store) : Ret × Store :=
  match c with
  | .Put key val => (.unit, s.Put key val)
  | .Get key => (.value (s.Get key).1 (s.Get key).2, s)
  | .Delete key => (.found (s.Delete key).1, (s.Delete key).2)

/-- Where a goroutine stands in its call: before `s.mu.Lock()` or
`s.mu.RLock()`; holding the mutex, before the first statement on `s.data`; in
the middle of a read of `s.data` (`v, ok := s.data[key]`); in `Delete`, after
that read, with the flag read; in the middle of a write of `s.data`
(`s.data[key] = val`, `delete(s.data, key)`); after the last statement on
`s.data`, before the deferred unlock, with the value to return; returned. -/
inductive Pc
  | start
  | locked
  | reading
  | checked (ok : Bool)
  | writing
  | unlocking (r : Ret)
  | returned (r : Ret)
deriving DecidableEq, Repr

/-- Whether the call has returned. -/
def Pc.done : Pc → Bool
  | .returned _ => true
  | _ => false

/-- Whether the call is past its last statement on `s.data`. -/
def Pc.passed : Pc → Bool
  | .unlocking _ => true
  | .returned _ => true
  | _ => false

/-- Whether the goroutine is between the lock and the unlock of its call. -/
def Pc.inside : Pc → Bool
  | .start => false
  | .returned _ => false
  | _ => true

/-- The value the call returns, once it is past its last statement on
`s.data`. -/
def Pc.ret : Pc → Ret
  | .unlocking r => r
  | .returned r => r
  | _ => .unit

/-- The state of a `sync.RWMutex`: whether it is held for writing, and the
number of goroutines that hold it for reading. -/
structure RWMutex where
  writer : Bool
  readers : Nat
deriving DecidableEq, Repr

/-- The method `RWMutex.Lock`: `none` when the caller has to wait. -/
def RWMutex.Lock (mu : RWMutex) : Option RWMutex :=
  if mu.writer = false ∧ mu.readers = 0 then some ⟨true, 0⟩ else none

/-- The method `RWMutex.Unlock`. -/
def RWMutex.Unlock (mu : RWMutex) : RWMutex := ⟨false, mu.readers⟩

/-- The method `RWMutex.RLock`: `none` when the caller has to wait.  (The
library also makes a reader wait while a writer is waiting; leaving that out
only adds schedules.) -/
def RWMutex.RLock (mu : RWMutex) : Option RWMutex :=
  if mu.writer = false then some ⟨false, mu.readers + 1⟩ else none

/-- The method `RWMutex.RUnlock`. -/
def RWMutex.RUnlock (mu : RWMutex) : RWMutex := ⟨mu.writer, mu.readers - 1⟩

/-- The next step of the call `c` for a goroutine at `pc`: the new place in the
call, the mutex and `s.data` afterwards; `none` when the goroutine has to wait
or has returned.  A read of `s.data` takes its value, and a write its effect,
at the step that ends it. -/
def Call.step (c : Call) (pc : Pc) (mu : RWMutex) (data : GoMap) :
    Option (Pc × RWMutex × GoMap) :=
  match c, pc with
  | .Put _ _, .start => mu.Lock.map (fun mu1 => (.locked, mu1, data))
  | .Put _ _, .locked => some (.writing, mu, data)
  | .Put key val, .writing => some (.unlocking .unit, mu, data.insert key val)
  | .Put _ _, .unlocking r => some (.returned r, mu.Unlock, data)
  | .Get _, .start => mu.RLock.map (fun mu1 => (.locked, mu1, data))
  | .Get _, .locked => some (.reading, mu, data)
  | .Get key, .reading =>
    some (.unlocking (.value (data.index key).1 (data.index key).2), mu, data)
  | .Get _, .unlocking r => some (.returned r, mu.RUnlock, data)
  | .Delete _, .start => mu.Lock.map (fun mu1 => (.locked, mu1, data))
  | .Delete _, .locked => some (.reading, mu, data)
  | .Delete key, .reading => some (.checked (data.index key).2, mu, data)
  | .Delete _, .checked true => some (.writing, mu, data)
  | .Delete _, .checked false => some (.unlocking (.found false), mu, data)
  | .Delete key, .writing => some (.unlocking (.found true), mu, data.erase key)
  | .Delete _, .unlocking r => some (.returned r, mu.Unlock, data)
  | _, _ => none

/-- An access to `s.data` that a step begins. -/
inductive Access
  | none
  | read
  | write
deriving DecidableEq, Repr

/-- The access to `s.data` that the next step of the call `c` at `pc`
begins. -/
def Call.begins (c : Call) (pc : Pc) : Access :=
  match c, pc with
  | .Put _ _, .locked => .write
  | .Get _, .locked => .read
  | .Delete _, .locked => .read
  | .Delete _, .checked true => .write
  | _, _ => .none

/-- One `Store` shared by goroutines: the mutex, the map, where each goroutine
stands, and whether a data race on the map has happened. -/
structure Shared where
  mu : RWMutex
  data : GoMap
  pcs : Nat → Pc
  raced : Bool

/-- The store holding `data`, unlocked, with every goroutine before its call. -/
def Shared.init (data : GoMap) : Shared := ⟨⟨false, 0⟩, data, fun _ => .start, false⟩

/-- Whether beginning the access `a` is a data race: a write to the map is in
progress, or `a` is a write and a read of the map is in progress. -/
def Shared.races (calls : List Call) (σ : Shared) (a : Access) : Bool :=
  match a with
  | .none => false
  | .read => (List.range calls.length).any (fun j => decide (σ.pcs j = .writing))
  | .write =>
    (List.range calls.length).any (fun j => decide (σ.pcs j = .writing ∨ σ.pcs j = .reading))

/-- The scheduler lets goroutine `i`, which carries out `calls[i]`, take its
next step; nothing happens when that goroutine has to wait or has returned. -/
def Shared.step (calls : List Call) (σ : Shared) (i : Nat) : Shared :=
  match calls[i]? with
  | none => σ
  | some c =>
    match c.step (σ.pcs i) σ.mu σ.data with
    | none => σ
    | some next =>
      ⟨next.2.1, next.2.2, Function.update σ.pcs i next.1,
        σ.raced || σ.races calls (c.begins (σ.pcs i))⟩

/-- The goroutines run under the schedule `schedule`. -/
def Shared.run (calls : List Call) (schedule : List Nat) (σ : Shared) : Shared :=
  schedule.foldl (Shared.step calls) σ

/-- Whether every call has returned. -/
def Shared.allDone (calls : List Call) (σ : Shared) : Bool :=
  (List.range calls.length).all (fun i => (σ.pcs i).done)

/-- The calls carried out one after the other in the order `order`: the value
returned by each, and the store at the end. -/
def runInOrder (calls : List Call) (order : List Nat) (s : Store) : List (Nat × Ret) × Store :=
  order.foldl
    (fun acc i =>
      match calls[i]? with
      | some c => (acc.1 ++ [(i, (c.run acc.2).1)], (c.run acc.2).2)
      | none => acc)
    ([], s)

/-- Whether a goroutine at `pc` in the call `c` holds the mutex for writing. -/
def Call.holdsLock (c : Call) (pc : Pc) : Bool :=
  match c with
  | .Get _ => false
  | _ => pc.inside

/-- One when goroutine `j` is in a `Get` and holds the mutex for reading, zero
otherwise. -/
def readHolding (calls : List Call) (pcs : Nat → Pc) (j : Nat) : Nat :=
  match calls[j]? with
  | some (.Get _) => if (pcs j).inside then 1 else 0
  | _ => 0

/-- The number of goroutines that hold the mutex for reading. -/
def readHolders (calls : List Call) (pcs : Nat → Pc) : Nat :=
  ((List.range calls.length).map (readHolding calls pcs)).sum

/-- The state `σ` is what the calls listed in `lin`, carried out one after the
other from the store `s0`, lead to: those calls are the ones past their last
statement on `s.data`, each has the value of its turn, and the map is the one at
the end. -/
structure Linearized (calls : List Call) (s0 : Store) (σ : Shared) (lin : List Nat) : Prop where
  started : ∀ i, σ.pcs i ≠ .start → i < calls.length
  nodup : lin.Nodup
  mem : ∀ i, i ∈ lin ↔ (σ.pcs i).passed = true
  seq : runInOrder calls lin s0 = (lin.map (fun j => (j, (σ.pcs j).ret)), ⟨σ.data⟩)

/-- Mutual exclusion in the state `σ`: no data race has happened; the mutex is
held for writing when a goroutine is between `Lock` and `Unlock`, and at most
one goroutine is; the mutex counts the goroutines between `RLock` and
`RUnlock`, and there is none while it is held for writing; a `Get` never writes;
and what a `Delete` has read of the map still holds. -/
structure Exclusive (calls : List Call) (σ : Shared) : Prop where
  norace : σ.raced = false
  held : ∀ (i : Nat) (c : Call), calls[i]? = some c → c.holdsLock (σ.pcs i) = true →
    σ.mu.writer = true
  alone : ∀ (i j : Nat) (c c' : Call), calls[i]? = some c → calls[j]? = some c' →
    c.holdsLock (σ.pcs i) = true → c'.holdsLock (σ.pcs j) = true → i = j
  count : σ.mu.readers = readHolders calls σ.pcs
  apart : σ.mu.writer = true → σ.mu.readers = 0
  shape : ∀ (i : Nat) (key : Bytes), calls[i]? = some (.Get key) → σ.pcs i ≠ .writing
  flag : ∀ (i : Nat) (key : Bytes) (ok : Bool), calls[i]? = some (.Delete key) →
    σ.pcs i = .checked ok → ok = (σ.data.index key).2
  present : ∀ (i : Nat) (key : Bytes), calls[i]? = some (.Delete key) →
    σ.pcs i = .writing → (σ.data.index key).2 = true

/-! ## `internal/store/store.go` over a memory with aliasing

In Go a `[]byte` and a map are references: two slices may share a backing
array, two variables may hold the same map.  The sequential model above keeps
contents only.  Here the methods of `Store` are modelled once more over an
explicit memory of byte arrays and map objects, so that what `Dump` and `Load`
share with their callers can be stated. -/

/-- A `[]byte` value: the address of its backing array, the offset of its first
element in that array, and its length. -/
structure SliceRef where
  array : Nat
  off : Nat
  len : Nat
deriving DecidableEq, Repr

/-- The nil slice. -/
def SliceRef.nil : SliceRef := ⟨0, 0, 0⟩

/-- A `map[string][]byte` object. -/
abbrev MapObj := AList (fun _ : Bytes => SliceRef)

/-- The memory: the byte arrays and the map objects, each at its address, and
the field `data` of the `Store` (the address of its map). -/
structure Mem where
  arrays : List Bytes
  maps : List MapObj
  data : Nat

/-- The array at an address. -/
def Mem.arrayAt (m : Mem) (a : Nat) : Bytes := m.arrays.getD a []

/-- The map object at an address. -/
def Mem.mapAt (m : Mem) (mp : Nat) : MapObj := m.maps.getD mp ∅

/-- The elements of a slice. -/
def Mem.bytes (m : Mem) (v : SliceRef) : Bytes := ((m.arrayAt v.array).drop v.off).take v.len

/-- Go `v, ok := mp[key]` on the map at `mp`, with the elements of `v`. -/
def Mem.index (m : Mem) (mp : Nat) (key : Bytes) : Bytes × Bool :=
  match (m.mapAt mp).lookup key with
  | some v => (m.bytes v, true)
  | none => ([], false)

/-- Go `make([]byte, n)`: a slice over a new array of `n` zero bytes. -/
def Mem.makeSlice (m : Mem) (n : Nat) : SliceRef × Mem :=
  (⟨m.arrays.length, 0, n⟩, { m with arrays := m.arrays ++ [makeBytes n] })

/-- The elements of the slice `v` overwritten with `elems`. -/
def Mem.setElems (m : Mem) (v : SliceRef) (elems : Bytes) : Mem :=
  let array := m.arrayAt v.array
  let written := array.take v.off ++ elems ++ array.drop (v.off + elems.length)
  { m with arrays := m.arrays.set v.array written }

/-- Go `copy(dst, src)`. -/
def Mem.copy (m : Mem) (dst src : SliceRef) : Mem :=
  m.setElems dst (goCopy (m.bytes dst) (m.bytes src))

/-- Go `v[i] = b`; nothing is written when `i` is out of range (the statement
panics). -/
def Mem.setIndex (m : Mem) (v : SliceRef) (i : Nat) (b : Byte) : Mem :=
  if i < v.len then
    { m with arrays := m.arrays.set v.array ((m.arrayAt v.array).set (v.off + i) b) }
  else m

/-- Go `make(map[string][]byte, n)`: the address of a new empty map. -/
def Mem.makeMap (m : Mem) : Nat × Mem := (m.maps.length, { m with maps := m.maps ++ [∅] })

/-- Go `mp[key] = val`. -/
def Mem.mapAssign (m : Mem) (mp : Nat) (key : Bytes) (val : SliceRef) : Mem :=
  { m with maps := m.maps.set mp ((m.mapAt mp).insert key val) }

/-- Go `delete(mp, key)`. -/
def Mem.mapDelete (m : Mem) (mp : Nat) (key : Bytes) : Mem :=
  { m with maps := m.maps.set mp ((m.mapAt mp).erase key) }

/-- The constructor `NewStore` in an empty memory. -/
def Mem.NewStore : Mem := ⟨[], [∅], 0⟩

/-- The method `Store.Put`: the slice is stored as it is. -/
def Mem.Put (m : Mem) (key : Bytes) (val : SliceRef) : Mem := m.mapAssign m.data key val

/-- The method `Store.Get`: the slice held by the map is returned as it is. -/
def Mem.Get (m : Mem) (key : Bytes) : SliceRef × Bool :=
  match (m.mapAt m.data).lookup key with
  | some v => (v, true)
  | none => (SliceRef.nil, false)

/-- The method `Store.Delete`. -/
def Mem.Delete (m : Mem) (key : Bytes) : Bool × Mem :=
  let ok := (m.Get key).2
  if ok then (ok, m.mapDelete m.data key) else (ok, m)

/-- Body of the loops of `Dump` and `Load` for one entry of the source map:
`vv := make([]byte, len(v)); copy(vv, v); dst[k] = vv`. -/
def Mem.copyEntry (dst : Nat) (m : Mem) (e : Sigma (fun _ : Bytes => SliceRef)) : Mem :=
  let made := m.makeSlice e.2.len
  (made.2.copy made.1 e.2).mapAssign dst e.1 made.1

/-- The method `Store.Dump`: the address of the map returned, and the memory
afterwards.  The order of the entries stands for the order in which `range`
visits the map. -/
def Mem.Dump (m : Mem) : Nat × Mem :=
  let made := m.makeMap
  (made.1, (m.mapAt m.data).entries.foldl (Mem.copyEntry made.1) made.2)

/-- The method `Store.Load` on the map at `state`. -/
def Mem.Load (m : Mem) (state : Nat) : Mem :=
  let made := m.makeMap
  (m.mapAt state).entries.foldl (Mem.copyEntry made.1) { made.2 with data := made.1 }

/-- A later call on the store. -/
inductive StoreOp
  | Put (key : Bytes) (val : SliceRef)
  | Delete (key : Bytes)
  | Load (state : Nat)
deriving DecidableEq, Repr

/-- The call carried out. -/
def Mem.apply (m : Mem) (op : StoreOp) : Mem :=
  match op with
  | .Put key val => m.Put key val
  | .Delete key => (m.Delete key).2
  | .Load state => m.Load state

/-- A later change by the holder of a map: `mp[key] = val`, `delete(mp, key)`,
and `v[i] = b` on a slice. -/
inductive Change
  | assign (key : Bytes) (val : SliceRef)
  | delete (key : Bytes)
  | write (v : SliceRef) (i : Nat) (b : Byte)
deriving DecidableEq, Repr

/-- The change carried out by the holder of the map at `mp`. -/
def Mem.change (mp : Nat) (m : Mem) (ch : Change) : Mem :=
  match ch with
  | .assign key val => m.mapAssign mp key val
  | .delete key => m.mapDelete mp key
  | .write v i b => m.setIndex v i b

/-- Whether the map at `mp` is allocated and each of its values lies within its
backing array. -/
def Mem.validMap (m : Mem) (mp : Nat) : Bool :=
  decide (mp < m.maps.length) &&
    (m.mapAt mp).entries.all (fun e => decide (e.2.off + e.2.len ≤ (m.arrayAt e.2.array).length))

/-! # Properties -/

/-! ## The store -/

theorem cloneBytes_eq (v : Bytes) : cloneBytes v = v := by
  simp [cloneBytes, goCopy, makeBytes]

theorem index_eq_iff (m₁ m₂ : GoMap) (k₁ k₂ : Bytes) :
    m₁.index k₁ = m₂.index k₂ ↔ m₁.lookup k₁ = m₂.lookup k₂ := by
  unfold GoMap.index
  cases h₁ : m₁.lookup k₁ <;> cases h₂ : m₂.lookup k₂ <;> simp

theorem index_of_lookup_some {m : GoMap} {k v : Bytes} (h : m.lookup k = some v) :
    m.index k = (v, true) := by
  simp [GoMap.index, h]

theorem index_of_lookup_none {m : GoMap} {k : Bytes} (h : m.lookup k = none) :
    m.index k = ([], false) := by
  simp [GoMap.index, h]

theorem get_newStore (k : Bytes) : NewStore.Get k = ([], false) := rfl

theorem get_put_same (s : Store) (k v : Bytes) : (s.Put k v).Get k = (v, true) := by
  simp [Store.Put, Store.Get, GoMap.index, AList.lookup_insert]

theorem get_put_other (s : Store) {k k' : Bytes} (v : Bytes) (h : k' ≠ k) :
    (s.Put k v).Get k' = s.Get k' := by
  simp [Store.Put, Store.Get, GoMap.index, AList.lookup_insert_ne h]

theorem lookup_delete (s : Store) (k k' : Bytes) :
    (s.Delete k).2.data.lookup k' = if k' = k then none else s.data.lookup k' := by
  unfold Store.Delete GoMap.index
  cases h : s.data.lookup k with
  | none =>
    by_cases hk : k' = k
    · subst hk; simp [h]
    · simp [hk]
  | some v =>
    by_cases hk : k' = k
    · subst hk; simp [AList.lookup_erase]
    · simp [hk, AList.lookup_erase_ne hk]

theorem get_delete_same (s : Store) (k : Bytes) : (s.Delete k).2.Get k = ([], false) := by
  apply index_of_lookup_none
  simp [lookup_delete]

theorem get_delete_other (s : Store) {k k' : Bytes} (h : k' ≠ k) :
    (s.Delete k).2.Get k' = s.Get k' := by
  unfold Store.Get
  rw [index_eq_iff, lookup_delete, if_neg h]

theorem lookup_copyInto (k : Bytes) :
    ∀ (visit : List Entry) (dst : GoMap), visit.NodupKeys →
      (copyInto visit dst).lookup k = (visit.dlookup k).orElse (fun _ => dst.lookup k)
  | [], dst, _ => by simp [copyInto]
  | e :: vs, dst, hnd => by
    obtain ⟨k₀, v₀⟩ := e
    have hnd' := List.nodupKeys_cons.mp hnd
    have ih := lookup_copyInto k vs (dst.insert k₀ (cloneBytes v₀)) hnd'.2
    have hstep : copyInto (⟨k₀, v₀⟩ :: vs) dst = copyInto vs (dst.insert k₀ (cloneBytes v₀)) := rfl
    rw [hstep, ih]
    by_cases hk : k = k₀
    · subst hk
      have hnone : vs.dlookup k = none := List.dlookup_eq_none.mpr hnd'.1
      simp [hnone, AList.lookup_insert, cloneBytes_eq, List.dlookup_cons_eq]
    · rw [AList.lookup_insert_ne hk, List.dlookup_cons_ne _ _ hk]

theorem lookup_copyInto_empty (m : GoMap) (k : Bytes) :
    (copyInto m.entries ∅).lookup k = m.lookup k := by
  rw [lookup_copyInto k m.entries ∅ m.nodupKeys]
  change (m.lookup k).orElse (fun _ => none) = m.lookup k
  cases m.lookup k <;> rfl

theorem get_load (s : Store) (state : GoMap) (k : Bytes) : (s.Load state).Get k = state.index k := by
  unfold Store.Get Store.Load
  rw [index_eq_iff]
  exact lookup_copyInto_empty state k

theorem index_dump (s : Store) (k : Bytes) : s.Dump.index k = s.Get k := by
  unfold Store.Get Store.Dump
  rw [index_eq_iff]
  exact lookup_copyInto_empty s.data k

theorem keys_perm_of_lookup {m₁ m₂ : GoMap} (h : ∀ k, m₁.lookup k = m₂.lookup k) :
    m₁.keys.Perm m₂.keys := by
  rw [List.perm_ext_iff_of_nodup m₁.keys_nodup m₂.keys_nodup]
  intro k
  rw [← AList.mem_keys, ← AList.mem_keys, ← AList.lookup_isSome, ← AList.lookup_isSome, h k]

/-- **C5.** A store loaded from `s.Dump()` answers every `Get` as `s` does
(same keys, byte-for-byte equal values), whatever the loaded store held before;
the dumped map answers every look-up as `s` does and its keys are those of `s`,
each once. -/
theorem dump_load_roundtrip (s t : Store) :
    (∀ k, (t.Load s.Dump).Get k = s.Get k) ∧
    (∀ k, s.Dump.index k = s.Get k) ∧
    s.Dump.keys.Perm s.data.keys ∧ s.Dump.entries.length = s.data.entries.length := by
  refine ⟨fun k => ?_, index_dump s, ?_, ?_⟩
  · rw [get_load, index_dump]
  · exact keys_perm_of_lookup (lookup_copyInto_empty s.data)
  · have h := (keys_perm_of_lookup (lookup_copyInto_empty s.data)).length_eq
    simpa [AList.keys, List.keys, Store.Dump] using h

/-- **C10.** Last write wins: after `Put(k, v1)` and then `Put(k, v2)`,
`Get(k)` returns `v2` and reports the key as found. -/
theorem put_put_get (s : Store) (k v₁ v₂ : Bytes) :
    ((s.Put k v₁).Put k v₂).Get k = (v₂, true) :=
  get_put_same (s.Put k v₁) k v₂

/-! ## The models of `unicode/utf8` and of the strings of `encoding/json` -/

theorem utf8First_invalid (n : Nat) (h : (0x80 ≤ n ∧ n < 0xC2) ∨ 0xF4 < n) :
    utf8First n = (0, 0, 0) := by
  unfold utf8First
  rcases h with h | h
  · rw [if_neg (by omega), if_pos (by omega)]
  · rw [if_neg (by omega), if_neg (by omega), if_neg (by omega), if_neg (by omega),
      if_neg (by omega), if_neg (by omega), if_neg (by omega), if_neg (by omega),
      if_neg (by omega)]

theorem utf8First_two (n : Nat) (h : 0xC2 ≤ n) (h' : n ≤ 0xDF) :
    utf8First n = (2, 0x80, 0xBF) := by
  unfold utf8First
  rw [if_neg (by omega), if_neg (by omega), if_pos (by omega)]

theorem utf8First_three (n : Nat) (h : 0xE0 ≤ n) (h' : n ≤ 0xEF) :
    utf8First n = (3, if n = 0xE0 then 0xA0 else 0x80, if n = 0xED then 0x9F else 0xBF) := by
  unfold utf8First
  rw [if_neg (by omega), if_neg (by omega), if_neg (by omega)]
  by_cases h1 : n = 0xE0
  · rw [if_pos h1, if_pos h1, if_neg (by omega)]
  · rw [if_neg h1, if_neg h1]
    by_cases h2 : n = 0xED
    · rw [if_pos h2, if_pos h2]
    · rw [if_neg h2, if_neg h2, if_pos (by omega)]

theorem utf8First_four (n : Nat) (h : 0xF0 ≤ n) (h' : n ≤ 0xF4) :
    utf8First n = (4, if n = 0xF0 then 0x90 else 0x80, if n = 0xF4 then 0x8F else 0xBF) := by
  unfold utf8First
  rw [if_neg (by omega), if_neg (by omega), if_neg (by omega), if_neg (by omega),
    if_neg (by omega), if_neg (by omega)]
  by_cases h1 : n = 0xF0
  · rw [if_pos h1, if_pos h1, if_neg (by omega)]
  · rw [if_neg h1, if_neg h1]
    by_cases h2 : n = 0xF4
    · rw [if_pos h2, if_pos h2, if_neg (by omega)]
    · rw [if_neg h2, if_neg h2, if_pos (by omega)]

theorem byteOf_val (b : Byte) : byteOf b.val = b := by
  apply Fin.ext
  simp [byteOf, Fin.ofNat]

theorem byteOf_val_of_lt {n : Nat} (h : n < 256) : (byteOf n).val = n := by
  simp [byteOf, Fin.ofNat]; omega

theorem decodeRune_ascii (p0 : Byte) (t : Bytes) (h : p0.val < 0x80) :
    decodeRune (p0 :: t) = (p0.val, 1) := by
  have hx : utf8First p0.val = (1, 0, 0) := by
    unfold utf8First; rw [if_pos h]
  simp only [decodeRune, hx, if_true]

theorem decodeRune_bad_first (p0 : Byte) (t : Bytes)
    (h : (0x80 ≤ p0.val ∧ p0.val < 0xC2) ∨ 0xF4 < p0.val) :
    decodeRune (p0 :: t) = (RuneError, 1) := by
  simp only [decodeRune, utf8First_invalid _ h]
  rfl

theorem decodeRune_two (p0 b1 : Byte) (t : Bytes) (h0 : 0xC2 ≤ p0.val) (h0' : p0.val ≤ 0xDF)
    (h1 : 0x80 ≤ b1.val) (h1' : b1.val ≤ 0xBF) :
    decodeRune (p0 :: b1 :: t) = (p0.val % 32 * 64 + b1.val % 64, 2) := by
  simp only [decodeRune, utf8First_two _ h0 h0', List.getD_cons_succ, List.getD_cons_zero,
    List.length_cons]
  rw [if_neg (by omega), if_neg (by omega), if_neg (by omega), if_neg (by omega),
    if_pos (by omega)]

theorem decodeRune_two_bad (p0 : Byte) (t : Bytes) (h0 : 0xC2 ≤ p0.val) (h0' : p0.val ≤ 0xDF)
    (h : t = [] ∨ ∃ b1 t1, t = b1 :: t1 ∧ (b1.val < 0x80 ∨ 0xBF < b1.val)) :
    decodeRune (p0 :: t) = (RuneError, 1) := by
  rcases h with h | ⟨b1, t1, h, hb⟩
  · subst h
    simp only [decodeRune, utf8First_two _ h0 h0', List.length_cons, List.length_nil]
    rw [if_neg (by omega), if_neg (by omega), if_pos (by omega)]
  · subst h
    simp only [decodeRune, utf8First_two _ h0 h0', List.getD_cons_succ, List.getD_cons_zero,
      List.length_cons]
    rw [if_neg (by omega), if_neg (by omega), if_neg (by omega), if_pos hb]

theorem utf8First_three_ex (n : Nat) (h : 0xE0 ≤ n) (h' : n ≤ 0xEF) :
    ∃ lo hi, utf8First n = (3, lo, hi) ∧ (n = 0xE0 → lo = 0xA0) ∧ (n ≠ 0xE0 → lo = 0x80) ∧
      (n = 0xED → hi = 0x9F) ∧ (n ≠ 0xED → hi = 0xBF) := by
  refine ⟨_, _, utf8First_three n h h', ?_, ?_, ?_, ?_⟩ <;> intro hn <;> simp [hn]

theorem utf8First_four_ex (n : Nat) (h : 0xF0 ≤ n) (h' : n ≤ 0xF4) :
    ∃ lo hi, utf8First n = (4, lo, hi) ∧ (n = 0xF0 → lo = 0x90) ∧ (n ≠ 0xF0 → lo = 0x80) ∧
      (n = 0xF4 → hi = 0x8F) ∧ (n ≠ 0xF4 → hi = 0xBF) := by
  refine ⟨_, _, utf8First_four n h h', ?_, ?_, ?_, ?_⟩ <;> intro hn <;> simp [hn]

theorem decodeRune_three_cases (p0 : Byte) (t : Bytes) (h0 : 0xE0 ≤ p0.val) (h0' : p0.val ≤ 0xEF) :
    decodeRune (p0 :: t) = (RuneError, 1) ∨
    ∃ b1 b2 t2, t = b1 :: b2 :: t2 ∧
      0x80 ≤ b1.val ∧ b1.val ≤ 0xBF ∧ (p0.val = 0xE0 → 0xA0 ≤ b1.val) ∧
      (p0.val = 0xED → b1.val ≤ 0x9F) ∧ 0x80 ≤ b2.val ∧ b2.val ≤ 0xBF ∧
      decodeRune (p0 :: t) = (p0.val % 16 * 4096 + b1.val % 64 * 64 + b2.val % 64, 3) := by
  obtain ⟨lo, hi, hx, hl1, hl2, hh1, hh2⟩ := utf8First_three_ex _ h0 h0'
  rcases t with _ | ⟨b1, _ | ⟨b2, t2⟩⟩
  · left
    simp only [decodeRune, hx, List.length_cons, List.length_nil]
    rw [if_neg (by omega), if_neg (by omega), if_pos (by omega)]
  · left
    simp only [decodeRune, hx, List.length_cons, List.length_nil]
    rw [if_neg (by omega), if_neg (by omega), if_pos (by omega)]
  · simp only [decodeRune, hx, List.getD_cons_succ, List.getD_cons_zero, List.length_cons]
    rw [if_neg (by omega), if_neg (by omega), if_neg (by omega)]
    by_cases hb1 : b1.val < lo ∨ hi < b1.val
    · left; rw [if_pos hb1]
    · rw [if_neg hb1, if_neg (by omega)]
      by_cases hb2 : b2.val < 0x80 ∨ 0xBF < b2.val
      · left; rw [if_pos hb2]
      · right
        rw [if_neg hb2, if_pos (by omega)]
        exact ⟨b1, b2, t2, rfl, by omega, by omega, by omega, by omega, by omega, by omega, rfl⟩

theorem decodeRune_four_cases (p0 : Byte) (t : Bytes) (h0 : 0xF0 ≤ p0.val) (h0' : p0.val ≤ 0xF4) :
    decodeRune (p0 :: t) = (RuneError, 1) ∨
    ∃ b1 b2 b3 t3, t = b1 :: b2 :: b3 :: t3 ∧
      0x80 ≤ b1.val ∧ b1.val ≤ 0xBF ∧ (p0.val = 0xF0 → 0x90 ≤ b1.val) ∧
      (p0.val = 0xF4 → b1.val ≤ 0x8F) ∧ 0x80 ≤ b2.val ∧ b2.val ≤ 0xBF ∧
      0x80 ≤ b3.val ∧ b3.val ≤ 0xBF ∧
      decodeRune (p0 :: t) =
        (p0.val % 8 * 262144 + b1.val % 64 * 4096 + b2.val % 64 * 64 + b3.val % 64, 4) := by
  obtain ⟨lo, hi, hx, hl1, hl2, hh1, hh2⟩ := utf8First_four_ex _ h0 h0'
  rcases t with _ | ⟨b1, _ | ⟨b2, _ | ⟨b3, t3⟩⟩⟩
  · left
    simp only [decodeRune, hx, List.length_cons, List.length_nil]
    rw [if_neg (by omega), if_neg (by omega), if_pos (by omega)]
  · left
    simp only [decodeRune, hx, List.length_cons, List.length_nil]
    rw [if_neg (by omega), if_neg (by omega), if_pos (by omega)]
  · left
    simp only [decodeRune, hx, List.length_cons, List.length_nil]
    rw [if_neg (by omega), if_neg (by omega), if_pos (by omega)]
  · simp only [decodeRune, hx, List.getD_cons_succ, List.getD_cons_zero, List.length_cons]
    rw [if_neg (by omega), if_neg (by omega), if_neg (by omega)]
    by_cases hb1 : b1.val < lo ∨ hi < b1.val
    · left; rw [if_pos hb1]
    · rw [if_neg hb1, if_neg (by omega)]
      by_cases hb2 : b2.val < 0x80 ∨ 0xBF < b2.val
      · left; rw [if_pos hb2]
      · rw [if_neg hb2, if_neg (by omega)]
        by_cases hb3 : b3.val < 0x80 ∨ 0xBF < b3.val
        · left; rw [if_pos hb3]
        · right
          rw [if_neg hb3]
          exact ⟨b1, b2, b3, t3, rfl, by omega, by omega, by omega, by omega, by omega, by omega,
            by omega, by omega, rfl⟩

/-- The shapes of the result of `utf8.DecodeRune` on a non-empty input. -/
theorem decodeRune_cases (p0 : Byte) (t : Bytes) :
    (p0.val < 0x80 ∧ decodeRune (p0 :: t) = (p0.val, 1)) ∨
    (0x80 ≤ p0.val ∧ decodeRune (p0 :: t) = (RuneError, 1)) ∨
    (∃ b1 t1, t = b1 :: t1 ∧ 0xC2 ≤ p0.val ∧ p0.val ≤ 0xDF ∧ 0x80 ≤ b1.val ∧ b1.val ≤ 0xBF ∧
      decodeRune (p0 :: t) = (p0.val % 32 * 64 + b1.val % 64, 2)) ∨
    (∃ b1 b2 t2, t = b1 :: b2 :: t2 ∧ 0xE0 ≤ p0.val ∧ p0.val ≤ 0xEF ∧
      0x80 ≤ b1.val ∧ b1.val ≤ 0xBF ∧ (p0.val = 0xE0 → 0xA0 ≤ b1.val) ∧
      (p0.val = 0xED → b1.val ≤ 0x9F) ∧ 0x80 ≤ b2.val ∧ b2.val ≤ 0xBF ∧
      decodeRune (p0 :: t) = (p0.val % 16 * 4096 + b1.val % 64 * 64 + b2.val % 64, 3)) ∨
    (∃ b1 b2 b3 t3, t = b1 :: b2 :: b3 :: t3 ∧ 0xF0 ≤ p0.val ∧ p0.val ≤ 0xF4 ∧
      0x80 ≤ b1.val ∧ b1.val ≤ 0xBF ∧ (p0.val = 0xF0 → 0x90 ≤ b1.val) ∧
      (p0.val = 0xF4 → b1.val ≤ 0x8F) ∧ 0x80 ≤ b2.val ∧ b2.val ≤ 0xBF ∧
      0x80 ≤ b3.val ∧ b3.val ≤ 0xBF ∧
      decodeRune (p0 :: t) =
        (p0.val % 8 * 262144 + b1.val % 64 * 4096 + b2.val % 64 * 64 + b3.val % 64, 4)) := by
  by_cases hA : p0.val < 0x80
  · exact Or.inl ⟨hA, decodeRune_ascii p0 t hA⟩
  have hge : 0x80 ≤ p0.val := Nat.le_of_not_lt hA
  refine Or.inr ?_
  by_cases hB : p0.val < 0xC2 ∨ 0xF4 < p0.val
  · exact Or.inl ⟨hge, decodeRune_bad_first p0 t (by omega)⟩
  by_cases h2 : p0.val ≤ 0xDF
  · have h0 : 0xC2 ≤ p0.val := by omega
    rcases t with _ | ⟨b1, t1⟩
    · exact Or.inl ⟨hge, decodeRune_two_bad p0 [] h0 h2 (Or.inl rfl)⟩
    · by_cases hb : b1.val < 0x80 ∨ 0xBF < b1.val
      · exact Or.inl ⟨hge, decodeRune_two_bad p0 _ h0 h2 (Or.inr ⟨b1, t1, rfl, hb⟩)⟩
      · exact Or.inr (Or.inl ⟨b1, t1, rfl, h0, h2, by omega, by omega,
          decodeRune_two p0 b1 t1 h0 h2 (by omega) (by omega)⟩)
  by_cases h3 : p0.val ≤ 0xEF
  · rcases decodeRune_three_cases p0 t (by omega) h3 with h | ⟨b1, b2, t2, ht, h⟩
    · exact Or.inl ⟨hge, h⟩
    · exact Or.inr (Or.inr (Or.inl ⟨b1, b2, t2, ht, by omega, h3, h⟩))
  · rcases decodeRune_four_cases p0 t (by omega) (by omega) with h | ⟨b1, b2, b3, t3, ht, h⟩
    · exact Or.inl ⟨hge, h⟩
    · exact Or.inr (Or.inr (Or.inr ⟨b1, b2, b3, t3, ht, by omega, by omega, h⟩))

/-! ### Runes -/

theorem appendRune_two (p0 b1 : Byte) (h0 : 0xC2 ≤ p0.val) (h0' : p0.val ≤ 0xDF)
    (h1 : 0x80 ≤ b1.val) (h1' : b1.val ≤ 0xBF) :
    appendRune (p0.val % 32 * 64 + b1.val % 64) = [p0, b1] := by
  unfold appendRune
  rw [if_neg (by omega), if_pos (by omega)]
  have e0 : byteOf (0xC0 + (p0.val % 32 * 64 + b1.val % 64) / 64) = p0 := by
    apply Fin.ext; rw [byteOf_val_of_lt (by omega)]; omega
  have e1 : byteOf (0x80 + (p0.val % 32 * 64 + b1.val % 64) % 64) = b1 := by
    apply Fin.ext; rw [byteOf_val_of_lt (by omega)]; omega
  rw [e0, e1]

theorem appendRune_three (p0 b1 b2 : Byte) (h0 : 0xE0 ≤ p0.val) (h0' : p0.val ≤ 0xEF)
    (h1 : 0x80 ≤ b1.val) (h1' : b1.val ≤ 0xBF) (hE0 : p0.val = 0xE0 → 0xA0 ≤ b1.val)
    (hED : p0.val = 0xED → b1.val ≤ 0x9F) (h2 : 0x80 ≤ b2.val) (h2' : b2.val ≤ 0xBF) :
    appendRune (p0.val % 16 * 4096 + b1.val % 64 * 64 + b2.val % 64) = [p0, b1, b2] := by
  unfold appendRune
  rw [if_neg (by omega), if_neg (by omega), if_neg (by omega), if_pos (by omega)]
  have e0 : byteOf (0xE0 + (p0.val % 16 * 4096 + b1.val % 64 * 64 + b2.val % 64) / 4096) = p0 := by
    apply Fin.ext; rw [byteOf_val_of_lt (by omega)]; omega
  have e1 : byteOf (0x80 + (p0.val % 16 * 4096 + b1.val % 64 * 64 + b2.val % 64) / 64 % 64)
      = b1 := by
    apply Fin.ext; rw [byteOf_val_of_lt (by omega)]; omega
  have e2 : byteOf (0x80 + (p0.val % 16 * 4096 + b1.val % 64 * 64 + b2.val % 64) % 64) = b2 := by
    apply Fin.ext; rw [byteOf_val_of_lt (by omega)]; omega
  rw [e0, e1, e2]

theorem appendRune_four (p0 b1 b2 b3 : Byte) (h0 : 0xF0 ≤ p0.val) (h0' : p0.val ≤ 0xF4)
    (h1 : 0x80 ≤ b1.val) (h1' : b1.val ≤ 0xBF) (hF0 : p0.val = 0xF0 → 0x90 ≤ b1.val)
    (hF4 : p0.val = 0xF4 → b1.val ≤ 0x8F) (h2 : 0x80 ≤ b2.val) (h2' : b2.val ≤ 0xBF)
    (h3 : 0x80 ≤ b3.val) (h3' : b3.val ≤ 0xBF) :
    appendRune (p0.val % 8 * 262144 + b1.val % 64 * 4096 + b2.val % 64 * 64 + b3.val % 64)
      = [p0, b1, b2, b3] := by
  unfold appendRune
  rw [if_neg (by omega), if_neg (by omega), if_neg (by omega), if_neg (by omega)]
  have e0 : byteOf (0xF0 +
      (p0.val % 8 * 262144 + b1.val % 64 * 4096 + b2.val % 64 * 64 + b3.val % 64) / 262144)
      = p0 := by
    apply Fin.ext; rw [byteOf_val_of_lt (by omega)]; omega
  have e1 : byteOf (0x80 +
      (p0.val % 8 * 262144 + b1.val % 64 * 4096 + b2.val % 64 * 64 + b3.val % 64) / 4096 % 64)
      = b1 := by
    apply Fin.ext; rw [byteOf_val_of_lt (by omega)]; omega
  have e2 : byteOf (0x80 +
      (p0.val % 8 * 262144 + b1.val % 64 * 4096 + b2.val % 64 * 64 + b3.val % 64) / 64 % 64)
      = b2 := by
    apply Fin.ext; rw [byteOf_val_of_lt (by omega)]; omega
  have e3 : byteOf (0x80 +
      (p0.val % 8 * 262144 + b1.val % 64 * 4096 + b2.val % 64 * 64 + b3.val % 64) % 64)
      = b3 := by
    apply Fin.ext; rw [byteOf_val_of_lt (by omega)]; omega
  rw [e0, e1, e2, e3]

theorem decodeRune_three (p0 b1 b2 : Byte) (t : Bytes) (h0 : 0xE0 ≤ p0.val) (h0' : p0.val ≤ 0xEF)
    (h1 : 0x80 ≤ b1.val) (h1' : b1.val ≤ 0xBF) (hE0 : p0.val = 0xE0 → 0xA0 ≤ b1.val)
    (hED : p0.val = 0xED → b1.val ≤ 0x9F) (h2 : 0x80 ≤ b2.val) (h2' : b2.val ≤ 0xBF) :
    decodeRune (p0 :: b1 :: b2 :: t) =
      (p0.val % 16 * 4096 + b1.val % 64 * 64 + b2.val % 64, 3) := by
  obtain ⟨lo, hi, hx, hl1, hl2, hh1, hh2⟩ := utf8First_three_ex _ h0 h0'
  simp only [decodeRune, hx, List.getD_cons_succ, List.getD_cons_zero, List.length_cons]
  rw [if_neg (by omega), if_neg (by omega), if_neg (by omega), if_neg (by omega),
    if_neg (by omega), if_neg (by omega), if_pos (by omega)]

theorem decodeRune_four (p0 b1 b2 b3 : Byte) (t : Bytes) (h0 : 0xF0 ≤ p0.val)
    (h0' : p0.val ≤ 0xF4) (h1 : 0x80 ≤ b1.val) (h1' : b1.val ≤ 0xBF)
    (hF0 : p0.val = 0xF0 → 0x90 ≤ b1.val) (hF4 : p0.val = 0xF4 → b1.val ≤ 0x8F)
    (h2 : 0x80 ≤ b2.val) (h2' : b2.val ≤ 0xBF) (h3 : 0x80 ≤ b3.val) (h3' : b3.val ≤ 0xBF) :
    decodeRune (p0 :: b1 :: b2 :: b3 :: t) =
      (p0.val % 8 * 262144 + b1.val % 64 * 4096 + b2.val % 64 * 64 + b3.val % 64, 4) := by
  obtain ⟨lo, hi, hx, hl1, hl2, hh1, hh2⟩ := utf8First_four_ex _ h0 h0'
  simp only [decodeRune, hx, List.getD_cons_succ, List.getD_cons_zero, List.length_cons]
  rw [if_neg (by omega), if_neg (by omega), if_neg (by omega), if_neg (by omega),
    if_neg (by omega), if_neg (by omega), if_neg (by omega), if_neg (by omega)]

/-- A byte outside ASCII starts either nothing valid, or a well-formed rune
`u` of two to four bytes, all outside ASCII, which `utf8.AppendRune` writes
back as they are. -/
theorem decodeRune_nonascii (c : Byte) (rest : Bytes) (hc : 0x80 ≤ c.val) :
    decodeRune (c :: rest) = (RuneError, 1) ∨
    ∃ u tl, c :: rest = u ++ tl ∧ 2 ≤ u.length ∧ u.length ≤ 4 ∧
      (decodeRune (c :: rest)).2 = u.length ∧
      appendRune (decodeRune (c :: rest)).1 = u ∧ (∀ b ∈ u, 0x80 ≤ b.val) ∧
      ∀ tl', decodeRune (u ++ tl') = decodeRune (c :: rest) := by
  rcases decodeRune_cases c rest with ⟨h, _⟩ | ⟨_, h⟩ | ⟨b1, t1, ht, h0, h0', h1, h1', hd⟩ |
      ⟨b1, b2, t2, ht, h0, h0', h1, h1', hE0, hED, h2, h2', hd⟩ |
      ⟨b1, b2, b3, t3, ht, h0, h0', h1, h1', hF0, hF4, h2, h2', h3, h3', hd⟩
  · omega
  · exact Or.inl h
  · right
    refine ⟨[c, b1], t1, by rw [ht]; rfl, by simp, by simp, by rw [hd]; rfl, ?_, ?_, ?_⟩
    · rw [hd]; exact appendRune_two c b1 h0 h0' h1 h1'
    · intro b hb
      simp only [List.mem_cons, List.mem_singleton, List.not_mem_nil, or_false] at hb
      rcases hb with rfl | rfl <;> omega
    · intro tl'
      rw [hd]; exact decodeRune_two c b1 tl' h0 h0' h1 h1'
  · right
    refine ⟨[c, b1, b2], t2, by rw [ht]; rfl, by simp, by simp, by rw [hd]; rfl, ?_, ?_, ?_⟩
    · rw [hd]; exact appendRune_three c b1 b2 h0 h0' h1 h1' hE0 hED h2 h2'
    · intro b hb
      simp only [List.mem_cons, List.mem_singleton, List.not_mem_nil, or_false] at hb
      rcases hb with rfl | rfl | rfl <;> omega
    · intro tl'
      rw [hd]; exact decodeRune_three c b1 b2 tl' h0 h0' h1 h1' hE0 hED h2 h2'
  · right
    refine ⟨[c, b1, b2, b3], t3, by rw [ht]; rfl, by simp, by simp, by rw [hd]; rfl, ?_, ?_, ?_⟩
    · rw [hd]; exact appendRune_four c b1 b2 b3 h0 h0' h1 h1' hF0 hF4 h2 h2' h3 h3'
    · intro b hb
      simp only [List.mem_cons, List.mem_singleton, List.not_mem_nil, or_false] at hb
      rcases hb with rfl | rfl | rfl | rfl <;> omega
    · intro tl'
      rw [hd]; exact decodeRune_four c b1 b2 b3 tl' h0 h0' h1 h1' hF0 hF4 h2 h2' h3 h3'

theorem utf8First_le (n : Nat) : (utf8First n).1 ≤ 4 := by
  by_cases h1 : n < 0x80
  · have : utf8First n = (1, 0, 0) := by unfold utf8First; rw [if_pos h1]
    rw [this]; decide
  by_cases h2 : n < 0xC2 ∨ 0xF4 < n
  · rw [utf8First_invalid n (by omega)]; decide
  by_cases h3 : n ≤ 0xDF
  · rw [utf8First_two n (by omega) h3]; decide
  by_cases h4 : n ≤ 0xEF
  · obtain ⟨lo, hi, hx, _⟩ := utf8First_three_ex n (by omega) h4
    rw [hx]; exact Nat.le_succ 3
  · obtain ⟨lo, hi, hx, _⟩ := utf8First_four_ex n (by omega) (by omega)
    rw [hx]

theorem decodeRune_take4 (s : Bytes) : decodeRune (s.take 4) = decodeRune s := by
  rcases s with _ | ⟨p0, _ | ⟨b1, _ | ⟨b2, _ | ⟨b3, t⟩⟩⟩⟩
  · rfl
  · rfl
  · rfl
  · rfl
  · have hle := utf8First_le p0.val
    simp only [List.take_succ_cons, List.take_zero, decodeRune, List.getD_cons_succ,
      List.getD_cons_zero, List.length_cons, List.length_nil]
    have n1 : ¬ (0 + 1 + 1 + 1 + 1 < (utf8First p0.val).1) := by omega
    have n2 : ¬ (t.length + 1 + 1 + 1 + 1 < (utf8First p0.val).1) := by omega
    simp only [if_neg n1, if_neg n2]

/-! ### Loops that pass over the bytes of a unit -/

theorem unquoteFrom_skip : ∀ (pre tail : Bytes), unquoteFrom pre.length (pre ++ tail) = unquoteFrom 0 tail
  | [], tail => rfl
  | _ :: pre, tail => by
    rw [List.length_cons, List.cons_append, unquoteFrom]
    exact unquoteFrom_skip pre tail

theorem escapeFrom_skip : ∀ (pre tail : Bytes), escapeFrom pre.length (pre ++ tail) = escapeFrom 0 tail
  | [], tail => rfl
  | _ :: pre, tail => by
    rw [List.length_cons, List.cons_append, escapeFrom]
    exact escapeFrom_skip pre tail

theorem coerceFrom_skip : ∀ (pre tail : Bytes), coerceFrom pre.length (pre ++ tail) = coerceFrom 0 tail
  | [], tail => rfl
  | _ :: pre, tail => by
    rw [List.length_cons, List.cons_append, coerceFrom]
    exact coerceFrom_skip pre tail

theorem utf8ValidFrom_skip :
    ∀ (pre tail : Bytes), utf8ValidFrom pre.length (pre ++ tail) = utf8ValidFrom 0 tail
  | [], tail => rfl
  | _ :: pre, tail => by
    rw [List.length_cons, List.cons_append, utf8ValidFrom]
    exact utf8ValidFrom_skip pre tail

/-- One unit read by `unquoteBytes`. -/
theorem unquoteFrom_unit (c : Byte) (u tail out : Bytes)
    (h : unquoteUnit (c :: u ++ tail) = some (out, u.length + 1)) :
    unquoteFrom 0 (c :: u ++ tail) = (unquoteFrom 0 tail).map (out ++ ·) := by
  rw [List.cons_append, unquoteFrom]
  rw [List.cons_append] at h
  rw [h]
  simp only [Nat.add_sub_cancel, unquoteFrom_skip]
  cases unquoteFrom 0 tail <;> rfl

example (tail : Bytes) : unquoteUnit (ch '\\' :: ch 'n' :: tail) = some ([ch '\n'], 2) := by
  simp [unquoteUnit, ch]
  decide

/-! ### Strings: one unit through the scanner and through `unquoteBytes` -/

theorem hexVal_hex (n : Nat) (h : n < 16) : hexVal (hex.getD n 0) = some n := by
  interval_cases n <;> decide

theorem isHexDigit_hex (n : Nat) (h : n < 16) : isHexDigit (hex.getD n 0) = true := by
  interval_cases n <;> decide

theorem next_inString_plain (body : Bytes) (stk : List Frame) (c : Byte) (h : 0x20 ≤ c.val)
    (hq : c ≠ ch '"') (hb : c ≠ ch '\\') :
    Scanner.next ⟨.inString body, stk⟩ c = ⟨.inString (body ++ [c]), stk⟩ := by
  simp only [Scanner.next]
  rw [if_neg hq, if_neg hb, if_neg (by omega)]

theorem next_inString_quote (body str : Bytes) (stk : List Frame) (h : unquote body = some str) :
    Scanner.next ⟨.inString body, stk⟩ (ch '"') = ⟨.endValue (.string str), stk⟩ := by
  simp only [Scanner.next, if_true, h]

theorem scan_escape (body : Bytes) (stk : List Frame) (e : Byte)
    (he : e = ch 'b' ∨ e = ch 'f' ∨ e = ch 'n' ∨ e = ch 'r' ∨ e = ch 't' ∨ e = ch '\\' ∨
      e = ch '/' ∨ e = ch '"') :
    List.foldl Scanner.next ⟨.inString body, stk⟩ [ch '\\', e] =
      ⟨.inString (body ++ [ch '\\', e]), stk⟩ := by
  have h1 : Scanner.next ⟨.inString body, stk⟩ (ch '\\') = ⟨.inStringEsc (body ++ [ch '\\']), stk⟩ := by
    simp +decide [Scanner.next]
  have h2 : Scanner.next ⟨.inStringEsc (body ++ [ch '\\']), stk⟩ e =
      ⟨.inString (body ++ [ch '\\'] ++ [e]), stk⟩ := by
    simp only [Scanner.next]
    rw [if_pos he]
  simp only [List.foldl_cons, List.foldl_nil, h1, h2, List.append_assoc, List.singleton_append]

theorem scan_escapeU (body : Bytes) (stk : List Frame) (d1 d2 d3 d4 : Byte)
    (h1 : isHexDigit d1 = true) (h2 : isHexDigit d2 = true) (h3 : isHexDigit d3 = true)
    (h4 : isHexDigit d4 = true) :
    List.foldl Scanner.next ⟨.inString body, stk⟩ [ch '\\', ch 'u', d1, d2, d3, d4] =
      ⟨.inString (body ++ [ch '\\', ch 'u', d1, d2, d3, d4]), stk⟩ := by
  have e1 : Scanner.next ⟨.inString body, stk⟩ (ch '\\') = ⟨.inStringEsc (body ++ [ch '\\']), stk⟩ := by
    simp +decide [Scanner.next]
  have e2 : ∀ b, Scanner.next ⟨.inStringEsc b, stk⟩ (ch 'u') = ⟨.inStringEscU (b ++ [ch 'u']), stk⟩ := by
    intro b
    simp +decide [Scanner.next]
  have e3 : ∀ b, Scanner.next ⟨.inStringEscU b, stk⟩ d1 = ⟨.inStringEscU1 (b ++ [d1]), stk⟩ := by
    intro b; simp only [Scanner.next, h1, if_true]
  have e4 : ∀ b, Scanner.next ⟨.inStringEscU1 b, stk⟩ d2 = ⟨.inStringEscU12 (b ++ [d2]), stk⟩ := by
    intro b; simp only [Scanner.next, h2, if_true]
  have e5 : ∀ b, Scanner.next ⟨.inStringEscU12 b, stk⟩ d3 = ⟨.inStringEscU123 (b ++ [d3]), stk⟩ := by
    intro b; simp only [Scanner.next, h3, if_true]
  have e6 : ∀ b, Scanner.next ⟨.inStringEscU123 b, stk⟩ d4 = ⟨.inString (b ++ [d4]), stk⟩ := by
    intro b; simp only [Scanner.next, h4, if_true]
  simp only [List.foldl_cons, List.foldl_nil, e1, e2, e3, e4, e5, e6, List.append_assoc,
    List.singleton_append, List.cons_append, List.nil_append]

theorem scan_highBytes (stk : List Frame) :
    ∀ (u body : Bytes), (∀ b ∈ u, 0x80 ≤ b.val) →
      List.foldl Scanner.next ⟨.inString body, stk⟩ u = ⟨.inString (body ++ u), stk⟩
  | [], body, _ => by simp
  | b :: u, body, h => by
    have hb : 0x80 ≤ b.val := h b (List.mem_cons_self _ _)
    have hq : b ≠ ch '"' := by intro e; rw [e] at hb; revert hb; decide
    have hs : b ≠ ch '\\' := by intro e; rw [e] at hb; revert hb; decide
    rw [List.foldl_cons, next_inString_plain body stk b (by omega) hq hs,
      scan_highBytes stk u (body ++ [b]) (fun x hx => h x (List.mem_cons_of_mem _ hx))]
    simp

theorem unquoteUnit_plain (c : Byte) (tail : Bytes) (h : 0x20 ≤ c.val) (h' : c.val < 0x80)
    (hq : c ≠ ch '"') (hb : c ≠ ch '\\') :
    unquoteUnit (c :: tail) = some ([c], 1) := by
  simp only [unquoteUnit]
  rw [if_neg hb, if_neg (by intro h0; rcases h0 with h0 | h0; exact hq h0; omega), if_pos h']

theorem getu4_spec (d1 d2 d3 d4 : Byte) (tail : Bytes) (n1 n2 n3 n4 : Nat)
    (h1 : hexVal d1 = some n1) (h2 : hexVal d2 = some n2) (h3 : hexVal d3 = some n3)
    (h4 : hexVal d4 = some n4) :
    getu4 (ch '\\' :: ch 'u' :: d1 :: d2 :: d3 :: d4 :: tail) =
      some (((n1 * 16 + n2) * 16 + n3) * 16 + n4) := by
  simp only [getu4, h1, h2, h3, h4]
  rw [if_neg (by decide)]

theorem unquoteUnit_escapeU (d1 d2 d3 d4 : Byte) (tail : Bytes) (n1 n2 n3 n4 : Nat)
    (h1 : hexVal d1 = some n1) (h2 : hexVal d2 = some n2) (h3 : hexVal d3 = some n3)
    (h4 : hexVal d4 = some n4)
    (hs : ¬ (0xD800 ≤ ((n1 * 16 + n2) * 16 + n3) * 16 + n4 ∧
      ((n1 * 16 + n2) * 16 + n3) * 16 + n4 < 0xE000)) :
    unquoteUnit (ch '\\' :: ch 'u' :: d1 :: d2 :: d3 :: d4 :: tail) =
      some (appendRune (((n1 * 16 + n2) * 16 + n3) * 16 + n4), 6) := by
  have hg := getu4_spec d1 d2 d3 d4 tail n1 n2 n3 n4 h1 h2 h3 h4
  have hne : ¬ (ch 'u' = ch '"' ∨ ch 'u' = ch '\\' ∨ ch 'u' = ch '/' ∨ ch 'u' = ch '\'') := by
    decide
  simp +decide only [unquoteUnit, if_true, if_false, hg, hne]
  rw [if_neg hs]


/-! ### Strings: the whole string -/

theorem appendRune_ascii (c : Byte) (h : c.val < 0x80) : appendRune c.val = [c] := by
  unfold appendRune
  rw [if_pos (by omega), byteOf_val]

theorem unquoteUnit_high (c : Byte) (t : Bytes) (h : 0x80 ≤ c.val) :
    unquoteUnit (c :: t) = some (appendRune (decodeRune (c :: t)).1, (decodeRune (c :: t)).2) := by
  simp only [unquoteUnit]
  rw [if_neg (by intro e; rw [e] at h; revert h; decide),
    if_neg (by
      intro e
      rcases e with e | e
      · rw [e] at h; revert h; decide
      · omega),
    if_neg (by omega)]

/-- What one turn of `appendString` writes is read back by `unquoteBytes` as the
coerced bytes of the turn, and keeps the scanner inside the string. -/
theorem escapeUnit_spec (c : Byte) (rest : Bytes) :
    ∃ (u cu : Bytes) (n : Nat), escapeUnit (c :: rest) = (u, n) ∧ coerceUnit (c :: rest) = (cu, n) ∧
      1 ≤ n ∧ n ≤ rest.length + 1 ∧
      (∀ tail, unquoteFrom 0 (u ++ tail) = (unquoteFrom 0 tail).map (cu ++ ·)) ∧
      (∀ body stk, List.foldl Scanner.next ⟨.inString body, stk⟩ u =
        ⟨.inString (body ++ u), stk⟩) := by
  by_cases hA : c.val < 0x80
  · have hcu : coerceUnit (c :: rest) = ([c], 1) := by
      simp only [coerceUnit]; rw [if_pos hA]
    by_cases h1 : htmlSafe c = true
    · have hp : 0x20 ≤ c.val ∧ c ≠ ch '"' ∧ c ≠ ch '\\' := by
        simp only [htmlSafe, decide_eq_true_eq] at h1
        exact ⟨h1.1, h1.2.1, h1.2.2.2.2.2⟩
      refine ⟨[c], [c], 1, ?_, hcu, le_refl 1, by omega, ?_, ?_⟩
      · simp only [escapeUnit]; rw [if_pos hA, if_pos h1]
      · intro tail
        exact unquoteFrom_unit c [] tail [c] (unquoteUnit_plain c tail hp.1 hA hp.2.1 hp.2.2)
      · intro body stk
        rw [List.foldl_cons, List.foldl_nil, next_inString_plain body stk c hp.1 hp.2.1 hp.2.2]
    · by_cases h2 : c = ch '\\' ∨ c = ch '"'
      · refine ⟨[ch '\\', c], [c], 1, ?_, hcu, le_refl 1, by omega, ?_, ?_⟩
        · simp only [escapeUnit]; rw [if_pos hA, if_neg h1, if_pos h2]
        · intro tail
          refine unquoteFrom_unit (ch '\\') [c] tail [c] ?_
          rcases h2 with rfl | rfl <;> simp +decide [unquoteUnit]
        · intro body stk
          exact scan_escape body stk c (by rcases h2 with rfl | rfl <;> simp)
      · have hesc : ∀ (e x : Byte), c = x → escapeUnit (c :: rest) = ([ch '\\', e], 1) →
            unquoteUnit (ch '\\' :: e :: ([] : Bytes)) = some ([x], 2) →
            (∀ tail, unquoteUnit (ch '\\' :: e :: tail) = some ([x], 2)) →
            (e = ch 'b' ∨ e = ch 'f' ∨ e = ch 'n' ∨ e = ch 'r' ∨ e = ch 't' ∨ e = ch '\\' ∨
              e = ch '/' ∨ e = ch '"') →
            ∃ (u cu : Bytes) (n : Nat), escapeUnit (c :: rest) = (u, n) ∧
              coerceUnit (c :: rest) = (cu, n) ∧ 1 ≤ n ∧ n ≤ rest.length + 1 ∧
              (∀ tail, unquoteFrom 0 (u ++ tail) = (unquoteFrom 0 tail).map (cu ++ ·)) ∧
              (∀ body stk, List.foldl Scanner.next ⟨.inString body, stk⟩ u =
                ⟨.inString (body ++ u), stk⟩) := by
          intro e x hx hu _ hq he
          refine ⟨[ch '\\', e], [c], 1, hu, hcu, le_refl 1, by omega, ?_, ?_⟩
          · intro tail
            rw [hx]
            exact unquoteFrom_unit (ch '\\') [e] tail [x] (hq tail)
          · intro body stk
            exact scan_escape body stk e he
        by_cases h3 : c = 0x08
        · refine hesc (ch 'b') 0x08 h3 ?_ (by decide) (fun tail => by simp +decide [unquoteUnit])
            (by simp)
          simp only [escapeUnit]; rw [if_pos hA, if_neg h1, if_neg h2, if_pos h3]
        by_cases h4 : c = 0x0C
        · refine hesc (ch 'f') 0x0C h4 ?_ (by decide) (fun tail => by simp +decide [unquoteUnit])
            (by simp)
          simp only [escapeUnit]; rw [if_pos hA, if_neg h1, if_neg h2, if_neg h3, if_pos h4]
        by_cases h5 : c = ch '\n'
        · refine hesc (ch 'n') (ch '\n') h5 ?_ (by decide)
            (fun tail => by simp +decide [unquoteUnit]) (by simp)
          simp only [escapeUnit]
          rw [if_pos hA, if_neg h1, if_neg h2, if_neg h3, if_neg h4, if_pos h5]
        by_cases h6 : c = ch '\r'
        · refine hesc (ch 'r') (ch '\r') h6 ?_ (by decide)
            (fun tail => by simp +decide [unquoteUnit]) (by simp)
          simp only [escapeUnit]
          rw [if_pos hA, if_neg h1, if_neg h2, if_neg h3, if_neg h4, if_neg h5, if_pos h6]
        by_cases h7 : c = ch '\t'
        · refine hesc (ch 't') (ch '\t') h7 ?_ (by decide)
            (fun tail => by simp +decide [unquoteUnit]) (by simp)
          simp only [escapeUnit]
          rw [if_pos hA, if_neg h1, if_neg h2, if_neg h3, if_neg h4, if_neg h5, if_neg h6,
            if_pos h7]
        · have hd1 : c.val / 16 < 16 := by omega
          have hd2 : c.val % 16 < 16 := by omega
          refine ⟨[ch '\\', ch 'u', ch '0', ch '0', hex.getD (c.val / 16) 0,
            hex.getD (c.val % 16) 0], [c], 1, ?_, hcu, le_refl 1, by omega, ?_, ?_⟩
          · simp only [escapeUnit]
            rw [if_pos hA, if_neg h1, if_neg h2, if_neg h3, if_neg h4, if_neg h5, if_neg h6,
              if_neg h7]
          · intro tail
            have hu := unquoteUnit_escapeU (ch '0') (ch '0') (hex.getD (c.val / 16) 0)
              (hex.getD (c.val % 16) 0) tail 0 0 (c.val / 16) (c.val % 16) (by decide) (by decide)
              (hexVal_hex _ hd1) (hexVal_hex _ hd2) (by omega)
            have hv : ((0 * 16 + 0) * 16 + c.val / 16) * 16 + c.val % 16 = c.val := by omega
            rw [hv, appendRune_ascii c hA] at hu
            exact unquoteFrom_unit (ch '\\') [ch 'u', ch '0', ch '0', hex.getD (c.val / 16) 0,
              hex.getD (c.val % 16) 0] tail [c] hu
          · intro body stk
            exact scan_escapeU body stk _ _ _ _ (by decide) (by decide) (isHexDigit_hex _ hd1)
              (isHexDigit_hex _ hd2)
  · have hge : 0x80 ≤ c.val := Nat.le_of_not_lt hA
    have hcu : coerceUnit (c :: rest) =
        (appendRune (decodeRune (c :: rest)).1, (decodeRune (c :: rest)).2) := by
      simp only [coerceUnit]; rw [if_neg hA]
    have ht4 := decodeRune_take4 (c :: rest)
    rcases decodeRune_nonascii c rest hge with hbad | ⟨u, tl, hsplit, hu2, hu4, hsz, henc, hhigh, hpre⟩
    · refine ⟨ascii "\\ufffd", appendRune RuneError, 1, ?_, ?_, le_refl 1, by omega, ?_, ?_⟩
      · simp only [escapeUnit]; rw [if_neg hA, ht4, if_pos hbad]
      · rw [hcu, hbad]
      · intro tail
        have hu := unquoteUnit_escapeU (ch 'f') (ch 'f') (ch 'f') (ch 'd') tail 15 15 15 13
          (by decide) (by decide) (by decide) (by decide) (by decide)
        exact unquoteFrom_unit (ch '\\') [ch 'u', ch 'f', ch 'f', ch 'f', ch 'd'] tail _ hu
      · intro body stk
        exact scan_escapeU body stk _ _ _ _ (by decide) (by decide) (by decide) (by decide)
    · have hne : decodeRune (c :: rest) ≠ (RuneError, 1) := by
        intro h; rw [h] at hsz; simp only at hsz; omega
      have hlen : u.length ≤ rest.length + 1 := by
        have := congrArg List.length hsplit
        simp only [List.length_cons, List.length_append] at this
        omega
      by_cases hls : (decodeRune (c :: rest)).1 = 0x2028 ∨ (decodeRune (c :: rest)).1 = 0x2029
      · refine ⟨[ch '\\', ch 'u', ch '2', ch '0', ch '2',
          hex.getD ((decodeRune (c :: rest)).1 % 16) 0], appendRune (decodeRune (c :: rest)).1,
          u.length, ?_, ?_, by omega, hlen, ?_, ?_⟩
        · simp only [escapeUnit]; rw [if_neg hA, ht4, if_neg hne, if_pos hls, hsz]
        · rw [hcu, hsz]
        · intro tail
          have hd : (decodeRune (c :: rest)).1 % 16 < 16 := Nat.mod_lt _ (by decide)
          have hu := unquoteUnit_escapeU (ch '2') (ch '0') (ch '2')
            (hex.getD ((decodeRune (c :: rest)).1 % 16) 0) tail 2 0 2
            ((decodeRune (c :: rest)).1 % 16) (by decide) (by decide) (by decide)
            (hexVal_hex _ hd) (by omega)
          have hv : ((2 * 16 + 0) * 16 + 2) * 16 + (decodeRune (c :: rest)).1 % 16 =
              (decodeRune (c :: rest)).1 := by omega
          rw [hv] at hu
          exact unquoteFrom_unit (ch '\\') [ch 'u', ch '2', ch '0', ch '2',
            hex.getD ((decodeRune (c :: rest)).1 % 16) 0] tail _ hu
        · intro body stk
          exact scan_escapeU body stk _ _ _ _ (by decide) (by decide) (by decide)
            (isHexDigit_hex _ (Nat.mod_lt _ (by decide)))
      · have htake : (c :: rest).take u.length = u := by
          rw [hsplit, List.take_left']
          rfl
        refine ⟨u, u, u.length, ?_, ?_, by omega, hlen, ?_, ?_⟩
        · simp only [escapeUnit]; rw [if_neg hA, ht4, if_neg hne, if_neg hls, hsz, htake]
        · rw [hcu, hsz, henc]
        · intro tail
          rcases u with _ | ⟨c', u'⟩
          · simp at hu2
          have hc' : c' = c := by
            have := congrArg List.head? hsplit
            simpa using this.symm
          subst hc'
          refine unquoteFrom_unit c' u' tail (c' :: u') ?_
          have hd := hpre tail
          rw [List.cons_append] at hd ⊢
          rw [unquoteUnit_high c' (u' ++ tail) hge, hd, henc, hsz]
          rfl
        · intro body stk
          exact scan_highBytes stk u body hhigh

theorem escapeFrom_drop (k : Nat) (s : Bytes) (h : k ≤ s.length) :
    escapeFrom k s = escapeFrom 0 (s.drop k) := by
  have := escapeFrom_skip (s.take k) (s.drop k)
  rwa [List.take_append_drop, List.length_take, Nat.min_eq_left h] at this

theorem coerceFrom_drop (k : Nat) (s : Bytes) (h : k ≤ s.length) :
    coerceFrom k s = coerceFrom 0 (s.drop k) := by
  have := coerceFrom_skip (s.take k) (s.drop k)
  rwa [List.take_append_drop, List.length_take, Nat.min_eq_left h] at this

theorem utf8ValidFrom_drop (k : Nat) (s : Bytes) (h : k ≤ s.length) :
    utf8ValidFrom k s = utf8ValidFrom 0 (s.drop k) := by
  have := utf8ValidFrom_skip (s.take k) (s.drop k)
  rwa [List.take_append_drop, List.length_take, Nat.min_eq_left h] at this

/-- What `appendString` writes for `s` is read back by `unquoteBytes` as the
coerced `s`, and keeps the scanner inside the string. -/
theorem escapeFrom_spec : ∀ (n : Nat) (s : Bytes), s.length ≤ n →
    (∀ tail, unquoteFrom 0 (escapeFrom 0 s ++ tail) =
      (unquoteFrom 0 tail).map (coerceFrom 0 s ++ ·)) ∧
    (∀ body stk, List.foldl Scanner.next ⟨.inString body, stk⟩ (escapeFrom 0 s) =
      ⟨.inString (body ++ escapeFrom 0 s), stk⟩)
  | _, [], _ => by
    refine ⟨fun tail => ?_, fun body stk => ?_⟩
    · simp only [escapeFrom, coerceFrom, List.nil_append]
      cases unquoteFrom 0 tail <;> rfl
    · simp [escapeFrom]
  | 0, c :: rest, h => by simp at h
  | n + 1, c :: rest, h => by
    obtain ⟨u, cu, k, hu, hcu, hk1, hk2, hunq, hscan⟩ := escapeUnit_spec c rest
    have hlen : (rest.drop (k - 1)).length ≤ n := by
      rw [List.length_drop]
      simp only [List.length_cons] at h
      omega
    obtain ⟨ih1, ih2⟩ := escapeFrom_spec n (rest.drop (k - 1)) hlen
    have he : escapeFrom 0 (c :: rest) = u ++ escapeFrom 0 (rest.drop (k - 1)) := by
      rw [escapeFrom, hu, escapeFrom_drop (k - 1) rest (by omega)]
    have hc : coerceFrom 0 (c :: rest) = cu ++ coerceFrom 0 (rest.drop (k - 1)) := by
      rw [coerceFrom, hcu, coerceFrom_drop (k - 1) rest (by omega)]
    refine ⟨fun tail => ?_, fun body stk => ?_⟩
    · rw [he, hc, List.append_assoc, hunq, ih1]
      cases unquoteFrom 0 tail <;> simp
    · rw [he, List.foldl_append, hscan, ih2, List.append_assoc]

theorem unquote_escapeFrom (s : Bytes) : unquote (escapeFrom 0 s) = some (coerceUTF8 s) := by
  have h := (escapeFrom_spec s.length s (le_refl _)).1 []
  rw [List.append_nil] at h
  unfold unquote coerceUTF8
  rw [h]
  simp [unquoteFrom]

/-- Inside a string, the scanner reads what `appendString` wrote after the
opening quote and ends the string value with the coerced `s`. -/
theorem scan_appendString_body (s : Bytes) (stk : List Frame) (tail : Bytes) (st : Scanner)
    (hst : st = ⟨.inString [], stk⟩) :
    List.foldl Scanner.next st (escapeFrom 0 s ++ ch '"' :: tail) =
      List.foldl Scanner.next ⟨.endValue (.string (coerceUTF8 s)), stk⟩ tail := by
  subst hst
  rw [List.foldl_append, (escapeFrom_spec s.length s (le_refl _)).2 [] stk, List.nil_append,
    List.foldl_cons, next_inString_quote _ _ stk (unquote_escapeFrom s)]

/-- A valid UTF-8 string is left as it is by the coercion. -/
theorem coerceFrom_of_valid : ∀ (n : Nat) (s : Bytes), s.length ≤ n →
    utf8ValidFrom 0 s = true → coerceFrom 0 s = s
  | _, [], _, _ => rfl
  | 0, c :: rest, h, _ => by simp at h
  | n + 1, c :: rest, h, hv => by
    simp only [List.length_cons] at h
    by_cases hA : c.val < 0x80
    · have hd := decodeRune_ascii c rest hA
      have hne : decodeRune (c :: rest) ≠ (RuneError, 1) := by
        rw [hd]; intro e
        have := congrArg Prod.fst e
        simp only [RuneError] at this
        omega
      rw [utf8ValidFrom, if_neg hne, hd] at hv
      have ih := coerceFrom_of_valid n rest (by omega) hv
      have hcu : coerceUnit (c :: rest) = ([c], 1) := by
        simp only [coerceUnit]; rw [if_pos hA]
      rw [coerceFrom, hcu]
      simp only [Nat.sub_self, List.singleton_append]
      rw [ih]
    · have hge : 0x80 ≤ c.val := Nat.le_of_not_lt hA
      by_cases hbad : decodeRune (c :: rest) = (RuneError, 1)
      · rw [utf8ValidFrom, if_pos hbad] at hv
        exact absurd hv (by decide)
      · rcases decodeRune_nonascii c rest hge with hb | ⟨u, tl, hsplit, hu2, hu4, hsz, henc, _, _⟩
        · exact absurd hb hbad
        · have hlen : u.length ≤ rest.length + 1 := by
            have := congrArg List.length hsplit
            simp only [List.length_cons, List.length_append] at this
            omega
          rw [utf8ValidFrom, if_neg hbad, hsz,
            utf8ValidFrom_drop (u.length - 1) rest (by omega)] at hv
          have ih := coerceFrom_of_valid n (rest.drop (u.length - 1))
            (by rw [List.length_drop]; omega) hv
          have hcu : coerceUnit (c :: rest) = (u, u.length) := by
            simp only [coerceUnit]; rw [if_neg hA, henc, hsz]
          rw [coerceFrom, hcu, coerceFrom_drop (u.length - 1) rest (by omega), ih]
          have hdrop : rest.drop (u.length - 1) = tl := by
            have h1 : (c :: rest).drop u.length = tl := by
              rw [hsplit, List.drop_left']
              rfl
            have h2 : u.length = (u.length - 1) + 1 := by omega
            rw [h2, List.drop_succ_cons] at h1
            exact h1
          simp only
          rw [hdrop, ← hsplit]

theorem coerceUTF8_of_valid (s : Bytes) (h : utf8Valid s = true) : coerceUTF8 s = s :=
  coerceFrom_of_valid s.length s (le_refl _) h


/-! ### Base64 -/

theorem b64Val_b64Char (n : Nat) (h : n < 64) : b64Val (b64Char n) = some n := by
  interval_cases n <;> decide

/-- A byte that stands for itself inside a JSON string. -/
theorem b64Char_plain (n : Nat) (h : n < 64) :
    0x20 ≤ (b64Char n).val ∧ (b64Char n).val < 0x80 ∧ b64Char n ≠ ch '"' ∧ b64Char n ≠ ch '\\' := by
  interval_cases n <;> decide

theorem b64DecodeFrom_digit (dbuf : List Nat) (n : Nat) (rest : Bytes) (h : n < 64)
    (hd : dbuf.length < 3) :
    b64DecodeFrom dbuf (b64Char n :: rest) = b64DecodeFrom (dbuf ++ [n]) rest := by
  rw [b64DecodeFrom]
  simp only [b64Val_b64Char n h]
  rw [if_neg (by omega)]

theorem b64DecodeFrom_last (dbuf : List Nat) (n : Nat) (rest : Bytes) (h : n < 64)
    (hd : dbuf.length = 3) :
    b64DecodeFrom dbuf (b64Char n :: rest) =
      (b64DecodeFrom [] rest).map (quantumBytes (dbuf ++ [n]) ++ ·) := by
  rw [b64DecodeFrom]
  simp only [b64Val_b64Char n h]
  rw [if_pos hd]
  cases b64DecodeFrom [] rest <;> rfl

theorem b64Val_pad : b64Val (ch '=') = none := by decide

theorem quantumBytes_three (a b c : Byte) :
    quantumBytes [(a.val * 65536 + b.val * 256 + c.val) / 262144 % 64,
      (a.val * 65536 + b.val * 256 + c.val) / 4096 % 64,
      (a.val * 65536 + b.val * 256 + c.val) / 64 % 64,
      (a.val * 65536 + b.val * 256 + c.val) % 64] = [a, b, c] := by
  simp only [quantumBytes, List.getD_cons_zero, List.getD_cons_succ, List.length_cons,
    List.length_nil]
  have e0 : byteOf (((a.val * 65536 + b.val * 256 + c.val) / 262144 % 64 * 262144 +
      (a.val * 65536 + b.val * 256 + c.val) / 4096 % 64 * 4096 +
      (a.val * 65536 + b.val * 256 + c.val) / 64 % 64 * 64 +
      (a.val * 65536 + b.val * 256 + c.val) % 64) / 65536) = a := by
    apply Fin.ext; simp only [byteOf, Fin.ofNat]; omega
  have e1 : byteOf (((a.val * 65536 + b.val * 256 + c.val) / 262144 % 64 * 262144 +
      (a.val * 65536 + b.val * 256 + c.val) / 4096 % 64 * 4096 +
      (a.val * 65536 + b.val * 256 + c.val) / 64 % 64 * 64 +
      (a.val * 65536 + b.val * 256 + c.val) % 64) / 256) = b := by
    apply Fin.ext; simp only [byteOf, Fin.ofNat]; omega
  have e2 : byteOf ((a.val * 65536 + b.val * 256 + c.val) / 262144 % 64 * 262144 +
      (a.val * 65536 + b.val * 256 + c.val) / 4096 % 64 * 4096 +
      (a.val * 65536 + b.val * 256 + c.val) / 64 % 64 * 64 +
      (a.val * 65536 + b.val * 256 + c.val) % 64) = c := by
    apply Fin.ext; simp only [byteOf, Fin.ofNat]; omega
  rw [e0, e1, e2]
  rfl

theorem quantumBytes_one (a : Byte) :
    quantumBytes [a.val * 65536 / 262144 % 64, a.val * 65536 / 4096 % 64] = [a] := by
  simp only [quantumBytes, List.getD_cons_zero, List.getD_cons_succ, List.length_cons,
    List.length_nil, List.getD_nil]
  have e0 : byteOf ((a.val * 65536 / 262144 % 64 * 262144 + a.val * 65536 / 4096 % 64 * 4096 +
      0 * 64 + 0) / 65536) = a := by
    apply Fin.ext; simp only [byteOf, Fin.ofNat]; omega
  rw [e0]
  rfl

theorem quantumBytes_two (a b : Byte) :
    quantumBytes [(a.val * 65536 + b.val * 256) / 262144 % 64,
      (a.val * 65536 + b.val * 256) / 4096 % 64, (a.val * 65536 + b.val * 256) / 64 % 64]
      = [a, b] := by
  simp only [quantumBytes, List.getD_cons_zero, List.getD_cons_succ, List.length_cons,
    List.length_nil, List.getD_nil]
  have e0 : byteOf (((a.val * 65536 + b.val * 256) / 262144 % 64 * 262144 +
      (a.val * 65536 + b.val * 256) / 4096 % 64 * 4096 +
      (a.val * 65536 + b.val * 256) / 64 % 64 * 64 + 0) / 65536) = a := by
    apply Fin.ext; simp only [byteOf, Fin.ofNat]; omega
  have e1 : byteOf (((a.val * 65536 + b.val * 256) / 262144 % 64 * 262144 +
      (a.val * 65536 + b.val * 256) / 4096 % 64 * 4096 +
      (a.val * 65536 + b.val * 256) / 64 % 64 * 64 + 0) / 256) = b := by
    apply Fin.ext; simp only [byteOf, Fin.ofNat]; omega
  rw [e0, e1]
  rfl

/-- Decoding gives back what was encoded. -/
theorem b64Decode_encode : ∀ (n : Nat) (v : Bytes), v.length ≤ n → b64Decode (b64Encode v) = some v
  | _, [], _ => rfl
  | _, [a], _ => by
    unfold b64Decode
    simp only [b64Encode]
    rw [b64DecodeFrom_digit _ _ _ (Nat.mod_lt _ (by decide)) (by simp),
      b64DecodeFrom_digit _ _ _ (Nat.mod_lt _ (by decide)) (by simp)]
    simp +decide only [List.nil_append, List.cons_append, b64DecodeFrom, b64Val_pad, skipNewlines,
      List.length_cons, List.length_nil, if_true, if_false]
    rw [quantumBytes_one]
  | _, [a, b], _ => by
    unfold b64Decode
    simp only [b64Encode]
    rw [b64DecodeFrom_digit _ _ _ (Nat.mod_lt _ (by decide)) (by simp),
      b64DecodeFrom_digit _ _ _ (Nat.mod_lt _ (by decide)) (by simp),
      b64DecodeFrom_digit _ _ _ (Nat.mod_lt _ (by decide)) (by simp)]
    simp +decide only [List.nil_append, List.cons_append, b64DecodeFrom, b64Val_pad, skipNewlines,
      List.length_cons, List.length_nil, if_true, if_false]
    rw [quantumBytes_two]
  | 0, _ :: _ :: _ :: _, h => by simp at h
  | n + 1, a :: b :: c :: rest, h => by
    have ih := b64Decode_encode n rest (by simp only [List.length_cons] at h; omega)
    unfold b64Decode at ih ⊢
    simp only [b64Encode]
    rw [b64DecodeFrom_digit _ _ _ (Nat.mod_lt _ (by decide)) (by simp),
      b64DecodeFrom_digit _ _ _ (Nat.mod_lt _ (by decide)) (by simp),
      b64DecodeFrom_digit _ _ _ (Nat.mod_lt _ (by decide)) (by simp),
      b64DecodeFrom_last _ _ _ (Nat.mod_lt _ (by decide)) (by rfl), ih]
    simp only [List.nil_append, List.cons_append, quantumBytes_three, Option.map_some']

/-- Every byte written by the base64 encoder stands for itself inside a JSON
string. -/
theorem b64Encode_plain : ∀ (n : Nat) (v : Bytes), v.length ≤ n →
    ∀ x ∈ b64Encode v, 0x20 ≤ x.val ∧ x.val < 0x80 ∧ x ≠ ch '"' ∧ x ≠ ch '\\'
  | _, [], _ => by simp [b64Encode]
  | _, [a], _ => by
    intro x hx
    simp only [b64Encode, List.mem_cons, List.mem_singleton, List.not_mem_nil, or_false] at hx
    rcases hx with rfl | rfl | rfl | rfl
    · exact b64Char_plain _ (Nat.mod_lt _ (by decide))
    · exact b64Char_plain _ (Nat.mod_lt _ (by decide))
    · decide
    · decide
  | _, [a, b], _ => by
    intro x hx
    simp only [b64Encode, List.mem_cons, List.mem_singleton, List.not_mem_nil, or_false] at hx
    rcases hx with rfl | rfl | rfl | rfl
    · exact b64Char_plain _ (Nat.mod_lt _ (by decide))
    · exact b64Char_plain _ (Nat.mod_lt _ (by decide))
    · exact b64Char_plain _ (Nat.mod_lt _ (by decide))
    · decide
  | 0, _ :: _ :: _ :: _, h => by simp at h
  | n + 1, a :: b :: c :: rest, h => by
    have ih := b64Encode_plain n rest (by simp only [List.length_cons] at h; omega)
    intro x hx
    simp only [b64Encode, List.mem_cons] at hx
    rcases hx with rfl | rfl | rfl | rfl | hx
    · exact b64Char_plain _ (Nat.mod_lt _ (by decide))
    · exact b64Char_plain _ (Nat.mod_lt _ (by decide))
    · exact b64Char_plain _ (Nat.mod_lt _ (by decide))
    · exact b64Char_plain _ (Nat.mod_lt _ (by decide))
    · exact ih x hx


/-! ### The scanner over encoded values -/

/-- Bytes that stand for themselves inside a JSON string are read back as they
are. -/
theorem plain_spec : ∀ (u : Bytes),
    (∀ x ∈ u, 0x20 ≤ x.val ∧ x.val < 0x80 ∧ x ≠ ch '"' ∧ x ≠ ch '\\') →
    (∀ tail, unquoteFrom 0 (u ++ tail) = (unquoteFrom 0 tail).map (u ++ ·)) ∧
    (∀ body stk, List.foldl Scanner.next ⟨.inString body, stk⟩ u = ⟨.inString (body ++ u), stk⟩)
  | [], _ => by
    refine ⟨fun tail => ?_, fun body stk => by simp⟩
    rw [List.nil_append]
    cases unquoteFrom 0 tail <;> rfl
  | x :: u, h => by
    obtain ⟨h1, h2, h3, h4⟩ := h x (List.mem_cons_self _ _)
    obtain ⟨ih1, ih2⟩ := plain_spec u (fun y hy => h y (List.mem_cons_of_mem _ hy))
    refine ⟨fun tail => ?_, fun body stk => ?_⟩
    · have := unquoteFrom_unit x [] (u ++ tail) [x] (unquoteUnit_plain x _ h1 h2 h3 h4)
      rw [List.singleton_append] at this
      rw [List.cons_append, this, ih1]
      cases unquoteFrom 0 tail <;> simp
    · rw [List.foldl_cons, next_inString_plain body stk x h1 h3 h4, ih2]
      simp

theorem unquote_b64Encode (v : Bytes) : unquote (b64Encode v) = some (b64Encode v) := by
  have h := (plain_spec _ (b64Encode_plain v.length v (le_refl _))).1 []
  rw [List.append_nil] at h
  unfold unquote
  rw [h]
  simp [unquoteFrom]

/-- The scanner reads `appendString s` as the string value `coerceUTF8 s`,
wherever a string may start. -/
theorem scan_appendString (s : Bytes) (stk : List Frame) (tail : Bytes) (st : Scanner)
    (hst : st = ⟨.beginValue, stk⟩ ∨ st = ⟨.beginString, stk⟩ ∨
      (st = ⟨.beginStringOrEmpty, stk⟩ ∧ ∃ members outer, stk = .objectKey members :: outer)) :
    List.foldl Scanner.next st (appendString s ++ tail) =
      List.foldl Scanner.next ⟨.endValue (.string (coerceUTF8 s)), stk⟩ tail := by
  have hq : st.next (ch '"') = ⟨.inString [], stk⟩ := by
    rcases hst with rfl | rfl | ⟨rfl, members, outer, rfl⟩ <;>
      simp +decide [Scanner.next, stateBeginValue, stateBeginString, isSpace]
  unfold appendString
  rw [List.cons_append, List.foldl_cons, hq, List.append_assoc, List.singleton_append]
  exact scan_appendString_body s stk tail _ rfl

/-- The scanner reads `encodeByteSlice v` as the string value `b64Encode v`. -/
theorem scan_encodeByteSlice (v : Bytes) (stk : List Frame) (tail : Bytes) :
    List.foldl Scanner.next ⟨.beginValue, stk⟩ (encodeByteSlice v ++ tail) =
      List.foldl Scanner.next ⟨.endValue (.string (b64Encode v)), stk⟩ tail := by
  have hq : Scanner.next ⟨.beginValue, stk⟩ (ch '"') = ⟨.inString [], stk⟩ := by
    simp +decide [Scanner.next, stateBeginValue, isSpace]
  unfold encodeByteSlice
  rw [List.cons_append, List.foldl_cons, hq, List.append_assoc, List.singleton_append,
    List.foldl_append, (plain_spec _ (b64Encode_plain v.length v (le_refl _))).2 [] stk,
    List.nil_append, List.foldl_cons, next_inString_quote _ _ stk (unquote_b64Encode v)]

theorem next_colon (key : Bytes) (members : List (Bytes × JValue)) (outer : List Frame) :
    Scanner.next ⟨.endValue (.string key), .objectKey members :: outer⟩ (ch ':') =
      ⟨.beginValue, .objectValue members key :: outer⟩ := by
  simp +decide [Scanner.next, stateEndValue, isSpace]

theorem next_comma_object (v : JValue) (key : Bytes) (members : List (Bytes × JValue))
    (outer : List Frame) :
    Scanner.next ⟨.endValue v, .objectValue members key :: outer⟩ (ch ',') =
      ⟨.beginString, .objectKey (members ++ [(key, v)]) :: outer⟩ := by
  simp +decide [Scanner.next, stateEndValue, isSpace]

theorem next_close_object (v : JValue) (key : Bytes) (members : List (Bytes × JValue))
    (outer : List Frame) :
    Scanner.next ⟨.endValue v, .objectValue members key :: outer⟩ (ch '}') =
      ⟨.endValue (.object (members ++ [(key, v)])), outer⟩ := by
  simp +decide [Scanner.next, stateEndValue, isSpace]

theorem next_open_object :
    Scanner.next Scanner.reset (ch '{') = ⟨.beginStringOrEmpty, [.objectKey []]⟩ := by
  simp +decide [Scanner.next, Scanner.reset, stateBeginValue, isSpace, pushParseState,
    maxNestingDepth]

theorem next_close_empty_object :
    Scanner.next ⟨.beginStringOrEmpty, [.objectKey []]⟩ (ch '}') = ⟨.endValue (.object []), []⟩ := by
  simp +decide [Scanner.next, isSpace]

theorem next_newline_top (v : JValue) :
    Scanner.next ⟨.endValue v, []⟩ (ch '\n') = ⟨.endValue v, []⟩ := by
  simp +decide [Scanner.next, stateEndValue, isSpace]


/-! ### `Unmarshal` after `Marshal` -/

theorem slice_bytes_full (v : Bytes) : Slice.bytes ⟨v, v.length⟩ = v := by
  unfold Slice.bytes
  apply List.ext_getElem
  · simp
  · intro i h1 h2
    simp only [List.getElem_map, List.getElem_range]
    exact (List.getD_eq_getElem _ _ h2)

theorem slice_bytes_nil : Slice.nil.bytes = [] := rfl

theorem scan_marshal_prefix :
    List.foldl Scanner.next Scanner.reset (ascii "\x7b\"op\":") =
      ⟨.beginValue, [.objectValue [] (ascii "op")]⟩ := by
  rfl

theorem scan_marshal_key (v : JValue) :
    List.foldl Scanner.next ⟨.endValue v, [.objectValue [] (ascii "op")]⟩ (ascii ",\"key\":") =
      ⟨.beginValue, [.objectValue [(ascii "op", v)] (ascii "key")]⟩ := by
  rfl

theorem scan_marshal_value (v w : JValue) :
    List.foldl Scanner.next ⟨.endValue w, [.objectValue [(ascii "op", v)] (ascii "key")]⟩
      (ascii ",\"value\":") =
      ⟨.beginValue, [.objectValue [(ascii "op", v), (ascii "key", w)] (ascii "value")]⟩ := by
  rfl

/-- The scanner accepts what `Marshal` writes and reads the object back. -/
theorem checkValid_marshal (c : KVCommand) :
    checkValid c.Marshal = .ok (.object ([(ascii "op", .string (coerceUTF8 c.Op)),
      (ascii "key", .string (coerceUTF8 c.Key))] ++
      (if c.Value.length = 0 then [] else [(ascii "value", .string (b64Encode c.Value))]))) := by
  have hscan : List.foldl Scanner.next Scanner.reset c.Marshal =
      ⟨.endValue (.object ([(ascii "op", .string (coerceUTF8 c.Op)),
      (ascii "key", .string (coerceUTF8 c.Key))] ++
      (if c.Value.length = 0 then [] else [(ascii "value", .string (b64Encode c.Value))]))),
        []⟩ := by
    unfold KVCommand.Marshal
    simp only [List.append_assoc]
    rw [List.foldl_append, scan_marshal_prefix,
      scan_appendString c.Op _ _ _ (Or.inl rfl), List.foldl_append, scan_marshal_key,
      scan_appendString c.Key _ _ _ (Or.inl rfl)]
    by_cases hv : c.Value.length = 0
    · rw [if_pos hv, if_pos hv, List.nil_append]
      rfl
    · rw [if_neg hv, if_neg hv, List.append_assoc, List.foldl_append, scan_marshal_value,
        scan_encodeByteSlice]
      rfl
  unfold checkValid
  rw [hscan]
  rfl

/-- What `json.Unmarshal` makes of what `Marshal` wrote: the command with `Op`
and `Key` coerced to valid UTF-8. -/
theorem unmarshal_marshal (c : KVCommand) :
    Unmarshal c.Marshal = .ok ⟨coerceUTF8 c.Op, coerceUTF8 c.Key, c.Value⟩ := by
  unfold Unmarshal
  rw [checkValid_marshal]
  have hop : findField (ascii "op") = some .op := by decide
  have hkey : findField (ascii "key") = some .key := by decide
  have hval : findField (ascii "value") = some .value := by decide
  by_cases hv : c.Value.length = 0
  · have hnil : c.Value = [] := List.length_eq_zero.mp hv
    simp only [hv, if_true, List.append_nil, decodeKVCommand, decodeMembers, decodeMember, hop,
      hkey, decodeString, slice_bytes_nil, hnil]
  · simp only [hv, if_false, decodeKVCommand, decodeMembers, decodeMember, hop, hkey, hval,
      decodeString, decodeBytes, List.cons_append, List.nil_append,
      b64Decode_encode c.Value.length c.Value (le_refl _), slice_bytes_full]

/-! ### `Decode` after `Encode` -/

/-- The member read back for an entry written by `mapEncoder.encode`. -/
theorem scan_entries_rest : ∀ (es : List Entry) (members : List (Bytes × JValue)) (key : Bytes)
    (v : JValue) (tail : Bytes),
    List.foldl Scanner.next ⟨.endValue v, [.objectValue members key]⟩
      (encodeEntries false es ++ ch '}' :: tail) =
    List.foldl Scanner.next ⟨.endValue (.object (members ++ [(key, v)] ++
      es.map (fun e => (coerceUTF8 e.1, JValue.string (b64Encode e.2))))), []⟩ tail
  | [], members, key, v, tail => by
    simp only [encodeEntries, List.nil_append, List.foldl_cons, next_close_object, List.map_nil,
      List.append_nil]
  | e :: es, members, key, v, tail => by
    have ih := scan_entries_rest es (members ++ [(key, v)]) (coerceUTF8 e.1)
      (.string (b64Encode e.2)) tail
    simp only [encodeEntries, if_false, Bool.false_eq_true, List.append_assoc, List.singleton_append,
      List.cons_append, List.nil_append, List.foldl_cons, next_comma_object]
    rw [scan_appendString e.1 _ _ _ (Or.inr (Or.inl rfl)), List.foldl_cons, next_colon,
      scan_encodeByteSlice, ih]
    simp only [List.map_cons, List.append_assoc, List.singleton_append, List.cons_append,
      List.nil_append]

theorem scan_entries_first (es : List Entry) (tail : Bytes) :
    List.foldl Scanner.next ⟨.beginStringOrEmpty, [.objectKey []]⟩
      (encodeEntries true es ++ ch '}' :: tail) =
    List.foldl Scanner.next ⟨.endValue (.object
      (es.map (fun e => (coerceUTF8 e.1, JValue.string (b64Encode e.2))))), []⟩ tail := by
  rcases es with _ | ⟨e, es⟩
  · simp only [encodeEntries, List.nil_append, List.foldl_cons, next_close_empty_object,
      List.map_nil]
  · simp only [encodeEntries, if_true, List.append_assoc, List.singleton_append,
      List.cons_append, List.nil_append]
    rw [scan_appendString e.1 _ _ _ (Or.inr (Or.inr ⟨rfl, [], [], rfl⟩)), List.foldl_cons,
      next_colon, scan_encodeByteSlice, scan_entries_rest]
    simp only [List.map_cons, List.nil_append, List.singleton_append]

/-- The scanner accepts what `Encoder.Encode` writes and reads the object
back. -/
theorem scan_encode (m : GoMap) :
    List.foldl Scanner.next Scanner.reset (Encode m) =
      ⟨.endValue (.object ((m.entries.insertionSort (fun a b => a.1 ≤ b.1)).map
        (fun e => (coerceUTF8 e.1, JValue.string (b64Encode e.2))))), []⟩ := by
  unfold Encode encodeMap
  rw [List.cons_append, List.foldl_cons, next_open_object, List.append_assoc,
    List.singleton_append, scan_entries_first]
  simp only [List.foldl_cons, List.foldl_nil, next_newline_top]

theorem foldl_next_failed : ∀ (p : Bytes) (s : Scanner), s.isError = true →
    (List.foldl Scanner.next s p).isError = true
  | [], _, h => h
  | c :: p, s, h => by
    have hs : s.next c = Scanner.failed := by
      obtain ⟨step, stk⟩ := s
      cases step <;> first | rfl | (simp [Scanner.isError] at h)
    rw [List.foldl_cons, hs]
    exact foldl_next_failed p _ rfl

theorem foldl_next_top (v : JValue) : ∀ (p : Bytes),
    List.foldl Scanner.next ⟨.endValue v, []⟩ p = ⟨.endValue v, []⟩ ∨
    (List.foldl Scanner.next ⟨.endValue v, []⟩ p).isError = true
  | [] => Or.inl rfl
  | c :: p => by
    rw [List.foldl_cons]
    have h : Scanner.next ⟨.endValue v, []⟩ c = ⟨.endValue v, []⟩ ∨
        Scanner.next ⟨.endValue v, []⟩ c = Scanner.failed := by
      simp only [Scanner.next, stateEndValue]
      by_cases hs : isSpace c = true
      · left; rw [if_pos hs]
      · right; rw [if_neg hs]
    rcases h with h | h
    · rw [h]; exact foldl_next_top v p
    · rw [h]; exact Or.inr (foldl_next_failed p _ rfl)

/-- When the scanner, run over `p`, ends on a complete top-level value,
`Decoder.readValue` reads that value from any stream that starts with `p`. -/
theorem readValue_of_foldl : ∀ (p : Bytes) (s : Scanner) (v : JValue) (rest : Bytes),
    List.foldl Scanner.next s p = ⟨.endValue v, []⟩ → readValue s (p ++ rest) = .ok v
  | [], s, v, rest, h => by
    simp only [List.foldl_nil] at h
    subst h
    cases rest <;> rfl
  | c :: p, s, v, rest, h => by
    rw [List.foldl_cons] at h
    rw [List.cons_append, readValue]
    split
    · rename_i v' hstep hstk
      have hs : s = ⟨.endValue v', []⟩ := by
        obtain ⟨step, stk⟩ := s
        simp only at hstep hstk
        rw [hstep, hstk]
      rw [hs, ← List.foldl_cons] at h
      rcases foldl_next_top v' (c :: p) with h' | h'
      · rw [h'] at h
        injection h with h1 _
        injection h1 with h2
        rw [h2]
      · rw [h] at h'
        exact absurd h' (by simp [Scanner.isError])
    · by_cases he : (s.next c).isError = true
      · have := foldl_next_failed p _ he
        rw [h] at this
        exact absurd this (by simp [Scanner.isError])
      · rw [if_neg he]
        exact readValue_of_foldl p (s.next c) v rest h

theorem decodeMapMembers_encoded : ∀ (es : List Entry) (m : GoMap),
    decodeMapMembers m (es.map (fun e => (coerceUTF8 e.1, JValue.string (b64Encode e.2)))) =
      .ok (es.foldl (fun m e => m.insert (coerceUTF8 e.1) e.2) m)
  | [], m => rfl
  | e :: es, m => by
    simp only [List.map_cons, decodeMapMembers, decodeBytes,
      b64Decode_encode e.2.length e.2 (le_refl _), slice_bytes_full, List.foldl_cons]
    exact decodeMapMembers_encoded es _

theorem foldl_insert_valid : ∀ (es : List Entry) (m : GoMap),
    (∀ e ∈ es, utf8Valid e.1 = true) →
    es.foldl (fun m e => m.insert (coerceUTF8 e.1) e.2) m = copyInto es m
  | [], _, _ => rfl
  | e :: es, m, h => by
    have he := coerceUTF8_of_valid e.1 (h e (List.mem_cons_self _ _))
    have ih := foldl_insert_valid es (m.insert e.1 e.2) (fun x hx => h x (List.mem_cons_of_mem _ hx))
    simp only [List.foldl_cons, he]
    rw [ih]
    simp only [copyInto, List.foldl_cons, cloneBytes_eq]

/-- What `Decoder.Decode` makes of what `Encoder.Encode` wrote for a map. -/
theorem decode_encode (m : GoMap) :
    Decode (Encode m) = .ok ((m.entries.insertionSort (fun a b => a.1 ≤ b.1)).foldl
      (fun acc e => acc.insert (coerceUTF8 e.1) e.2) ∅) := by
  have h := readValue_of_foldl (Encode m) Scanner.reset _ [] (scan_encode m)
  rw [List.append_nil] at h
  unfold Decode
  rw [h]
  exact decodeMapMembers_encoded _ ∅

/-- For a map whose keys are valid UTF-8, decoding the encoding gives a map with
the same content. -/
theorem decode_encode_valid (m : GoMap) (hvalid : ∀ k ∈ m.keys, utf8Valid k = true) :
    ∃ m', Decode (Encode m) = .ok m' ∧ ∀ k, m'.lookup k = m.lookup k := by
  have hperm : (m.entries.insertionSort (fun a b => a.1 ≤ b.1)).Perm m.entries :=
    List.perm_insertionSort _ _
  have hnd : (m.entries.insertionSort (fun a b => a.1 ≤ b.1)).NodupKeys :=
    (List.perm_nodupKeys hperm).mpr m.nodupKeys
  have hv : ∀ e ∈ m.entries.insertionSort (fun a b => a.1 ≤ b.1), utf8Valid e.1 = true := by
    intro e he
    have he' : e ∈ m.entries := hperm.subset he
    exact hvalid e.1 (List.mem_keys_of_mem he')
  refine ⟨_, decode_encode m, fun k => ?_⟩
  rw [foldl_insert_valid _ ∅ hv, lookup_copyInto k _ ∅ hnd, List.perm_dlookup k hnd m.nodupKeys hperm]
  change (m.lookup k).orElse (fun _ => none) = m.lookup k
  cases m.lookup k <;> rfl

/-! ## The state machine -/

theorem applyWith_error {unmarshal : Bytes → Except JsonError KVCommand} {data : Bytes}
    {e : JsonError} (st : Store) (hdec : unmarshal data = .error e) :
    FSM.ApplyWith unmarshal st data = (.err e, st) := by
  simp [FSM.ApplyWith, hdec]

theorem applyWith_put {unmarshal : Bytes → Except JsonError KVCommand} {data : Bytes}
    {cmd : KVCommand} (st : Store) (hdec : unmarshal data = .ok cmd) (hop : cmd.Op = ascii "put") :
    FSM.ApplyWith unmarshal st data = (.nil, st.Put cmd.Key cmd.Value) := by
  simp [FSM.ApplyWith, hdec, hop]

theorem applyWith_delete {unmarshal : Bytes → Except JsonError KVCommand} {data : Bytes}
    {cmd : KVCommand} (st : Store) (hdec : unmarshal data = .ok cmd)
    (hop : cmd.Op = ascii "delete") :
    FSM.ApplyWith unmarshal st data = (.nil, (st.Delete cmd.Key).2) := by
  have hne : ascii "delete" ≠ ascii "put" := by decide
  simp [FSM.ApplyWith, hdec, hop, hne]

theorem applyWith_unknown {unmarshal : Bytes → Except JsonError KVCommand} {data : Bytes}
    {cmd : KVCommand} (st : Store) (hdec : unmarshal data = .ok cmd)
    (hput : cmd.Op ≠ ascii "put") (hdel : cmd.Op ≠ ascii "delete") :
    FSM.ApplyWith unmarshal st data = (.str (ascii "unknown command"), st) := by
  simp [FSM.ApplyWith, hdec, hput, hdel]

/-- One `Apply` on two stores that agree on every `Get`. -/
theorem apply_congr (unmarshal : Bytes → Except JsonError KVCommand) (s₁ s₂ : Store) (data : Bytes)
    (h : ∀ k, s₁.Get k = s₂.Get k) :
    (FSM.ApplyWith unmarshal s₁ data).1 = (FSM.ApplyWith unmarshal s₂ data).1 ∧
    ∀ k, (FSM.ApplyWith unmarshal s₁ data).2.Get k = (FSM.ApplyWith unmarshal s₂ data).2.Get k := by
  have hl : ∀ k, s₁.data.lookup k = s₂.data.lookup k := fun k =>
    (index_eq_iff _ _ k k).mp (h k)
  cases hdec : unmarshal data with
  | error e =>
    rw [applyWith_error s₁ hdec, applyWith_error s₂ hdec]
    exact ⟨rfl, h⟩
  | ok cmd =>
    by_cases hp : cmd.Op = ascii "put"
    · rw [applyWith_put s₁ hdec hp, applyWith_put s₂ hdec hp]
      refine ⟨rfl, fun k => ?_⟩
      by_cases hk : k = cmd.Key
      · rw [hk, get_put_same, get_put_same]
      · rw [get_put_other _ _ hk, get_put_other _ _ hk, h k]
    · by_cases hd : cmd.Op = ascii "delete"
      · rw [applyWith_delete s₁ hdec hd, applyWith_delete s₂ hdec hd]
        refine ⟨rfl, fun k => ?_⟩
        unfold Store.Get
        rw [index_eq_iff, lookup_delete, lookup_delete, hl k]
      · rw [applyWith_unknown s₁ hdec hp hd, applyWith_unknown s₂ hdec hp hd]
        exact ⟨rfl, h⟩

/-- **C1.** Determinism: `FSM.Apply`, whatever `json.Unmarshal` makes of each
payload, run over the same sequence of payloads (arbitrary byte strings) on two
stores that agree on every `Get`, returns the same result for every entry and
leaves two stores that agree on every `Get`. -/
theorem apply_deterministic (unmarshal : Bytes → Except JsonError KVCommand) (log : List Bytes) :
    ∀ s₁ s₂ : Store, (∀ k, s₁.Get k = s₂.Get k) →
      (FSM.applyLog unmarshal s₁ log).1 = (FSM.applyLog unmarshal s₂ log).1 ∧
      ∀ k, (FSM.applyLog unmarshal s₁ log).2.Get k = (FSM.applyLog unmarshal s₂ log).2.Get k := by
  induction log with
  | nil => intro s₁ s₂ h; exact ⟨rfl, h⟩
  | cons d ds ih =>
    intro s₁ s₂ h
    obtain ⟨hr, hs⟩ := apply_congr unmarshal s₁ s₂ d h
    obtain ⟨hrs, hfin⟩ := ih _ _ hs
    simp only [FSM.applyLog]
    exact ⟨by rw [hr, hrs], hfin⟩

/-- Two stores filled in different orders, and a log of three entries: a put, a
payload cut short, and the unknown operation of `TestFSM_Apply`. -/
theorem apply_deterministic_witness :
    (∀ k, ((NewStore.Put (ascii "a") (ascii "1")).Put (ascii "b") (ascii "2")).Get k =
      ((NewStore.Put (ascii "b") (ascii "2")).Put (ascii "a") (ascii "1")).Get k) ∧
    (FSM.applyLog Unmarshal ((NewStore.Put (ascii "a") (ascii "1")).Put (ascii "b") (ascii "2"))
      [KVCommand.Marshal ⟨ascii "put", ascii "a", ascii "3"⟩, ascii "\x7b\"op\":",
        KVCommand.Marshal ⟨ascii "unknown", ascii "test-key", []⟩]).1 =
    (FSM.applyLog Unmarshal ((NewStore.Put (ascii "b") (ascii "2")).Put (ascii "a") (ascii "1"))
      [KVCommand.Marshal ⟨ascii "put", ascii "a", ascii "3"⟩, ascii "\x7b\"op\":",
        KVCommand.Marshal ⟨ascii "unknown", ascii "test-key", []⟩]).1 :=
  have h : ∀ k, ((NewStore.Put (ascii "a") (ascii "1")).Put (ascii "b") (ascii "2")).Get k =
      ((NewStore.Put (ascii "b") (ascii "2")).Put (ascii "a") (ascii "1")).Get k := by
    intro k
    by_cases ha : k = ascii "a"
    · rw [ha, get_put_same, get_put_other _ _ (by decide), get_put_same]
    · by_cases hb : k = ascii "b"
      · rw [hb, get_put_same, get_put_other _ _ (by decide), get_put_same]
      · rw [get_put_other _ _ hb, get_put_other _ _ ha, get_put_other _ _ ha,
          get_put_other _ _ hb]
  ⟨h, (apply_deterministic Unmarshal _ _ _ h).1⟩

/-- **C2.** A payload that decodes to a command whose op is neither `put` nor
`delete` makes `FSM.Apply` return the non-nil value `"unknown command"` and
leaves the store as it was. -/
theorem apply_unknown_op (unmarshal : Bytes → Except JsonError KVCommand) (st : Store)
    (data : Bytes) (cmd : KVCommand) (hdec : unmarshal data = .ok cmd)
    (hput : cmd.Op ≠ ascii "put") (hdel : cmd.Op ≠ ascii "delete") :
    FSM.ApplyWith unmarshal st data = (.str (ascii "unknown command"), st) ∧
    (FSM.ApplyWith unmarshal st data).1 ≠ .nil := by
  have h := applyWith_unknown st hdec hput hdel
  exact ⟨h, by rw [h]; exact fun hn => ApplyResult.noConfusion hn⟩

/-- The third entry of `TestFSM_Apply`: the command with op `unknown`. -/
theorem apply_unknown_op_witness :
    Unmarshal (KVCommand.Marshal ⟨ascii "unknown", ascii "test-key", []⟩) =
      .ok ⟨ascii "unknown", ascii "test-key", []⟩ ∧
    FSM.Apply (NewStore.Put (ascii "test-key") (ascii "test-value"))
      (KVCommand.Marshal ⟨ascii "unknown", ascii "test-key", []⟩) =
      (.str (ascii "unknown command"), NewStore.Put (ascii "test-key") (ascii "test-value")) :=
  ⟨by decide, (apply_unknown_op Unmarshal (NewStore.Put (ascii "test-key") (ascii "test-value"))
    (KVCommand.Marshal ⟨ascii "unknown", ascii "test-key", []⟩)
    ⟨ascii "unknown", ascii "test-key", []⟩ (by decide) (by decide) (by decide)).1⟩

/-- **C3.** A payload that `json.Unmarshal` rejects makes `FSM.Apply` return
that error and leaves the store as it was. -/
theorem apply_malformed (unmarshal : Bytes → Except JsonError KVCommand) (st : Store)
    (data : Bytes) (e : JsonError) (hdec : unmarshal data = .error e) :
    FSM.ApplyWith unmarshal st data = (.err e, st) :=
  applyWith_error st hdec

/-- A payload cut short after the first colon. -/
theorem apply_malformed_witness :
    Unmarshal (ascii "\x7b\"op\":") = .error .syntaxError ∧
    FSM.Apply (NewStore.Put (ascii "test-key") (ascii "test-value")) (ascii "\x7b\"op\":") =
      (.err .syntaxError, NewStore.Put (ascii "test-key") (ascii "test-value")) :=
  ⟨by decide, apply_malformed Unmarshal (NewStore.Put (ascii "test-key") (ascii "test-value"))
    (ascii "\x7b\"op\":") .syntaxError (by decide)⟩

/-! ## Commands and snapshots through their JSON encoding -/

theorem apply_marshal_put (st : Store) (k v : Bytes) :
    FSM.Apply st (KVCommand.Marshal ⟨ascii "put", k, v⟩) = (.nil, st.Put (coerceUTF8 k) v) := by
  have hdec := unmarshal_marshal ⟨ascii "put", k, v⟩
  have hop : coerceUTF8 (ascii "put") = ascii "put" := by decide
  rw [hop] at hdec
  exact applyWith_put st hdec rfl

theorem apply_marshal_delete (st : Store) (k : Bytes) :
    FSM.Apply st (KVCommand.Marshal ⟨ascii "delete", k, []⟩) =
      (.nil, (st.Delete (coerceUTF8 k)).2) := by
  have hdec := unmarshal_marshal ⟨ascii "delete", k, []⟩
  have hop : coerceUTF8 (ascii "delete") = ascii "delete" := by decide
  rw [hop] at hdec
  exact applyWith_delete st hdec rfl

/-- **C8, as amended.** For every key that is valid UTF-8 and every value (the
empty one included), applying the log entry whose data is the `Marshal` of
`KVCommand{Op: "put", Key: k, Value: v}` returns nil, leaves the store as
`Put(k, v)` does, and afterwards `Get(k)` reports the key as found with a value
byte-for-byte equal to `v`. -/
theorem apply_put_then_get (st : Store) (k v : Bytes) (hk : utf8Valid k = true) :
    FSM.Apply st (KVCommand.Marshal ⟨ascii "put", k, v⟩) = (.nil, st.Put k v) ∧
    (FSM.Apply st (KVCommand.Marshal ⟨ascii "put", k, v⟩)).2.Get k = (v, true) := by
  have h := apply_marshal_put st k v
  rw [coerceUTF8_of_valid k hk] at h
  rw [h]
  exact ⟨rfl, get_put_same st k v⟩

/-- The entry of `TestFSM_Apply`: key `test-key`, value `test-value`, on the new
store. -/
theorem apply_put_then_get_witness :
    utf8Valid (ascii "test-key") = true ∧
    (FSM.Apply NewStore (KVCommand.Marshal ⟨ascii "put", ascii "test-key", ascii "test-value"⟩)).2.Get
      (ascii "test-key") = (ascii "test-value", true) :=
  ⟨by decide, (apply_put_then_get NewStore (ascii "test-key") (ascii "test-value") (by decide)).2⟩

/-- **C8, as stated, fails.** The key made of the single byte `0xFF` is not
valid UTF-8: `Marshal` writes it as the escape for U+FFFD, the entry is stored under the
three bytes of U+FFFD, and `Get` on the key itself finds nothing. -/
theorem apply_put_then_get_counterexample :
    ¬ ((FSM.Apply NewStore (KVCommand.Marshal ⟨ascii "put", [0xFF], ascii "v"⟩)).1 = .nil ∧
      (FSM.Apply NewStore (KVCommand.Marshal ⟨ascii "put", [0xFF], ascii "v"⟩)).2.Get [0xFF] =
        (ascii "v", true)) := by
  decide

/-- **C9, as amended.** For every store content and every key that is valid
UTF-8, applying the log entry whose data is the `Marshal` of
`KVCommand{Op: "delete", Key: k}` returns nil, afterwards `Get(k)` reports
not-found, and every other key keeps its value. -/
theorem apply_delete_then_get (st : Store) (k : Bytes) (hk : utf8Valid k = true) :
    (FSM.Apply st (KVCommand.Marshal ⟨ascii "delete", k, []⟩)).1 = .nil ∧
    (FSM.Apply st (KVCommand.Marshal ⟨ascii "delete", k, []⟩)).2.Get k = ([], false) ∧
    ∀ k', k' ≠ k →
      (FSM.Apply st (KVCommand.Marshal ⟨ascii "delete", k, []⟩)).2.Get k' = st.Get k' := by
  have h := apply_marshal_delete st k
  rw [coerceUTF8_of_valid k hk] at h
  rw [h]
  exact ⟨rfl, get_delete_same st k, fun k' hne => get_delete_other st hne⟩

/-- The second entry of `TestFSM_Apply`: the key `test-key` is deleted from the
store that holds it. -/
theorem apply_delete_then_get_witness :
    utf8Valid (ascii "test-key") = true ∧
    (FSM.Apply (NewStore.Put (ascii "test-key") (ascii "test-value"))
      (KVCommand.Marshal ⟨ascii "delete", ascii "test-key", []⟩)).2.Get (ascii "test-key") =
        ([], false) :=
  ⟨by decide, (apply_delete_then_get (NewStore.Put (ascii "test-key") (ascii "test-value"))
    (ascii "test-key") (by decide)).2.1⟩

/-- **C9, as stated, fails.** On the store that holds the key U+FFFD (bytes
`EF BF BD`), the entry that deletes the key made of the single byte `0xFF`
removes the key U+FFFD, which is another key. -/
theorem apply_delete_then_get_counterexample :
    ¬ ((FSM.Apply (NewStore.Put [0xEF, 0xBF, 0xBD] (ascii "v"))
        (KVCommand.Marshal ⟨ascii "delete", [0xFF], []⟩)).1 = .nil ∧
      (FSM.Apply (NewStore.Put [0xEF, 0xBF, 0xBD] (ascii "v"))
        (KVCommand.Marshal ⟨ascii "delete", [0xFF], []⟩)).2.Get [0xFF] = ([], false) ∧
      ∀ k', k' ≠ [0xFF] →
        (FSM.Apply (NewStore.Put [0xEF, 0xBF, 0xBD] (ascii "v"))
          (KVCommand.Marshal ⟨ascii "delete", [0xFF], []⟩)).2.Get k' =
        (NewStore.Put [0xEF, 0xBF, 0xBD] (ascii "v")).Get k') := by
  intro h
  have h' := h.2.2 [0xEF, 0xBF, 0xBD] (by decide)
  revert h'
  decide

/-- **C4, as amended.** For every store content whose keys are valid UTF-8 (the
values being any byte sequences, empty ones included), taking `FSM.Snapshot`,
writing it with `Persist`, and feeding the bytes written to `FSM.Restore` on any
store returns nil and leaves a store that answers every `Get` as the original
does. -/
theorem snapshot_restore_roundtrip (S st : Store)
    (hvalid : ∀ k, (S.Get k).2 = true → utf8Valid k = true) :
    (FSM.Restore st (snapshot.Persist (FSM.Snapshot S))).1 = none ∧
    ∀ k, (FSM.Restore st (snapshot.Persist (FSM.Snapshot S))).2.Get k = S.Get k := by
  have hkeys : ∀ k ∈ S.Dump.keys, utf8Valid k = true := by
    intro k hk
    apply hvalid
    have hsome : (S.Dump.lookup k).isSome = true :=
      AList.lookup_isSome.mpr (AList.mem_keys.mpr hk)
    rw [← index_dump]
    unfold GoMap.index
    cases h : S.Dump.lookup k with
    | none => rw [h] at hsome; exact absurd hsome (by decide)
    | some v => rfl
  obtain ⟨m', hdec, hlook⟩ := decode_encode_valid S.Dump hkeys
  unfold FSM.Restore snapshot.Persist FSM.Snapshot
  rw [hdec]
  refine ⟨rfl, fun k => ?_⟩
  change (st.Load m').Get k = S.Get k
  rw [get_load, ← index_dump, index_eq_iff]
  exact hlook k

/-- The store of `TestFSM_Snapshot`, restored into a store that held something
else. -/
theorem snapshot_restore_roundtrip_witness :
    (∀ k, (((NewStore.Put (ascii "key1") (ascii "value1")).Put (ascii "key2")
      (ascii "value2")).Get k).2 = true → utf8Valid k = true) ∧
    (FSM.Restore (NewStore.Put (ascii "old") (ascii "x")) (snapshot.Persist (FSM.Snapshot
      ((NewStore.Put (ascii "key1") (ascii "value1")).Put (ascii "key2") (ascii "value2"))))).2.Get
        (ascii "key1") = (ascii "value1", true) :=
  have hv : ∀ k, (((NewStore.Put (ascii "key1") (ascii "value1")).Put (ascii "key2")
      (ascii "value2")).Get k).2 = true → utf8Valid k = true := by
    intro k hk
    by_cases h2 : k = ascii "key2"
    · rw [h2]; decide
    · by_cases h1 : k = ascii "key1"
      · rw [h1]; decide
      · rw [get_put_other _ _ h2, get_put_other _ _ h1, get_newStore] at hk
        exact absurd hk (by decide)
  ⟨hv, ((snapshot_restore_roundtrip _ (NewStore.Put (ascii "old") (ascii "x")) hv).2
    (ascii "key1")).trans (by decide)⟩

/-- **C4, as stated, fails.** The store that holds the single key `0xFF` (not
valid UTF-8): the snapshot writes the key as the escape for U+FFFD, and the
restored store holds the three bytes of U+FFFD as key instead. -/
theorem snapshot_restore_counterexample :
    ¬ (∀ k, (FSM.Restore NewStore (snapshot.Persist (FSM.Snapshot
        (NewStore.Put [0xFF] (ascii "v"))))).2.Get k = (NewStore.Put [0xFF] (ascii "v")).Get k) := by
  intro h
  have h' := h [0xFF]
  revert h'
  decide

/-! ## The read barrier -/

/-- **C6.** The read barrier does not hold in the code: a follower that has
applied the log up to index 3 while index 5 is committed passes `VerifyRead`,
which inspects the role only. -/
theorem verifyRead_follower_behind :
    Node.VerifyRead ⟨⟨.Follower, ascii "127.0.0.1:9011", 3⟩⟩ = none ∧
    ¬ (5 ≤ (Node.mk ⟨.Follower, ascii "127.0.0.1:9011", 3⟩).raft.appliedIndex) := by
  decide

/-! ## The write gate -/

theorem header_get_set_same (h : Header) (k v : Bytes) : (Header.Set h k v).Get k = some v := by
  simp [Header.Set, Header.Get, List.lookup]

theorem lookup_filter_ne (k k' : Bytes) (hne : k' ≠ k) :
    ∀ h : Header, List.lookup k' (h.filter (fun kv => kv.1 ≠ k)) = List.lookup k' h
  | [] => rfl
  | (a, b) :: es => by
    have ih := lookup_filter_ne k k' hne es
    by_cases he : a = k
    · subst he
      have hb : (k' == a) = false := by simpa using hne
      rw [List.filter_cons_of_neg (by simp), List.lookup_cons, ih, hb]
    · rw [List.filter_cons_of_pos (by simpa using he)]
      simp only [List.lookup_cons]
      rw [ih]

theorem header_get_set_other (h : Header) {k k' : Bytes} (v : Bytes) (hne : k' ≠ k) :
    (Header.Set h k v).Get k' = h.Get k' := by
  have hb : (k' == k) = false := by simpa using hne
  unfold Header.Set Header.Get
  rw [List.lookup_cons, hb]
  exact lookup_filter_ne k k' hne h

theorem httpError_status (w : ResponseWriter) (msg : Bytes) (code : Nat) (hw : w.status = none) :
    (httpError w msg code).status = some code := by
  simp [httpError, ResponseWriter.Write, ResponseWriter.WriteHeader, hw]

theorem httpError_body (w : ResponseWriter) (msg : Bytes) (code : Nat) (hw : w.body = []) :
    (httpError w msg code).body = msg ++ ascii "\n" := by
  simp only [httpError, ResponseWriter.Write, ResponseWriter.WriteHeader]
  cases w.status <;> simp [hw]

theorem httpError_header (w : ResponseWriter) (msg : Bytes) (code : Nat) (k : Bytes)
    (h₁ : k ≠ ascii "Content-Type") (h₂ : k ≠ ascii "X-Content-Type-Options") :
    (httpError w msg code).header.Get k = w.header.Get k := by
  have : (httpError w msg code).header =
      Header.Set (Header.Set w.header (ascii "Content-Type") (ascii "text/plain; charset=utf-8"))
        (ascii "X-Content-Type-Options") (ascii "nosniff") := by
    simp only [httpError, ResponseWriter.Write, ResponseWriter.WriteHeader]
    cases w.status <;> rfl
  rw [this, header_get_set_other _ _ h₂, header_get_set_other _ _ h₁]

/-- The response of the branch `if !s.raft.IsLeader()` shared by `HandlePut` and
`HandleDelete`. -/
theorem notLeader_response (leader : Bytes) :
    let w := ResponseWriter.new
    let w1 := if leader ≠ [] then { w with header := Header.Set w.header (ascii "X-Leader") leader }
      else w
    (httpError w1 (ascii "Not the leader") 400).status = some 400 ∧
    (httpError w1 (ascii "Not the leader") 400).body = ascii "Not the leader\n" ∧
    (httpError w1 (ascii "Not the leader") 400).header.Get (ascii "X-Leader") =
      if leader = [] then none else some leader := by
  intro w w1
  have hs : w1.status = none := by
    by_cases hl : leader = [] <;> simp [w1, w, hl, ResponseWriter.new]
  have hb : w1.body = [] := by
    by_cases hl : leader = [] <;> simp [w1, w, hl, ResponseWriter.new]
  refine ⟨httpError_status _ _ _ hs, ?_, ?_⟩
  · rw [httpError_body _ _ _ hb]; decide
  · rw [httpError_header _ _ _ _ (by decide) (by decide)]
    by_cases hl : leader = []
    · simp [w1, w, hl, ResponseWriter.new, Header.Get]
    · simp [w1, w, hl, ResponseWriter.new, header_get_set_same]

/-- **C7.** On a node that is not the leader, `HandlePut` on a PUT request and
`HandleDelete` on a DELETE request answer 400 with body `Not the leader`, call
`RaftNode.Apply` never, leave the world (the store with it) as it was, and carry
the header `X-Leader` exactly when the leader address is not empty, then with
that address. -/
theorem write_gate_not_leader {σ : Type} (s : Server σ) (r : Request) (world : σ)
    (hfollower : s.raft.IsLeader world = false) :
    (r.Method = ascii "PUT" →
      (s.HandlePut r world).panicked = false ∧
      (s.HandlePut r world).resp.status = some 400 ∧
      (s.HandlePut r world).resp.body = ascii "Not the leader\n" ∧
      (s.HandlePut r world).proposed = [] ∧
      (s.HandlePut r world).world = world ∧
      (s.HandlePut r world).resp.header.Get (ascii "X-Leader") =
        if s.raft.Leader world = [] then none else some (s.raft.Leader world)) ∧
    (r.Method = ascii "DELETE" →
      (s.HandleDelete r world).panicked = false ∧
      (s.HandleDelete r world).resp.status = some 400 ∧
      (s.HandleDelete r world).resp.body = ascii "Not the leader\n" ∧
      (s.HandleDelete r world).proposed = [] ∧
      (s.HandleDelete r world).world = world ∧
      (s.HandleDelete r world).resp.header.Get (ascii "X-Leader") =
        if s.raft.Leader world = [] then none else some (s.raft.Leader world)) := by
  have hresp := notLeader_response (s.raft.Leader world)
  constructor
  · intro hm
    have hrun : s.HandlePut r world =
        ⟨false, httpError (if s.raft.Leader world ≠ [] then
          { ResponseWriter.new with
            header := Header.Set ResponseWriter.new.header (ascii "X-Leader") (s.raft.Leader world) }
          else ResponseWriter.new) (ascii "Not the leader") 400, world, []⟩ := by
      simp [Server.HandlePut, hm, hfollower]
    rw [hrun]
    exact ⟨rfl, hresp.1, hresp.2.1, rfl, rfl, hresp.2.2⟩
  · intro hm
    have hrun : s.HandleDelete r world =
        ⟨false, httpError (if s.raft.Leader world ≠ [] then
          { ResponseWriter.new with
            header := Header.Set ResponseWriter.new.header (ascii "X-Leader") (s.raft.Leader world) }
          else ResponseWriter.new) (ascii "Not the leader") 400, world, []⟩ := by
      simp [Server.HandleDelete, hm, hfollower]
    rw [hrun]
    exact ⟨rfl, hresp.1, hresp.2.1, rfl, rfl, hresp.2.2⟩

/-- The request of `TestHandlePut_NotLeader`: `PUT /kv/test-key` with body
`test-value`, on a mock that is not the leader and knows the leader. -/
theorem write_gate_not_leader_witness :
    (mockServer ⟨false, ascii "127.0.0.1:9001"⟩).raft.IsLeader NewStore = false ∧
    ((mockServer ⟨false, ascii "127.0.0.1:9001"⟩).HandlePut
      ⟨ascii "PUT", ascii "/kv/test-key", .ok (ascii "test-value")⟩ NewStore).resp.status
        = some 400 ∧
    ((mockServer ⟨false, ascii "127.0.0.1:9001"⟩).HandlePut
      ⟨ascii "PUT", ascii "/kv/test-key", .ok (ascii "test-value")⟩ NewStore).resp.header.Get
        (ascii "X-Leader") = some (ascii "127.0.0.1:9001") :=
  have h := (write_gate_not_leader (mockServer ⟨false, ascii "127.0.0.1:9001"⟩)
    ⟨ascii "PUT", ascii "/kv/test-key", .ok (ascii "test-value")⟩ NewStore rfl).1 rfl
  ⟨rfl, h.2.1, h.2.2.2.2.2⟩

/-! ## The handlers -/

theorem httpError_new_status (msg : Bytes) (code : Nat) :
    (httpError ResponseWriter.new msg code).status = some code :=
  httpError_status _ _ _ rfl

theorem httpError_new_body (msg : Bytes) (code : Nat) :
    (httpError ResponseWriter.new msg code).body = msg ++ ascii "\n" :=
  httpError_body _ _ _ rfl

theorem handlePut_wrong_method {σ : Type} (s : Server σ) (r : Request) (world : σ)
    (hm : r.Method ≠ ascii "PUT") :
    s.HandlePut r world =
      ⟨false, httpError ResponseWriter.new (ascii "Method not allowed") 405, world, []⟩ := by
  simp [Server.HandlePut, hm]

theorem handleGet_wrong_method {σ : Type} (s : Server σ) (r : Request) (world : σ)
    (hm : r.Method ≠ ascii "GET") :
    s.HandleGet r world =
      ⟨false, httpError ResponseWriter.new (ascii "Method not allowed") 405, world, []⟩ := by
  simp [Server.HandleGet, hm]

theorem handleDelete_wrong_method {σ : Type} (s : Server σ) (r : Request) (world : σ)
    (hm : r.Method ≠ ascii "DELETE") :
    s.HandleDelete r world =
      ⟨false, httpError ResponseWriter.new (ascii "Method not allowed") 405, world, []⟩ := by
  simp [Server.HandleDelete, hm]

theorem kvPrefix_length : (ascii "/kv/").length = 4 := rfl

theorem handlePut_leader_empty_key {σ : Type} (s : Server σ) (r : Request) (world : σ)
    (hm : r.Method = ascii "PUT") (hl : s.raft.IsLeader world = true)
    (hk : sliceFrom r.Path 4 = some []) :
    s.HandlePut r world =
      ⟨false, httpError ResponseWriter.new (ascii "Key is required") 400, world, []⟩ := by
  simp [Server.HandlePut, hm, hl, kvPrefix_length, hk]

theorem handleDelete_leader_empty_key {σ : Type} (s : Server σ) (r : Request) (world : σ)
    (hm : r.Method = ascii "DELETE") (hl : s.raft.IsLeader world = true)
    (hk : sliceFrom r.Path 4 = some []) :
    s.HandleDelete r world =
      ⟨false, httpError ResponseWriter.new (ascii "Key is required") 400, world, []⟩ := by
  simp [Server.HandleDelete, hm, hl, kvPrefix_length, hk]

theorem handleGet_empty_key {σ : Type} (s : Server σ) (r : Request) (world : σ)
    (hm : r.Method = ascii "GET") (hk : sliceFrom r.Path 4 = some []) :
    s.HandleGet r world =
      ⟨false, httpError ResponseWriter.new (ascii "Key is required") 400, world, []⟩ := by
  simp [Server.HandleGet, hm, kvPrefix_length, hk]

theorem handlePut_body_error {σ : Type} (s : Server σ) (r : Request) (world : σ) (key e : Bytes)
    (hm : r.Method = ascii "PUT") (hl : s.raft.IsLeader world = true)
    (hk : sliceFrom r.Path 4 = some key) (hne : key ≠ []) (hb : r.Body = .error e) :
    s.HandlePut r world =
      ⟨false, httpError ResponseWriter.new (ascii "Failed to read body") 400, world, []⟩ := by
  simp [Server.HandlePut, hm, hl, kvPrefix_length, hk, hne, hb]

theorem handlePut_apply_error {σ : Type} (s : Server σ) (r : Request) (world world1 : σ)
    (key val err : Bytes) (hm : r.Method = ascii "PUT") (hl : s.raft.IsLeader world = true)
    (hk : sliceFrom r.Path 4 = some key) (hne : key ≠ []) (hb : r.Body = .ok val)
    (ha : s.raft.Apply ⟨ascii "put", key, val⟩ world = (some err, world1)) :
    s.HandlePut r world =
      ⟨false, httpError ResponseWriter.new (ascii "Failed to apply command: " ++ err) 500, world1,
        [⟨ascii "put", key, val⟩]⟩ := by
  simp [Server.HandlePut, hm, hl, kvPrefix_length, hk, hne, hb, ha]

theorem handlePut_apply_ok {σ : Type} (s : Server σ) (r : Request) (world world1 : σ)
    (key val : Bytes) (hm : r.Method = ascii "PUT") (hl : s.raft.IsLeader world = true)
    (hk : sliceFrom r.Path 4 = some key) (hne : key ≠ []) (hb : r.Body = .ok val)
    (ha : s.raft.Apply ⟨ascii "put", key, val⟩ world = (none, world1)) :
    s.HandlePut r world =
      ⟨false, ResponseWriter.new.WriteHeader 204, world1, [⟨ascii "put", key, val⟩]⟩ := by
  simp [Server.HandlePut, hm, hl, kvPrefix_length, hk, hne, hb, ha]

theorem handleGet_verify_error {σ : Type} (s : Server σ) (r : Request) (world : σ)
    (key err : Bytes) (hm : r.Method = ascii "GET") (hk : sliceFrom r.Path 4 = some key)
    (hne : key ≠ []) (hv : s.raft.VerifyRead world = some err) :
    s.HandleGet r world =
      ⟨false, httpError ResponseWriter.new (ascii "Failed to verify read: " ++ err) 500, world,
        []⟩ := by
  simp [Server.HandleGet, hm, kvPrefix_length, hk, hne, hv]

theorem handleGet_found {σ : Type} (s : Server σ) (r : Request) (world : σ)
    (key val : Bytes) (hm : r.Method = ascii "GET") (hk : sliceFrom r.Path 4 = some key)
    (hne : key ≠ []) (hv : s.raft.VerifyRead world = none)
    (hg : (s.store world).Get key = (val, true)) :
    s.HandleGet r world =
      ⟨false, ⟨[(ascii "Content-Type", ascii "application/octet-stream")], some 200, val⟩, world,
        []⟩ := by
  simp [Server.HandleGet, hm, kvPrefix_length, hk, hne, hv, hg, ResponseWriter.new,
    ResponseWriter.WriteHeader, ResponseWriter.Write, Header.Set]

theorem handleGet_not_found {σ : Type} (s : Server σ) (r : Request) (world : σ)
    (key : Bytes) (hm : r.Method = ascii "GET") (hk : sliceFrom r.Path 4 = some key)
    (hne : key ≠ []) (hv : s.raft.VerifyRead world = none)
    (hg : ((s.store world).Get key).2 = false) :
    s.HandleGet r world =
      ⟨false, httpError ResponseWriter.new (ascii "Key not found") 404, world, []⟩ := by
  simp [Server.HandleGet, hm, kvPrefix_length, hk, hne, hv, hg]

theorem handleDelete_not_found {σ : Type} (s : Server σ) (r : Request) (world : σ)
    (key : Bytes) (hm : r.Method = ascii "DELETE") (hl : s.raft.IsLeader world = true)
    (hk : sliceFrom r.Path 4 = some key) (hne : key ≠ [])
    (hg : ((s.store world).Get key).2 = false) :
    s.HandleDelete r world =
      ⟨false, httpError ResponseWriter.new (ascii "Key not found") 404, world, []⟩ := by
  simp [Server.HandleDelete, hm, hl, kvPrefix_length, hk, hne, hg]

theorem handleDelete_apply_error {σ : Type} (s : Server σ) (r : Request) (world world1 : σ)
    (key err : Bytes) (hm : r.Method = ascii "DELETE") (hl : s.raft.IsLeader world = true)
    (hk : sliceFrom r.Path 4 = some key) (hne : key ≠ [])
    (hg : ((s.store world).Get key).2 = true)
    (ha : s.raft.Apply ⟨ascii "delete", key, []⟩ world = (some err, world1)) :
    s.HandleDelete r world =
      ⟨false, httpError ResponseWriter.new (ascii "Failed to apply command: " ++ err) 500, world1,
        [⟨ascii "delete", key, []⟩]⟩ := by
  simp [Server.HandleDelete, hm, hl, kvPrefix_length, hk, hne, hg, ha]

theorem handleDelete_apply_ok {σ : Type} (s : Server σ) (r : Request) (world world1 : σ)
    (key : Bytes) (hm : r.Method = ascii "DELETE") (hl : s.raft.IsLeader world = true)
    (hk : sliceFrom r.Path 4 = some key) (hne : key ≠ [])
    (hg : ((s.store world).Get key).2 = true)
    (ha : s.raft.Apply ⟨ascii "delete", key, []⟩ world = (none, world1)) :
    s.HandleDelete r world =
      ⟨false, ResponseWriter.new.WriteHeader 204, world1, [⟨ascii "delete", key, []⟩]⟩ := by
  simp [Server.HandleDelete, hm, hl, kvPrefix_length, hk, hne, hg, ha]

/-- **C11.** On the store made by `NewStore`, `Get(k)` reports not-found for
every key; on every store, `Get(k)` right after `Delete(k)` reports
not-found. -/
theorem get_absent :
    (∀ k, NewStore.Get k = ([], false)) ∧
    ∀ (s : Store) (k : Bytes), (s.Delete k).2.Get k = ([], false) :=
  ⟨get_newStore, get_delete_same⟩

theorem verifyRead_of_indeterminate (n : Node)
    (h : n.raft.state = .Candidate ∨ n.raft.state = .Shutdown) :
    n.VerifyRead = some (ascii "node not in valid state for reads: " ++ n.raft.state.String) := by
  obtain ⟨⟨state, leader, applied⟩⟩ := n
  simp only at h
  rcases h with h | h <;> subst h <;> rfl

theorem handleGet_never_ok_of_verify_error {σ : Type} (s : Server σ) (r : Request) (world : σ)
    (err : Bytes) (hv : s.raft.VerifyRead world = some err) :
    (s.HandleGet r world).resp.status ≠ some 200 ∧ (s.HandleGet r world).world = world ∧
      (s.HandleGet r world).proposed = [] := by
  by_cases hm : r.Method = ascii "GET"
  · cases hk : sliceFrom r.Path 4 with
    | none =>
      have : s.HandleGet r world = ⟨true, ResponseWriter.new, world, []⟩ := by
        simp [Server.HandleGet, hm, kvPrefix_length, hk]
      rw [this]
      exact ⟨by simp [ResponseWriter.new], rfl, rfl⟩
    | some key =>
      by_cases hne : key = []
      · rw [hne] at hk
        rw [handleGet_empty_key s r world hm hk]
        refine ⟨?_, rfl, rfl⟩
        rw [httpError_new_status]; decide
      · rw [handleGet_verify_error s r world key err hm hk hne hv]
        refine ⟨?_, rfl, rfl⟩
        rw [httpError_new_status]; decide
  · rw [handleGet_wrong_method s r world hm]
    refine ⟨?_, rfl, rfl⟩
    rw [httpError_new_status]; decide

/-- **C13.** For a node whose role is Candidate or Shutdown, `VerifyRead`
returns an error; `HandleGet` on that node then answers every GET request that
names a key with 500 and the text of that error, whatever the store holds, and
no request at all with 200. -/
theorem verifyRead_indeterminate_role (n : Node)
    (h : n.raft.state = .Candidate ∨ n.raft.state = .Shutdown) :
    n.VerifyRead = some (ascii "node not in valid state for reads: " ++ n.raft.state.String) ∧
    (∀ (raftApply : Bytes → NodeWorld → Option Bytes × NodeWorld) (store : Store) (r : Request)
      (key : Bytes), r.Method = ascii "GET" → sliceFrom r.Path 4 = some key → key ≠ [] →
      ((nodeServer raftApply).HandleGet r ⟨n, store⟩).panicked = false ∧
      ((nodeServer raftApply).HandleGet r ⟨n, store⟩).resp.status = some 500 ∧
      ((nodeServer raftApply).HandleGet r ⟨n, store⟩).resp.body =
        ascii "Failed to verify read: node not in valid state for reads: " ++ n.raft.state.String
          ++ ascii "\n") ∧
    (∀ (raftApply : Bytes → NodeWorld → Option Bytes × NodeWorld) (store : Store) (r : Request),
      ((nodeServer raftApply).HandleGet r ⟨n, store⟩).resp.status ≠ some 200) := by
  have hv := verifyRead_of_indeterminate n h
  refine ⟨hv, ?_, ?_⟩
  · intro raftApply store r key hm hk hne
    have hrun := handleGet_verify_error (nodeServer raftApply) r ⟨n, store⟩ key _ hm hk hne hv
    rw [hrun]
    refine ⟨rfl, httpError_new_status _ _, ?_⟩
    rw [httpError_new_body]
    simp only [List.append_assoc]
    rfl
  · intro raftApply store r
    exact (handleGet_never_ok_of_verify_error (nodeServer raftApply) r ⟨n, store⟩ _ hv).1

/-- A candidate in mid-election, asked for the key of `TestHandleGet`, which its
store holds. -/
theorem verifyRead_indeterminate_role_witness :
    (Node.mk ⟨.Candidate, [], 7⟩).raft.state = .Candidate ∧
    ((nodeServer (fun _ world => (none, world))).HandleGet
      ⟨ascii "GET", ascii "/kv/test-key", .ok []⟩
      ⟨⟨⟨.Candidate, [], 7⟩⟩, NewStore.Put (ascii "test-key") (ascii "test-value")⟩).resp.status
        = some 500 :=
  ⟨rfl, ((verifyRead_indeterminate_role ⟨⟨.Candidate, [], 7⟩⟩ (Or.inl rfl)).2.1
    (fun _ world => (none, world)) (NewStore.Put (ascii "test-key") (ascii "test-value"))
    ⟨ascii "GET", ascii "/kv/test-key", .ok []⟩ (ascii "test-key") rfl rfl (by decide)).2.1⟩

/-- **C14, as amended.** On a leader, for every PUT request that names a key:
when the body is read without error, `HandlePut` calls `RaftNode.Apply` exactly
once, with the command `put` on the key taken from the path after `/kv/` and the
body as value, and answers 204 when the call returns nil and 500 when it returns
an error; when reading the body fails, it answers 400 and proposes nothing. -/
theorem handlePut_proposes_once {σ : Type} (s : Server σ) (r : Request) (world : σ) (key : Bytes)
    (hm : r.Method = ascii "PUT") (hl : s.raft.IsLeader world = true)
    (hk : sliceFrom r.Path 4 = some key) (hne : key ≠ []) :
    (∀ val, r.Body = .ok val →
      (s.HandlePut r world).panicked = false ∧
      (s.HandlePut r world).proposed = [⟨ascii "put", key, val⟩] ∧
      (s.HandlePut r world).world = (s.raft.Apply ⟨ascii "put", key, val⟩ world).2 ∧
      ((s.raft.Apply ⟨ascii "put", key, val⟩ world).1 = none →
        (s.HandlePut r world).resp.status = some 204) ∧
      (∀ err, (s.raft.Apply ⟨ascii "put", key, val⟩ world).1 = some err →
        (s.HandlePut r world).resp.status = some 500)) ∧
    (∀ e, r.Body = .error e →
      (s.HandlePut r world).panicked = false ∧
      (s.HandlePut r world).resp.status = some 400 ∧
      (s.HandlePut r world).proposed = [] ∧
      (s.HandlePut r world).world = world) := by
  constructor
  · intro val hb
    cases ha : s.raft.Apply ⟨ascii "put", key, val⟩ world with
    | mk res world1 =>
      cases res with
      | none =>
        rw [handlePut_apply_ok s r world world1 key val hm hl hk hne hb ha]
        exact ⟨rfl, rfl, rfl, fun _ => rfl, fun err he => by simp at he⟩
      | some err =>
        rw [handlePut_apply_error s r world world1 key val err hm hl hk hne hb ha]
        exact ⟨rfl, rfl, rfl, fun he => by simp at he, fun _ _ => httpError_new_status _ _⟩
  · intro e hb
    rw [handlePut_body_error s r world key e hm hl hk hne hb]
    exact ⟨rfl, httpError_new_status _ _, rfl, rfl⟩

/-- The request of `TestHandlePut` on the leader mock: one command is proposed
and the answer is 204. -/
theorem handlePut_proposes_once_witness :
    (mockServer ⟨true, []⟩).raft.IsLeader NewStore = true ∧
    ((mockServer ⟨true, []⟩).HandlePut
      ⟨ascii "PUT", ascii "/kv/test-key", .ok (ascii "test-value")⟩ NewStore).proposed =
        [⟨ascii "put", ascii "test-key", ascii "test-value"⟩] :=
  ⟨rfl, ((handlePut_proposes_once (mockServer ⟨true, []⟩)
    ⟨ascii "PUT", ascii "/kv/test-key", .ok (ascii "test-value")⟩ NewStore (ascii "test-key")
    rfl rfl rfl (by decide)).1 (ascii "test-value") rfl).2.1⟩

/-- **C14, as stated, fails.** A PUT request for the key `test-key` whose body
cannot be read, on a leader: nothing is proposed and the answer is 400. -/
theorem handlePut_proposes_once_counterexample :
    ¬ (((mockServer ⟨true, []⟩).HandlePut
        ⟨ascii "PUT", ascii "/kv/test-key", .error (ascii "unexpected EOF")⟩ NewStore).proposed.length
          = 1 ∧
      (((mockServer ⟨true, []⟩).HandlePut
        ⟨ascii "PUT", ascii "/kv/test-key", .error (ascii "unexpected EOF")⟩ NewStore).resp.status
          = some 204 ∨
       ((mockServer ⟨true, []⟩).HandlePut
        ⟨ascii "PUT", ascii "/kv/test-key", .error (ascii "unexpected EOF")⟩ NewStore).resp.status
          = some 500)) := by
  decide

/-- **C15.** For every GET request that names a key: when `VerifyRead` fails,
`HandleGet` answers 500 and the answer is the same whatever store the server
points to (the store is not read); when it succeeds, the answer is 200 with the
stored value as body if the key is present, and 404 if it is absent. -/
theorem handleGet_answers {σ : Type} (s : Server σ) (r : Request) (world : σ) (key : Bytes)
    (hm : r.Method = ascii "GET") (hk : sliceFrom r.Path 4 = some key) (hne : key ≠ []) :
    (∀ err, s.raft.VerifyRead world = some err →
      (s.HandleGet r world).resp.status = some 500 ∧
      ∀ store : σ → Store, (Server.mk store s.raft).HandleGet r world = s.HandleGet r world) ∧
    (∀ val, s.raft.VerifyRead world = none → (s.store world).Get key = (val, true) →
      (s.HandleGet r world).resp.status = some 200 ∧ (s.HandleGet r world).resp.body = val) ∧
    (s.raft.VerifyRead world = none → ((s.store world).Get key).2 = false →
      (s.HandleGet r world).resp.status = some 404) ∧
    (s.HandleGet r world).panicked = false ∧ (s.HandleGet r world).proposed = [] ∧
    (s.HandleGet r world).world = world := by
  cases hv : s.raft.VerifyRead world with
  | some err =>
    have hrun := handleGet_verify_error s r world key err hm hk hne hv
    rw [hrun]
    refine ⟨fun err' _ => ⟨httpError_new_status _ _, fun store => ?_⟩, fun _ h => by simp at h,
      fun h => by simp at h, rfl, rfl, rfl⟩
    exact handleGet_verify_error (Server.mk store s.raft) r world key err hm hk hne hv
  | none =>
    cases hg : (s.store world).Get key with
    | mk val ok =>
      cases ok with
      | true =>
        rw [handleGet_found s r world key val hm hk hne hv hg]
        refine ⟨fun _ h => by simp at h, fun val' _ hv' => ?_, fun _ h => by simp at h,
          rfl, rfl, rfl⟩
        have : val' = val := by
          have := congrArg Prod.fst hv'
          exact this.symm
        rw [this]
        exact ⟨rfl, rfl⟩
      | false =>
        rw [handleGet_not_found s r world key hm hk hne hv (by rw [hg])]
        exact ⟨fun _ h => by simp at h, fun _ _ h => by simp at h,
          fun _ _ => httpError_new_status _ _, rfl, rfl, rfl⟩

/-- The request of `TestHandleGet`: the stored value comes back with 200. -/
theorem handleGet_answers_witness :
    ((mockServer ⟨true, []⟩).HandleGet ⟨ascii "GET", ascii "/kv/test-key", .ok []⟩
      (NewStore.Put (ascii "test-key") (ascii "test-value"))).resp.status = some 200 ∧
    ((mockServer ⟨true, []⟩).HandleGet ⟨ascii "GET", ascii "/kv/test-key", .ok []⟩
      (NewStore.Put (ascii "test-key") (ascii "test-value"))).resp.body = ascii "test-value" :=
  (handleGet_answers (mockServer ⟨true, []⟩) ⟨ascii "GET", ascii "/kv/test-key", .ok []⟩
    (NewStore.Put (ascii "test-key") (ascii "test-value")) (ascii "test-key") rfl rfl
    (by decide)).2.1 (ascii "test-value") rfl (by decide)

/-- **C16.** On a leader, for every DELETE request that names a key: when the
key is absent from the local store, `HandleDelete` answers 404 and proposes
nothing; when it is present, it calls `RaftNode.Apply` exactly once, with the
command `delete` on that key, and answers 204 when the call returns nil and 500
when it returns an error. -/
theorem handleDelete_answers {σ : Type} (s : Server σ) (r : Request) (world : σ) (key : Bytes)
    (hm : r.Method = ascii "DELETE") (hl : s.raft.IsLeader world = true)
    (hk : sliceFrom r.Path 4 = some key) (hne : key ≠ []) :
    (((s.store world).Get key).2 = false →
      (s.HandleDelete r world).resp.status = some 404 ∧ (s.HandleDelete r world).proposed = [] ∧
      (s.HandleDelete r world).world = world) ∧
    (((s.store world).Get key).2 = true →
      (s.HandleDelete r world).proposed = [⟨ascii "delete", key, []⟩] ∧
      (s.HandleDelete r world).world = (s.raft.Apply ⟨ascii "delete", key, []⟩ world).2 ∧
      ((s.raft.Apply ⟨ascii "delete", key, []⟩ world).1 = none →
        (s.HandleDelete r world).resp.status = some 204) ∧
      (∀ err, (s.raft.Apply ⟨ascii "delete", key, []⟩ world).1 = some err →
        (s.HandleDelete r world).resp.status = some 500)) ∧
    (s.HandleDelete r world).panicked = false := by
  cases hg : ((s.store world).Get key).2 with
  | false =>
    rw [handleDelete_not_found s r world key hm hl hk hne hg]
    exact ⟨fun _ => ⟨httpError_new_status _ _, rfl, rfl⟩, fun h => by simp at h, rfl⟩
  | true =>
    cases ha : s.raft.Apply ⟨ascii "delete", key, []⟩ world with
    | mk res world1 =>
      cases res with
      | none =>
        rw [handleDelete_apply_ok s r world world1 key hm hl hk hne hg ha]
        exact ⟨fun h => by simp at h, fun _ => ⟨rfl, rfl, fun _ => rfl, fun err he => by simp at he⟩,
          rfl⟩
      | some err =>
        rw [handleDelete_apply_error s r world world1 key err hm hl hk hne hg ha]
        exact ⟨fun h => by simp at h,
          fun _ => ⟨rfl, rfl, fun he => by simp at he, fun _ _ => httpError_new_status _ _⟩, rfl⟩

/-- The requests of `TestHandleDelete` and `TestHandleDelete_NotFound` on the
leader mock. -/
theorem handleDelete_answers_witness :
    ((mockServer ⟨true, []⟩).HandleDelete ⟨ascii "DELETE", ascii "/kv/test-key", .ok []⟩
      (NewStore.Put (ascii "test-key") (ascii "test-value"))).proposed =
        [⟨ascii "delete", ascii "test-key", []⟩] ∧
    ((mockServer ⟨true, []⟩).HandleDelete ⟨ascii "DELETE", ascii "/kv/nonexistent", .ok []⟩
      NewStore).resp.status = some 404 :=
  ⟨((handleDelete_answers (mockServer ⟨true, []⟩) ⟨ascii "DELETE", ascii "/kv/test-key", .ok []⟩
      (NewStore.Put (ascii "test-key") (ascii "test-value")) (ascii "test-key") rfl rfl rfl
      (by decide)).2.1 (by decide)).1,
   ((handleDelete_answers (mockServer ⟨true, []⟩) ⟨ascii "DELETE", ascii "/kv/nonexistent", .ok []⟩
      NewStore (ascii "nonexistent") rfl rfl rfl (by decide)).1 (by decide)).1⟩

theorem handlePut_not_leader {σ : Type} (s : Server σ) (r : Request) (world : σ)
    (hm : r.Method = ascii "PUT") (hl : s.raft.IsLeader world = false) :
    s.HandlePut r world =
      ⟨false, httpError (if s.raft.Leader world ≠ [] then
        { ResponseWriter.new with
          header := Header.Set ResponseWriter.new.header (ascii "X-Leader") (s.raft.Leader world) }
        else ResponseWriter.new) (ascii "Not the leader") 400, world, []⟩ := by
  simp [Server.HandlePut, hm, hl]

theorem handleDelete_not_leader {σ : Type} (s : Server σ) (r : Request) (world : σ)
    (hm : r.Method = ascii "DELETE") (hl : s.raft.IsLeader world = false) :
    s.HandleDelete r world =
      ⟨false, httpError (if s.raft.Leader world ≠ [] then
        { ResponseWriter.new with
          header := Header.Set ResponseWriter.new.header (ascii "X-Leader") (s.raft.Leader world) }
        else ResponseWriter.new) (ascii "Not the leader") 400, world, []⟩ := by
  simp [Server.HandleDelete, hm, hl]

/-- **C17.** For each of `HandlePut`, `HandleGet` and `HandleDelete`, a request
with the wrong method, or whose path after `/kv/` is empty, gets a status from
400 to 499, and neither is a command proposed nor the world (the local store
with it) changed. -/
theorem client_errors_change_nothing {σ : Type} (s : Server σ) (r : Request) (world : σ) :
    ((r.Method ≠ ascii "PUT" ∨ sliceFrom r.Path 4 = some []) →
      (s.HandlePut r world).panicked = false ∧
      (∃ code, (s.HandlePut r world).resp.status = some code ∧ 400 ≤ code ∧ code < 500) ∧
      (s.HandlePut r world).proposed = [] ∧ (s.HandlePut r world).world = world) ∧
    ((r.Method ≠ ascii "GET" ∨ sliceFrom r.Path 4 = some []) →
      (s.HandleGet r world).panicked = false ∧
      (∃ code, (s.HandleGet r world).resp.status = some code ∧ 400 ≤ code ∧ code < 500) ∧
      (s.HandleGet r world).proposed = [] ∧ (s.HandleGet r world).world = world) ∧
    ((r.Method ≠ ascii "DELETE" ∨ sliceFrom r.Path 4 = some []) →
      (s.HandleDelete r world).panicked = false ∧
      (∃ code, (s.HandleDelete r world).resp.status = some code ∧ 400 ≤ code ∧ code < 500) ∧
      (s.HandleDelete r world).proposed = [] ∧ (s.HandleDelete r world).world = world) := by
  have h405 : ∀ msg : Bytes, ∃ code, (httpError ResponseWriter.new msg 405).status = some code ∧
      400 ≤ code ∧ code < 500 := fun msg => ⟨405, httpError_new_status _ _, by decide, by decide⟩
  have h400 : ∀ msg : Bytes, ∃ code, (httpError ResponseWriter.new msg 400).status = some code ∧
      400 ≤ code ∧ code < 500 := fun msg => ⟨400, httpError_new_status _ _, by decide, by decide⟩
  refine ⟨fun h => ?_, fun h => ?_, fun h => ?_⟩
  · by_cases hm : r.Method = ascii "PUT"
    · have hk : sliceFrom r.Path 4 = some [] := h.resolve_left (fun hne => hne hm)
      cases hl : s.raft.IsLeader world with
      | false =>
        rw [handlePut_not_leader s r world hm hl]
        exact ⟨rfl, ⟨400, (notLeader_response (s.raft.Leader world)).1, by decide, by decide⟩,
          rfl, rfl⟩
      | true =>
        rw [handlePut_leader_empty_key s r world hm hl hk]
        exact ⟨rfl, h400 _, rfl, rfl⟩
    · rw [handlePut_wrong_method s r world hm]
      exact ⟨rfl, h405 _, rfl, rfl⟩
  · by_cases hm : r.Method = ascii "GET"
    · have hk : sliceFrom r.Path 4 = some [] := h.resolve_left (fun hne => hne hm)
      rw [handleGet_empty_key s r world hm hk]
      exact ⟨rfl, h400 _, rfl, rfl⟩
    · rw [handleGet_wrong_method s r world hm]
      exact ⟨rfl, h405 _, rfl, rfl⟩
  · by_cases hm : r.Method = ascii "DELETE"
    · have hk : sliceFrom r.Path 4 = some [] := h.resolve_left (fun hne => hne hm)
      cases hl : s.raft.IsLeader world with
      | false =>
        rw [handleDelete_not_leader s r world hm hl]
        exact ⟨rfl, ⟨400, (notLeader_response (s.raft.Leader world)).1, by decide, by decide⟩,
          rfl, rfl⟩
      | true =>
        rw [handleDelete_leader_empty_key s r world hm hl hk]
        exact ⟨rfl, h400 _, rfl, rfl⟩
    · rw [handleDelete_wrong_method s r world hm]
      exact ⟨rfl, h405 _, rfl, rfl⟩

/-- A POST sent to `HandlePut`, and a GET for the bare path `/kv/`. -/
theorem client_errors_change_nothing_witness :
    ((mockServer ⟨true, []⟩).HandlePut ⟨ascii "POST", ascii "/kv/test-key", .ok (ascii "v")⟩
      NewStore).resp.status = some 405 ∧
    ((mockServer ⟨true, []⟩).HandleGet ⟨ascii "GET", ascii "/kv/", .ok []⟩
      NewStore).proposed = [] :=
  ⟨by decide,
   ((client_errors_change_nothing (mockServer ⟨true, []⟩) ⟨ascii "GET", ascii "/kv/", .ok []⟩
      NewStore).2.1 (Or.inr rfl)).2.2.1⟩

theorem handlers_no_panic_of_long_path {σ : Type} (s : Server σ) (r : Request) (world : σ)
    (hlen : 4 ≤ r.Path.length) :
    (s.HandlePut r world).panicked = false ∧ (s.HandleGet r world).panicked = false ∧
      (s.HandleDelete r world).panicked = false := by
  have hk : sliceFrom r.Path 4 = some (r.Path.drop 4) := by
    simp [sliceFrom, hlen]
  refine ⟨?_, ?_, ?_⟩
  · by_cases hm : r.Method = ascii "PUT"
    · cases hl : s.raft.IsLeader world with
      | false => rw [handlePut_not_leader s r world hm hl]
      | true =>
        by_cases hne : r.Path.drop 4 = []
        · rw [hne] at hk; rw [handlePut_leader_empty_key s r world hm hl hk]
        · cases hb : r.Body with
          | error e => rw [handlePut_body_error s r world _ e hm hl hk hne hb]
          | ok val =>
            cases ha : s.raft.Apply ⟨ascii "put", r.Path.drop 4, val⟩ world with
            | mk res world1 =>
              cases res with
              | none => rw [handlePut_apply_ok s r world world1 _ val hm hl hk hne hb ha]
              | some err => rw [handlePut_apply_error s r world world1 _ val err hm hl hk hne hb ha]
    · rw [handlePut_wrong_method s r world hm]
  · by_cases hm : r.Method = ascii "GET"
    · by_cases hne : r.Path.drop 4 = []
      · rw [hne] at hk; rw [handleGet_empty_key s r world hm hk]
      · cases hv : s.raft.VerifyRead world with
        | some err => rw [handleGet_verify_error s r world _ err hm hk hne hv]
        | none =>
          cases hg : (s.store world).Get (r.Path.drop 4) with
          | mk val ok =>
            cases ok with
            | true => rw [handleGet_found s r world _ val hm hk hne hv hg]
            | false => rw [handleGet_not_found s r world _ hm hk hne hv (by rw [hg])]
    · rw [handleGet_wrong_method s r world hm]
  · by_cases hm : r.Method = ascii "DELETE"
    · cases hl : s.raft.IsLeader world with
      | false => rw [handleDelete_not_leader s r world hm hl]
      | true =>
        by_cases hne : r.Path.drop 4 = []
        · rw [hne] at hk; rw [handleDelete_leader_empty_key s r world hm hl hk]
        · cases hg : ((s.store world).Get (r.Path.drop 4)).2 with
          | false => rw [handleDelete_not_found s r world _ hm hl hk hne hg]
          | true =>
            cases ha : s.raft.Apply ⟨ascii "delete", r.Path.drop 4, []⟩ world with
            | mk res world1 =>
              cases res with
              | none => rw [handleDelete_apply_ok s r world world1 _ hm hl hk hne hg ha]
              | some err => rw [handleDelete_apply_error s r world world1 _ err hm hl hk hne hg ha]
    · rw [handleDelete_wrong_method s r world hm]

/-- **C18.** The handlers do fault: on the path `/kv`, one byte shorter than
`/kv/`, the slice `r.URL.Path[len("/kv/"):]` is out of bounds, and `HandleGet`
on a GET request, `HandlePut` on a PUT request and `HandleDelete` on a DELETE
request to a leader panic before any status is sent. -/
theorem handlers_panic_on_short_path :
    ((mockServer ⟨true, []⟩).HandleGet ⟨ascii "GET", ascii "/kv", .ok []⟩ NewStore).panicked
      = true ∧
    ((mockServer ⟨true, []⟩).HandleGet ⟨ascii "GET", ascii "/kv", .ok []⟩ NewStore).resp.status
      = none ∧
    ((mockServer ⟨true, []⟩).HandlePut ⟨ascii "PUT", ascii "/kv", .ok (ascii "v")⟩
      NewStore).panicked = true ∧
    ((mockServer ⟨true, []⟩).HandleDelete ⟨ascii "DELETE", ascii "/kv", .ok []⟩
      NewStore).panicked = true := by
  decide

/-! ## Restore as a replacement -/

/-- The scanner accepts what `json.Marshal` writes for a map and reads the
object back. -/
theorem scan_encodeMap (m : GoMap) :
    List.foldl Scanner.next Scanner.reset (encodeMap m) =
      ⟨.endValue (.object ((m.entries.insertionSort (fun a b => a.1 ≤ b.1)).map
        (fun e => (coerceUTF8 e.1, JValue.string (b64Encode e.2))))), []⟩ := by
  unfold encodeMap
  rw [List.foldl_cons, next_open_object, scan_entries_first]
  rfl

/-- What `Decoder.Decode` makes of a stream that starts with the encoding of a
map, whatever follows it. -/
theorem decode_encodeMap (m : GoMap) (rest : Bytes) :
    Decode (encodeMap m ++ rest) = .ok ((m.entries.insertionSort (fun a b => a.1 ≤ b.1)).foldl
      (fun acc e => acc.insert (coerceUTF8 e.1) e.2) ∅) := by
  have h := readValue_of_foldl (encodeMap m) Scanner.reset _ rest (scan_encodeMap m)
  unfold Decode
  rw [h]
  exact decodeMapMembers_encoded _ ∅

theorem decode_encodeMap_valid (m : GoMap) (rest : Bytes)
    (hvalid : ∀ k ∈ m.keys, utf8Valid k = true) :
    ∃ m', Decode (encodeMap m ++ rest) = .ok m' ∧ ∀ k, m'.lookup k = m.lookup k := by
  have hperm : (m.entries.insertionSort (fun a b => a.1 ≤ b.1)).Perm m.entries :=
    List.perm_insertionSort _ _
  have hnd : (m.entries.insertionSort (fun a b => a.1 ≤ b.1)).NodupKeys :=
    (List.perm_nodupKeys hperm).mpr m.nodupKeys
  have hv : ∀ e ∈ m.entries.insertionSort (fun a b => a.1 ≤ b.1), utf8Valid e.1 = true := by
    intro e he
    exact hvalid e.1 (List.mem_keys_of_mem (hperm.subset he))
  refine ⟨_, decode_encodeMap m rest, fun k => ?_⟩
  rw [foldl_insert_valid _ ∅ hv, lookup_copyInto k _ ∅ hnd, List.perm_dlookup k hnd m.nodupKeys hperm]
  change (m.lookup k).orElse (fun _ => none) = m.lookup k
  cases m.lookup k <;> rfl

/-- **C12, as amended.** For every prior store content and every state whose
keys are valid UTF-8, `FSM.Restore` on a stream that starts with the JSON
serialization of the state returns nil, and afterwards `Get(k)` returns the
value of the state for every key of the state and not-found for every other key,
the keys of the prior content included. -/
theorem restore_replaces (P : Store) (S : GoMap) (rest : Bytes)
    (hvalid : ∀ k ∈ S.keys, utf8Valid k = true) :
    (FSM.Restore P (encodeMap S ++ rest)).1 = none ∧
    (∀ k v, S.lookup k = some v → (FSM.Restore P (encodeMap S ++ rest)).2.Get k = (v, true)) ∧
    (∀ k, S.lookup k = none → (FSM.Restore P (encodeMap S ++ rest)).2.Get k = ([], false)) := by
  obtain ⟨m', hdec, hlook⟩ := decode_encodeMap_valid S rest hvalid
  have hrun : FSM.Restore P (encodeMap S ++ rest) = (none, P.Load m') := by
    unfold FSM.Restore
    rw [hdec]
  rw [hrun]
  refine ⟨rfl, fun k v hk => ?_, fun k hk => ?_⟩
  · change (P.Load m').Get k = (v, true)
    rw [get_load]
    exact index_of_lookup_some ((hlook k).trans hk)
  · change (P.Load m').Get k = ([], false)
    rw [get_load]
    exact index_of_lookup_none ((hlook k).trans hk)

/-- The state of `TestFSM_Restore`, restored over a store that holds another
key: the key of the state is found, the old key is gone. -/
theorem restore_replaces_witness :
    (∀ k ∈ (((∅ : GoMap).insert (ascii "key1") (ascii "value1")).insert (ascii "key2")
      (ascii "value2")).keys, utf8Valid k = true) ∧
    (FSM.Restore (NewStore.Put (ascii "old") (ascii "x"))
      (encodeMap (((∅ : GoMap).insert (ascii "key1") (ascii "value1")).insert (ascii "key2")
        (ascii "value2")) ++ [])).2.Get (ascii "key1") = (ascii "value1", true) ∧
    (FSM.Restore (NewStore.Put (ascii "old") (ascii "x"))
      (encodeMap (((∅ : GoMap).insert (ascii "key1") (ascii "value1")).insert (ascii "key2")
        (ascii "value2")) ++ [])).2.Get (ascii "old") = ([], false) :=
  have hv : ∀ k ∈ (((∅ : GoMap).insert (ascii "key1") (ascii "value1")).insert (ascii "key2")
      (ascii "value2")).keys, utf8Valid k = true := by decide
  ⟨hv,
   (restore_replaces (NewStore.Put (ascii "old") (ascii "x")) _ [] hv).2.1 (ascii "key1")
     (ascii "value1") (by decide),
   (restore_replaces (NewStore.Put (ascii "old") (ascii "x")) _ [] hv).2.2 (ascii "old")
     (by decide)⟩

/-- **C12, as stated, fails.** The state that holds the single key `0xFF` (not
valid UTF-8): `FSM.Restore` on its JSON serialization returns nil, and `Get` on
that key reports not-found. -/
theorem restore_replaces_counterexample :
    (FSM.Restore NewStore (encodeMap ((∅ : GoMap).insert [0xFF] (ascii "v")))).1 = none ∧
    ((∅ : GoMap).insert [0xFF] (ascii "v")).lookup [0xFF] = some (ascii "v") ∧
    ¬ ((FSM.Restore NewStore (encodeMap ((∅ : GoMap).insert [0xFF] (ascii "v")))).2.Get [0xFF] =
      (ascii "v", true)) := by
  decide

/-! ## The bearer-token gate -/

theorem stringsSplit_ne_nil (sep : Byte) : ∀ s : Bytes, stringsSplit sep s ≠ []
  | [] => by simp [stringsSplit]
  | c :: rest => by
    rw [stringsSplit]
    by_cases hc : c = sep
    · rw [if_pos hc]; exact List.cons_ne_nil _ _
    · rw [if_neg hc]
      cases stringsSplit sep rest <;> exact List.cons_ne_nil _ _

theorem stringsSplit_of_not_mem (sep : Byte) : ∀ s : Bytes, sep ∉ s → stringsSplit sep s = [s]
  | [], _ => rfl
  | c :: rest, h => by
    have hc : c ≠ sep := fun e => h (by rw [e]; exact List.mem_cons_self _ _)
    have ih := stringsSplit_of_not_mem sep rest (fun hm => h (List.mem_cons_of_mem _ hm))
    rw [stringsSplit, if_neg hc, ih]

theorem stringsSplit_append (sep : Byte) (b : Bytes) :
    ∀ a : Bytes, sep ∉ a → stringsSplit sep (a ++ sep :: b) = a :: stringsSplit sep b
  | [], _ => by
    rw [List.nil_append, stringsSplit, if_pos rfl]
  | c :: a, h => by
    have hc : c ≠ sep := fun e => h (by rw [e]; exact List.mem_cons_self _ _)
    have ih := stringsSplit_append sep b a (fun hm => h (List.mem_cons_of_mem _ hm))
    rw [List.cons_append, stringsSplit, if_neg hc, ih]

theorem stringsSplit_one (sep : Byte) :
    ∀ (s b : Bytes), stringsSplit sep s = [b] → s = b ∧ sep ∉ b
  | [], b, h => by
    simp only [stringsSplit, List.cons.injEq, and_true] at h
    rw [← h]
    exact ⟨rfl, List.not_mem_nil _⟩
  | c :: rest, b, h => by
    rw [stringsSplit] at h
    by_cases hc : c = sep
    · rw [if_pos hc] at h
      simp only [List.cons.injEq] at h
      exact absurd h.2 (stringsSplit_ne_nil sep rest)
    · rw [if_neg hc] at h
      cases hs : stringsSplit sep rest with
      | nil => exact absurd hs (stringsSplit_ne_nil sep rest)
      | cons p ps =>
        rw [hs] at h
        simp only [List.cons.injEq] at h
        obtain ⟨hb, hps⟩ := h
        rw [hps] at hs
        obtain ⟨hr, hn⟩ := stringsSplit_one sep rest p hs
        rw [← hb, hr]
        refine ⟨rfl, fun hm => ?_⟩
        rcases List.mem_cons.mp hm with e | e
        · exact hc e.symm
        · exact hn e

theorem stringsSplit_two (sep : Byte) :
    ∀ (s a b : Bytes), stringsSplit sep s = [a, b] → s = a ++ sep :: b ∧ sep ∉ a ∧ sep ∉ b
  | [], a, b, h => by
    simp [stringsSplit] at h
  | c :: rest, a, b, h => by
    rw [stringsSplit] at h
    by_cases hc : c = sep
    · rw [if_pos hc] at h
      simp only [List.cons.injEq] at h
      obtain ⟨ha, hrest⟩ := h
      obtain ⟨hr, hn⟩ := stringsSplit_one sep rest b hrest
      rw [← ha, hc, hr]
      exact ⟨rfl, List.not_mem_nil _, hn⟩
    · rw [if_neg hc] at h
      cases hs : stringsSplit sep rest with
      | nil => exact absurd hs (stringsSplit_ne_nil sep rest)
      | cons p ps =>
        rw [hs] at h
        simp only [List.cons.injEq] at h
        obtain ⟨ha, hps⟩ := h
        rw [hps] at hs
        obtain ⟨hr, hn1, hn2⟩ := stringsSplit_two sep rest p b hs
        rw [← ha, hr]
        refine ⟨rfl, fun hm => ?_, hn2⟩
        rcases List.mem_cons.mp hm with e | e
        · exact hc e.symm
        · exact hn1 e

/-- The header passes the format check of `AuthMiddleware` exactly when it is
`Bearer`, one space, and a token without spaces; the token is then the second
piece. -/
theorem bearer_format (h : Bytes) :
    ¬ ((stringsSplit (ch ' ') h).length ≠ 2 ∨ (stringsSplit (ch ' ') h).getD 0 [] ≠ ascii "Bearer")
      ↔ ∃ tok, ch ' ' ∉ tok ∧ h = ascii "Bearer" ++ ch ' ' :: tok := by
  constructor
  · intro hc
    have hlen : (stringsSplit (ch ' ') h).length = 2 := by
      by_contra hn; exact hc (Or.inl hn)
    have hfst : (stringsSplit (ch ' ') h).getD 0 [] = ascii "Bearer" := by
      by_contra hn; exact hc (Or.inr hn)
    rcases hs : stringsSplit (ch ' ') h with _ | ⟨a, _ | ⟨b, _ | ⟨c, l⟩⟩⟩
    · rw [hs] at hlen; simp at hlen
    · rw [hs] at hlen; simp at hlen
    · rw [hs] at hfst
      simp only [List.getD_cons_zero] at hfst
      obtain ⟨he, _, hn⟩ := stringsSplit_two (ch ' ') h a b hs
      exact ⟨b, hn, by rw [he, hfst]⟩
    · rw [hs] at hlen; simp at hlen
  · rintro ⟨tok, hn, rfl⟩ hc
    have hs : stringsSplit (ch ' ') (ascii "Bearer" ++ ch ' ' :: tok) = [ascii "Bearer", tok] := by
      rw [stringsSplit_append (ch ' ') tok (ascii "Bearer") (by decide),
        stringsSplit_of_not_mem (ch ' ') tok hn]
    rw [hs] at hc
    simp at hc

theorem bearer_token (tok : Bytes) (hn : ch ' ' ∉ tok) :
    (stringsSplit (ch ' ') (ascii "Bearer" ++ ch ' ' :: tok)).getD 1 [] = tok := by
  rw [stringsSplit_append (ch ' ') tok (ascii "Bearer") (by decide),
    stringsSplit_of_not_mem (ch ' ') tok hn]
  rfl

theorem authMiddleware_no_token {σ : Type} (next : Request → σ → Handled σ) (r : HeaderRequest)
    (world : σ) : AuthMiddleware [] next r world = next r.toRequest world := by
  simp [AuthMiddleware]

theorem authMiddleware_no_header {σ : Type} (token : Bytes) (next : Request → σ → Handled σ)
    (r : HeaderRequest) (world : σ) (ht : token ≠ [])
    (hh : (r.Header.Get (ascii "Authorization")).getD [] = []) :
    AuthMiddleware token next r world =
      ⟨false, httpError ResponseWriter.new (ascii "Authorization header required") 401, world,
        []⟩ := by
  simp [AuthMiddleware, ht, hh]

theorem authMiddleware_bad_format {σ : Type} (token : Bytes) (next : Request → σ → Handled σ)
    (r : HeaderRequest) (world : σ) (ht : token ≠ [])
    (hh : (r.Header.Get (ascii "Authorization")).getD [] ≠ [])
    (hf : ¬ ∃ tok, ch ' ' ∉ tok ∧
      (r.Header.Get (ascii "Authorization")).getD [] = ascii "Bearer" ++ ch ' ' :: tok) :
    AuthMiddleware token next r world =
      ⟨false, httpError ResponseWriter.new
        (ascii "Invalid authorization format. Use: Bearer <token>") 401, world, []⟩ := by
  have hc := (not_iff_not.mpr (bearer_format _)).mpr hf
  rw [not_not] at hc
  simp only [AuthMiddleware, if_neg ht, if_neg hh, if_pos hc]

theorem authMiddleware_bad_token {σ : Type} (token : Bytes) (next : Request → σ → Handled σ)
    (r : HeaderRequest) (world : σ) (tok : Bytes) (ht : token ≠ []) (hn : ch ' ' ∉ tok)
    (hh : (r.Header.Get (ascii "Authorization")).getD [] = ascii "Bearer" ++ ch ' ' :: tok)
    (hne : tok ≠ token) :
    AuthMiddleware token next r world =
      ⟨false, httpError ResponseWriter.new (ascii "Invalid token") 401, world, []⟩ := by
  have hnil : (r.Header.Get (ascii "Authorization")).getD [] ≠ [] := by
    rw [hh]; exact fun e => by cases e
  have hc := (bearer_format _).mpr ⟨tok, hn, hh⟩
  have htok : (stringsSplit (ch ' ') ((r.Header.Get (ascii "Authorization")).getD [])).getD 1 []
      ≠ token := by
    rw [hh, bearer_token tok hn]; exact hne
  simp only [AuthMiddleware, if_neg ht, if_neg hnil, if_neg hc, if_pos htok]

theorem authMiddleware_pass {σ : Type} (token : Bytes) (next : Request → σ → Handled σ)
    (r : HeaderRequest) (world : σ) (ht : token ≠ []) (hn : ch ' ' ∉ token)
    (hh : (r.Header.Get (ascii "Authorization")).getD [] = ascii "Bearer" ++ ch ' ' :: token) :
    AuthMiddleware token next r world = next r.toRequest world := by
  have hnil : (r.Header.Get (ascii "Authorization")).getD [] ≠ [] := by
    rw [hh]; exact fun e => by cases e
  have hc := (bearer_format _).mpr ⟨token, hn, hh⟩
  have htok : ¬ (stringsSplit (ch ' ') ((r.Header.Get (ascii "Authorization")).getD [])).getD 1 []
      ≠ token := by
    rw [hh, bearer_token token hn]; exact fun h => h rfl
  simp only [AuthMiddleware, if_neg ht, if_neg hnil, if_neg hc, if_neg htok]

theorem bearer_header_eq (t : Bytes) : ascii "Bearer " ++ t = ascii "Bearer" ++ ch ' ' :: t := by
  have h : ascii "Bearer " = ascii "Bearer" ++ [ch ' '] := by decide
  rw [h, List.append_assoc]
  rfl

theorem httpError_new_msg_inj (m1 m2 : Bytes) (c1 c2 : Nat)
    (h : httpError ResponseWriter.new m1 c1 = httpError ResponseWriter.new m2 c2) : m1 = m2 := by
  have hb := congrArg ResponseWriter.body h
  rw [httpError_new_body, httpError_new_body] at hb
  exact List.append_cancel_right hb

/-- With a non-empty secret, a request whose header is not `Bearer`, a space and
the secret is answered by the middleware alone. -/
theorem authMiddleware_reject {σ : Type} (t : Bytes) (r : HeaderRequest) (world : σ)
    (ht : t ≠ [])
    (hh : (r.Header.Get (ascii "Authorization")).getD [] ≠ ascii "Bearer" ++ ch ' ' :: t) :
    ∃ msg, ∀ next : Request → σ → Handled σ,
      AuthMiddleware t next r world = ⟨false, httpError ResponseWriter.new msg 401, world, []⟩ := by
  by_cases h0 : (r.Header.Get (ascii "Authorization")).getD [] = []
  · exact ⟨_, fun next => authMiddleware_no_header t next r world ht h0⟩
  · by_cases hf : ∃ tok, ch ' ' ∉ tok ∧
        (r.Header.Get (ascii "Authorization")).getD [] = ascii "Bearer" ++ ch ' ' :: tok
    · obtain ⟨tok, hn, he⟩ := hf
      have hne : tok ≠ t := fun e => hh (by rw [he, e])
      exact ⟨_, fun next => authMiddleware_bad_token t next r world tok ht hn he hne⟩
    · exact ⟨_, fun next => authMiddleware_bad_format t next r world ht h0 hf⟩

/-- **C19, as amended.** With the empty secret every request goes to the next
handler; with a non-empty secret `t` that holds no space, a request goes to the
next handler when its Authorization header is `Bearer ` followed by `t`, and
otherwise the middleware answers 401 by itself, whatever the next handler is,
leaving the world as it was. -/
theorem bearer_gate {σ : Type} (t : Bytes) (r : HeaderRequest) (world : σ)
    (ht : t ≠ []) (hn : ch ' ' ∉ t) :
    (∀ next : Request → σ → Handled σ,
      AuthMiddleware [] next r world = next r.toRequest world) ∧
    ((r.Header.Get (ascii "Authorization")).getD [] = ascii "Bearer " ++ t →
      ∀ next : Request → σ → Handled σ,
        AuthMiddleware t next r world = next r.toRequest world) ∧
    ((r.Header.Get (ascii "Authorization")).getD [] ≠ ascii "Bearer " ++ t →
      ∃ msg, ∀ next : Request → σ → Handled σ,
        AuthMiddleware t next r world =
          ⟨false, httpError ResponseWriter.new msg 401, world, []⟩ ∧
        (AuthMiddleware t next r world).resp.status = some 401) := by
  refine ⟨fun next => authMiddleware_no_token next r world, fun hh next => ?_, fun hh => ?_⟩
  · rw [bearer_header_eq] at hh
    exact authMiddleware_pass t next r world ht hn hh
  · rw [bearer_header_eq] at hh
    obtain ⟨msg, hmsg⟩ := authMiddleware_reject t r world ht hh
    refine ⟨msg, fun next => ⟨hmsg next, ?_⟩⟩
    rw [hmsg next]
    exact httpError_new_status msg 401

/-- At the secret `s3`: a PUT carrying `Bearer s3` reaches
the handler, which answers 204, and a PUT carrying `Bearer s4` is answered 401. -/
theorem bearer_gate_witness :
    (ascii "s3" ≠ [] ∧ ch ' ' ∉ ascii "s3") ∧
    (AuthMiddleware (ascii "s3") (mockServer ⟨true, []⟩).HandlePut
        ⟨⟨ascii "PUT", ascii "/kv/a", .ok (ascii "v")⟩, [(ascii "Authorization", ascii "Bearer s3")]⟩
        NewStore).resp.status = some 204 ∧
    (AuthMiddleware (ascii "s3") (mockServer ⟨true, []⟩).HandlePut
        ⟨⟨ascii "PUT", ascii "/kv/a", .ok (ascii "v")⟩, [(ascii "Authorization", ascii "Bearer s4")]⟩
        NewStore).resp.status = some 401 :=
  ⟨⟨by decide, by decide⟩,
    by
      rw [(bearer_gate (ascii "s3")
        ⟨⟨ascii "PUT", ascii "/kv/a", .ok (ascii "v")⟩, [(ascii "Authorization", ascii "Bearer s3")]⟩
        NewStore (by decide) (by decide)).2.1 (by decide) (mockServer ⟨true, []⟩).HandlePut]
      decide,
    by
      obtain ⟨msg, h⟩ := (bearer_gate (ascii "s3")
        ⟨⟨ascii "PUT", ascii "/kv/a", .ok (ascii "v")⟩, [(ascii "Authorization", ascii "Bearer s4")]⟩
        NewStore (by decide) (by decide)).2.2 (by decide)
      exact (h (mockServer ⟨true, []⟩).HandlePut).2⟩

/-- **C19, as stated, fails** for a secret that holds a space: with the secret
`a b`, the request whose Authorization header is `Bearer a b` is answered 401,
while the next handler would have answered 204. -/
theorem bearer_gate_counterexample :
    ascii "a b" ≠ [] ∧
    Header.Get [(ascii "Authorization", ascii "Bearer a b")] (ascii "Authorization")
      = some (ascii "Bearer " ++ ascii "a b") ∧
    (AuthMiddleware (ascii "a b") (mockServer ⟨true, []⟩).HandlePut
        ⟨⟨ascii "PUT", ascii "/kv/a", .ok (ascii "v")⟩,
          [(ascii "Authorization", ascii "Bearer a b")]⟩
        NewStore).resp.status = some 401 ∧
    ((mockServer ⟨true, []⟩).HandlePut ⟨ascii "PUT", ascii "/kv/a", .ok (ascii "v")⟩
        NewStore).resp.status = some 204 := by
  decide

/-- **C20.** With a non-empty secret, the middleware answers a request with
`Authorization header required` exactly when the Authorization header is empty
or missing, with the invalid-format message exactly when the header is not
empty and is not `Bearer`, one space and a token without spaces, and with
`Invalid token` exactly when the header has that shape and its token differs
from the secret; each answer has status 401, the three messages differ, and a
request that is not passed on gets one of them. -/
theorem rejection_messages {σ : Type} (t : Bytes) (r : HeaderRequest) (world : σ) (ht : t ≠ []) :
    ((∀ next : Request → σ → Handled σ, AuthMiddleware t next r world =
        ⟨false, httpError ResponseWriter.new (ascii "Authorization header required") 401, world,
          []⟩) ↔
      (r.Header.Get (ascii "Authorization")).getD [] = []) ∧
    ((∀ next : Request → σ → Handled σ, AuthMiddleware t next r world =
        ⟨false, httpError ResponseWriter.new
          (ascii "Invalid authorization format. Use: Bearer <token>") 401, world, []⟩) ↔
      ((r.Header.Get (ascii "Authorization")).getD [] ≠ [] ∧
        ¬ ∃ tok, ch ' ' ∉ tok ∧
          (r.Header.Get (ascii "Authorization")).getD [] = ascii "Bearer" ++ ch ' ' :: tok)) ∧
    ((∀ next : Request → σ → Handled σ, AuthMiddleware t next r world =
        ⟨false, httpError ResponseWriter.new (ascii "Invalid token") 401, world, []⟩) ↔
      ∃ tok, ch ' ' ∉ tok ∧
        (r.Header.Get (ascii "Authorization")).getD [] = ascii "Bearer" ++ ch ' ' :: tok ∧
        tok ≠ t) ∧
    (ascii "Authorization header required" ≠
        ascii "Invalid authorization format. Use: Bearer <token>" ∧
      ascii "Authorization header required" ≠ ascii "Invalid token" ∧
      ascii "Invalid authorization format. Use: Bearer <token>" ≠ ascii "Invalid token") ∧
    (∀ msg, (httpError ResponseWriter.new msg 401).status = some 401 ∧
      (httpError ResponseWriter.new msg 401).body = msg ++ ascii "\n") ∧
    ((∀ next : Request → σ → Handled σ, AuthMiddleware t next r world = next r.toRequest world) ∨
      ∃ msg, (msg = ascii "Authorization header required" ∨
          msg = ascii "Invalid authorization format. Use: Bearer <token>" ∨
          msg = ascii "Invalid token") ∧
        ∀ next : Request → σ → Handled σ, AuthMiddleware t next r world =
          ⟨false, httpError ResponseWriter.new msg 401, world, []⟩) := by
  have hcases :
      ((r.Header.Get (ascii "Authorization")).getD [] = [] ∧
        ∀ next : Request → σ → Handled σ, AuthMiddleware t next r world =
          ⟨false, httpError ResponseWriter.new (ascii "Authorization header required") 401,
            world, []⟩) ∨
      (((r.Header.Get (ascii "Authorization")).getD [] ≠ [] ∧
        ¬ ∃ tok, ch ' ' ∉ tok ∧
          (r.Header.Get (ascii "Authorization")).getD [] = ascii "Bearer" ++ ch ' ' :: tok) ∧
        ∀ next : Request → σ → Handled σ, AuthMiddleware t next r world =
          ⟨false, httpError ResponseWriter.new
            (ascii "Invalid authorization format. Use: Bearer <token>") 401, world, []⟩) ∨
      ((∃ tok, ch ' ' ∉ tok ∧
        (r.Header.Get (ascii "Authorization")).getD [] = ascii "Bearer" ++ ch ' ' :: tok ∧
        tok ≠ t) ∧
        ∀ next : Request → σ → Handled σ, AuthMiddleware t next r world =
          ⟨false, httpError ResponseWriter.new (ascii "Invalid token") 401, world, []⟩) ∨
      ((ch ' ' ∉ t ∧
        (r.Header.Get (ascii "Authorization")).getD [] = ascii "Bearer" ++ ch ' ' :: t) ∧
        ∀ next : Request → σ → Handled σ,
          AuthMiddleware t next r world = next r.toRequest world) := by
    by_cases h0 : (r.Header.Get (ascii "Authorization")).getD [] = []
    · exact Or.inl ⟨h0, fun next => authMiddleware_no_header t next r world ht h0⟩
    · by_cases hf : ∃ tok, ch ' ' ∉ tok ∧
          (r.Header.Get (ascii "Authorization")).getD [] = ascii "Bearer" ++ ch ' ' :: tok
      · obtain ⟨tok, hn, he⟩ := hf
        by_cases hne : tok = t
        · subst hne
          exact Or.inr (Or.inr (Or.inr ⟨⟨hn, he⟩,
            fun next => authMiddleware_pass tok next r world ht hn he⟩))
        · exact Or.inr (Or.inr (Or.inl ⟨⟨tok, hn, he, hne⟩,
            fun next => authMiddleware_bad_token t next r world tok ht hn he hne⟩))
      · exact Or.inr (Or.inl ⟨⟨h0, hf⟩,
          fun next => authMiddleware_bad_format t next r world ht h0 hf⟩)
  have d12 : ascii "Authorization header required" ≠
      ascii "Invalid authorization format. Use: Bearer <token>" := by decide
  have d13 : ascii "Authorization header required" ≠ ascii "Invalid token" := by decide
  have d23 : ascii "Invalid authorization format. Use: Bearer <token>" ≠ ascii "Invalid token" := by
    decide
  -- two answers of the middleware to the same request carry the same message
  have hsame : ∀ m1 m2 : Bytes,
      (∀ next : Request → σ → Handled σ, AuthMiddleware t next r world =
        ⟨false, httpError ResponseWriter.new m1 401, world, []⟩) →
      (∀ next : Request → σ → Handled σ, AuthMiddleware t next r world =
        ⟨false, httpError ResponseWriter.new m2 401, world, []⟩) → m1 = m2 := by
    intro m1 m2 h1 h2
    have h := (h1 (fun _ w => ⟨true, ResponseWriter.new, w, []⟩)).symm.trans
      (h2 (fun _ w => ⟨true, ResponseWriter.new, w, []⟩))
    exact httpError_new_msg_inj m1 m2 401 401 (congrArg Handled.resp h)
  -- an answer of the middleware is not a pass to the next handler
  have hpass : ∀ m : Bytes,
      (∀ next : Request → σ → Handled σ, AuthMiddleware t next r world =
        ⟨false, httpError ResponseWriter.new m 401, world, []⟩) →
      (∀ next : Request → σ → Handled σ,
        AuthMiddleware t next r world = next r.toRequest world) → False := by
    intro m h1 h2
    have h := (h1 (fun _ w => ⟨true, ResponseWriter.new, w, []⟩)).symm.trans
      (h2 (fun _ w => ⟨true, ResponseWriter.new, w, []⟩))
    have hp := congrArg Handled.panicked h
    simp at hp
  refine ⟨⟨fun h => ?_, fun h => ?_⟩, ⟨fun h => ?_, fun h => ?_⟩, ⟨fun h => ?_, fun h => ?_⟩,
    ⟨d12, d13, d23⟩, fun msg => ⟨httpError_new_status msg 401, httpError_new_body msg 401⟩, ?_⟩
  · rcases hcases with ⟨h0, _⟩ | ⟨_, h2⟩ | ⟨_, h3⟩ | ⟨_, h4⟩
    · exact h0
    · exact absurd (hsame _ _ h h2) d12
    · exact absurd (hsame _ _ h h3) d13
    · exact (hpass _ h h4).elim
  · exact fun next => authMiddleware_no_header t next r world ht h
  · rcases hcases with ⟨_, h1⟩ | ⟨hc, _⟩ | ⟨_, h3⟩ | ⟨_, h4⟩
    · exact absurd (hsame _ _ h1 h) d12
    · exact hc
    · exact absurd (hsame _ _ h h3) d23
    · exact (hpass _ h h4).elim
  · exact fun next => authMiddleware_bad_format t next r world ht h.1 h.2
  · rcases hcases with ⟨_, h1⟩ | ⟨_, h2⟩ | ⟨hc, _⟩ | ⟨_, h4⟩
    · exact absurd (hsame _ _ h1 h) d13
    · exact absurd (hsame _ _ h2 h) d23
    · exact hc
    · exact (hpass _ h h4).elim
  · obtain ⟨tok, hn, he, hne⟩ := h
    exact fun next => authMiddleware_bad_token t next r world tok ht hn he hne
  · rcases hcases with ⟨_, h1⟩ | ⟨_, h2⟩ | ⟨_, h3⟩ | ⟨_, h4⟩
    · exact Or.inr ⟨_, Or.inl rfl, h1⟩
    · exact Or.inr ⟨_, Or.inr (Or.inl rfl), h2⟩
    · exact Or.inr ⟨_, Or.inr (Or.inr rfl), h3⟩
    · exact Or.inl h4

/-- At the secret `s3`: the header `Bearer` followed by two spaces and
`s3` is not empty, so the answer is not `Authorization header required`. -/
theorem rejection_messages_witness :
    ascii "s3" ≠ [] ∧
    ¬ ∀ next : Request → Store → Handled Store,
      AuthMiddleware (ascii "s3") next
        ⟨⟨ascii "PUT", ascii "/kv/a", .ok (ascii "v")⟩,
          [(ascii "Authorization", ascii "Bearer  s3")]⟩ NewStore =
        ⟨false, httpError ResponseWriter.new (ascii "Authorization header required") 401, NewStore,
          []⟩ :=
  ⟨by decide, fun h => absurd ((rejection_messages (ascii "s3")
    ⟨⟨ascii "PUT", ascii "/kv/a", .ok (ascii "v")⟩, [(ascii "Authorization", ascii "Bearer  s3")]⟩
    NewStore (by decide)).1.mp h) (by decide)⟩

/-! ## Delete and Put on one key -/

theorem delete_flag (s : Store) (k : Bytes) : (s.Delete k).1 = (s.Get k).2 := by
  unfold Store.Delete Store.Get
  cases h : (s.data.index k).2 <;> simp

theorem keys_length_put (s : Store) (k v : Bytes) :
    (s.Put k v).data.keys.length = if (s.Get k).2 = true then s.data.keys.length
      else s.data.keys.length + 1 := by
  unfold Store.Put Store.Get GoMap.index
  rw [AList.keys_insert, List.length_cons]
  cases h : s.data.lookup k with
  | none =>
    have hk : k ∉ s.data.keys := by
      rw [← AList.mem_keys]; exact AList.lookup_eq_none.mp h
    have he : (@List.erase Bytes instBEqOfDecidableEq s.data.keys k).length = s.data.keys.length :=
      congrArg List.length (@List.erase_of_not_mem Bytes instBEqOfDecidableEq inferInstance k _ hk)
    simp only [Bool.false_eq_true, if_false]
    exact congrArg (· + 1) he
  | some w =>
    have hk : k ∈ s.data.keys := by
      rw [← AList.mem_keys, ← AList.lookup_isSome, h]; rfl
    have hpos : 0 < s.data.keys.length := List.length_pos_of_mem hk
    have he : (@List.erase Bytes instBEqOfDecidableEq s.data.keys k).length =
        s.data.keys.length - 1 :=
      @List.length_erase_of_mem Bytes instBEqOfDecidableEq inferInstance k _ hk
    simp only [if_true]
    have he' : (@List.erase Bytes instBEqOfDecidableEq s.data.keys k).length + 1 =
        s.data.keys.length := by omega
    exact he'

/-- **C21.** For every store and key `k`, `Delete(k)` returns true exactly when
`k` was present before the call; afterwards `k` is absent, and `Get` on every
other key returns what it returned before. -/
theorem delete_reports_presence (s : Store) (k : Bytes) :
    ((s.Delete k).1 = true ↔ (s.Get k).2 = true) ∧
    (s.Delete k).2.Get k = ([], false) ∧
    ∀ k', k' ≠ k → (s.Delete k).2.Get k' = s.Get k' := by
  refine ⟨by rw [delete_flag], get_delete_same s k, fun k' h => get_delete_other s h⟩

/-- The steps of `TestDelete`, with a second key in the store. -/
theorem delete_reports_presence_witness :
    ascii "other" ≠ ascii "test-key" ∧
    (((NewStore.Put (ascii "other") (ascii "x")).Put (ascii "test-key")
      (ascii "test-value")).Delete (ascii "test-key")).2.Get (ascii "other") = (ascii "x", true) :=
  ⟨by decide,
    ((delete_reports_presence ((NewStore.Put (ascii "other") (ascii "x")).Put (ascii "test-key")
      (ascii "test-value")) (ascii "test-key")).2.2 (ascii "other") (by decide)).trans
      (by decide)⟩

/-- **C22.** For every store, key `k`, value `v` and key `k'` other than `k`,
`Get(k')` after `Put(k, v)` returns what it returned before; the number of keys
grows by one when `k` was absent and stays the same when `k` was present. -/
theorem put_upsert (s : Store) (k v : Bytes) :
    (∀ k', k' ≠ k → (s.Put k v).Get k' = s.Get k') ∧
    ((s.Get k).2 = false → (s.Put k v).data.keys.length = s.data.keys.length + 1) ∧
    ((s.Get k).2 = true → (s.Put k v).data.keys.length = s.data.keys.length) := by
  refine ⟨fun k' h => get_put_other s v h, fun h => ?_, fun h => ?_⟩
  · rw [keys_length_put, h]; rfl
  · rw [keys_length_put, h]; rfl

/-- A new key on a store with one key, and the same key once more. -/
theorem put_upsert_witness :
    ((NewStore.Put (ascii "a") (ascii "x")).Put (ascii "b") (ascii "y")).data.keys.length = 2 ∧
    (((NewStore.Put (ascii "a") (ascii "x")).Put (ascii "b") (ascii "y")).Put (ascii "b")
      (ascii "z")).data.keys.length = 2 :=
  ⟨(put_upsert (NewStore.Put (ascii "a") (ascii "x")) (ascii "b") (ascii "y")).2.1 (by decide),
   ((put_upsert ((NewStore.Put (ascii "a") (ascii "x")).Put (ascii "b") (ascii "y")) (ascii "b")
      (ascii "z")).2.2 (by decide)).trans (by decide)⟩

/-! ## Restore on a stream the decoder rejects, and Apply twice -/

theorem restore_of_decode_error (st : Store) (snapshot : Bytes) (e : JsonError)
    (h : Decode snapshot = .error e) : FSM.Restore st snapshot = (some e, st) := by
  unfold FSM.Restore
  rw [h]

theorem restore_of_decode_ok (st : Store) (snapshot : Bytes) (state : GoMap)
    (h : Decode snapshot = .ok state) : FSM.Restore st snapshot = (none, st.Load state) := by
  unfold FSM.Restore
  rw [h]

/-- **C27, as amended.** For every store content and every snapshot stream, when
the JSON decoder rejects the stream, `FSM.Restore` returns the error of the
decoder and the store is what it was before the call; `FSM.Restore` returns an
error in no other case. -/
theorem restore_atomic_on_failure (st : Store) (snapshot : Bytes) :
    (∀ e, Decode snapshot = .error e →
      FSM.Restore st snapshot = (some e, st) ∧ ∀ k, (FSM.Restore st snapshot).2.Get k = st.Get k) ∧
    (∀ e, (FSM.Restore st snapshot).1 = some e →
      Decode snapshot = .error e ∧ (FSM.Restore st snapshot).2 = st) := by
  constructor
  · intro e h
    rw [restore_of_decode_error st snapshot e h]
    exact ⟨rfl, fun _ => rfl⟩
  · intro e h
    cases hd : Decode snapshot with
    | error e' =>
      rw [restore_of_decode_error st snapshot e' hd] at h ⊢
      simp only [Option.some.injEq] at h
      rw [h]
      exact ⟨rfl, rfl⟩
    | ok state =>
      rw [restore_of_decode_ok st snapshot state hd] at h
      simp at h

/-- A stream that is no JSON, and a stream holding a JSON array, over the store
of `TestFSM_Restore`: the key stays. -/
theorem restore_atomic_on_failure_witness :
    Decode (ascii "not json") = .error .syntaxError ∧
    (FSM.Restore (NewStore.Put (ascii "key1") (ascii "value1")) (ascii "not json")).2.Get
      (ascii "key1") = (ascii "value1", true) ∧
    (FSM.Restore (NewStore.Put (ascii "key1") (ascii "value1")) (ascii "[1,2]")).1 =
      some .unmarshalType :=
  ⟨by decide,
   (((restore_atomic_on_failure (NewStore.Put (ascii "key1") (ascii "value1"))
      (ascii "not json")).1 .syntaxError (by decide)).2 (ascii "key1")).trans (by decide),
   congrArg Prod.fst ((restore_atomic_on_failure (NewStore.Put (ascii "key1") (ascii "value1"))
      (ascii "[1,2]")).1 .unmarshalType (by decide)).1⟩

/-- **C27, as stated, fails.** The stream `null` does not hold a JSON object;
`FSM.Restore` on it returns nil and empties the store. -/
theorem restore_atomic_on_failure_counterexample :
    (NewStore.Put (ascii "key1") (ascii "value1")).Get (ascii "key1") = (ascii "value1", true) ∧
    (FSM.Restore (NewStore.Put (ascii "key1") (ascii "value1")) (ascii "null")).1 = none ∧
    (FSM.Restore (NewStore.Put (ascii "key1") (ascii "value1")) (ascii "null")).2.Get
      (ascii "key1") = ([], false) := by
  decide

theorem get_put_put (s : Store) (k v k' : Bytes) :
    ((s.Put k v).Put k v).Get k' = (s.Put k v).Get k' := by
  by_cases h : k' = k
  · subst h
    rw [get_put_same, get_put_same]
  · rw [get_put_other _ v h]

theorem get_delete_delete (s : Store) (k k' : Bytes) :
    ((s.Delete k).2.Delete k).2.Get k' = (s.Delete k).2.Get k' := by
  by_cases h : k' = k
  · subst h
    rw [get_delete_same, get_delete_same]
  · rw [get_delete_other _ h]

theorem delete_absent (s : Store) (k : Bytes) (h : (s.Get k).2 = false) : (s.Delete k).2 = s := by
  unfold Store.Get at h
  unfold Store.Delete
  simp [h]

/-- **C28.** For every store content and every payload that decodes to a put or
a delete command, `FSM.Apply` on the payload returns nil, `FSM.Apply` on the
same payload once more returns nil and leaves every `Get` as the first
application left it; a delete of a key that is absent returns nil and leaves
the store as it was. -/
theorem apply_twice (st : Store) (data : Bytes) (cmd : KVCommand)
    (hd : Unmarshal data = .ok cmd) (hop : cmd.Op = ascii "put" ∨ cmd.Op = ascii "delete") :
    (FSM.Apply st data).1 = .nil ∧
    (FSM.Apply (FSM.Apply st data).2 data).1 = .nil ∧
    (∀ k, (FSM.Apply (FSM.Apply st data).2 data).2.Get k = (FSM.Apply st data).2.Get k) ∧
    (cmd.Op = ascii "delete" → (st.Get cmd.Key).2 = false → (FSM.Apply st data).2 = st) := by
  have hne : ascii "delete" ≠ ascii "put" := by decide
  rcases hop with hp | hdel
  · have h1 : ∀ s : Store, FSM.Apply s data = (.nil, s.Put cmd.Key cmd.Value) :=
      fun s => applyWith_put s hd hp
    rw [h1 st, h1 (st.Put cmd.Key cmd.Value)]
    refine ⟨rfl, rfl, fun k => get_put_put st _ _ k, fun h => ?_⟩
    rw [hp] at h
    exact absurd h.symm hne
  · have h1 : ∀ s : Store, FSM.Apply s data = (.nil, (s.Delete cmd.Key).2) :=
      fun s => applyWith_delete s hd hdel
    rw [h1 st, h1 (st.Delete cmd.Key).2]
    exact ⟨rfl, rfl, fun k => get_delete_delete st _ k, fun _ h => delete_absent st _ h⟩

/-- The payload that `Marshal` writes for a delete of `ghost`, applied to the
store of `TestFSM_Apply_Put`, which does not hold that key. -/
theorem apply_twice_witness :
    Unmarshal (KVCommand.Marshal ⟨ascii "delete", ascii "ghost", []⟩) =
      .ok ⟨ascii "delete", ascii "ghost", []⟩ ∧
    (FSM.Apply (NewStore.Put (ascii "test-key") (ascii "test-value"))
      (KVCommand.Marshal ⟨ascii "delete", ascii "ghost", []⟩)).2 =
        NewStore.Put (ascii "test-key") (ascii "test-value") ∧
    (FSM.Apply (FSM.Apply (NewStore.Put (ascii "test-key") (ascii "test-value"))
      (KVCommand.Marshal ⟨ascii "delete", ascii "ghost", []⟩)).2
      (KVCommand.Marshal ⟨ascii "delete", ascii "ghost", []⟩)).1 = .nil :=
  have hd : Unmarshal (KVCommand.Marshal ⟨ascii "delete", ascii "ghost", []⟩) =
      .ok ⟨ascii "delete", ascii "ghost", []⟩ := by decide
  ⟨hd,
   (apply_twice (NewStore.Put (ascii "test-key") (ascii "test-value")) _ _ hd (Or.inr rfl)).2.2.2
     rfl (by decide),
   (apply_twice (NewStore.Put (ascii "test-key") (ascii "test-value")) _ _ hd (Or.inr rfl)).2.1⟩

/-! ## Membership changes and the member list -/

/-- **C24, as amended.** `Node.Join` and `Node.Remove` make no test of the role:
on every node, leader or not, each hands exactly one change to the engine (add
voter `nodeID` at `address` with zero `prevIndex` and `timeout`, respectively
remove `nodeID`) and returns the result of the engine. -/
theorem join_remove_delegate (engine : ConfigChange → NodeWorld → Option Bytes × NodeWorld)
    (nodeID address : Bytes) (world : NodeWorld) :
    (Node.Join engine nodeID address world).submitted = [.AddVoter nodeID address 0 0] ∧
    (Node.Join engine nodeID address world).err = (engine (.AddVoter nodeID address 0 0) world).1 ∧
    (Node.Join engine nodeID address world).world =
      (engine (.AddVoter nodeID address 0 0) world).2 ∧
    (Node.Remove engine nodeID world).submitted = [.RemoveServer nodeID 0 0] ∧
    (Node.Remove engine nodeID world).err = (engine (.RemoveServer nodeID 0 0) world).1 ∧
    (Node.Remove engine nodeID world).world = (engine (.RemoveServer nodeID 0 0) world).2 :=
  ⟨rfl, rfl, rfl, rfl, rfl, rfl⟩

/-- **C24, as stated, fails.** On a follower, with an engine that answers
`node is not the leader` to every node that is not the leader, `Node.Join` and
`Node.Remove` each hand one change to the engine. -/
theorem join_remove_delegate_counterexample :
    (Node.mk ⟨.Follower, ascii "127.0.0.1:19015", 0⟩).IsLeader = false ∧
    ¬ ((Node.Join
        (fun _ world =>
          (if world.node.IsLeader then none else some (ascii "node is not the leader"), world))
        (ascii "join-node2") (ascii "127.0.0.1:19016")
        ⟨⟨⟨.Follower, ascii "127.0.0.1:19015", 0⟩⟩, NewStore⟩).submitted = []) ∧
    ¬ ((Node.Remove
        (fun _ world =>
          (if world.node.IsLeader then none else some (ascii "node is not the leader"), world))
        (ascii "join-node2")
        ⟨⟨⟨.Follower, ascii "127.0.0.1:19015", 0⟩⟩, NewStore⟩).submitted = []) := by
  refine ⟨by decide, ?_, ?_⟩
  · simp [Node.Join]
  · simp [Node.Remove]

theorem foldl_append_peers (addrs : List Bytes) :
    ∀ acc : List cluster.Node,
      addrs.foldl (fun peers addr => peers ++ [⟨[], addr⟩]) acc =
        acc ++ addrs.map (fun addr => ⟨[], addr⟩) := by
  induction addrs with
  | nil => intro acc; simp
  | cons a rest ih =>
    intro acc
    rw [List.foldl_cons, ih, List.map_cons, List.append_assoc]
    rfl

/-- **C25, as amended.** For every configuration, `GetMembers` on
`NewCluster(config)` returns the node itself, with the id and the listen address
of the configuration, followed by one member per configured peer, in the order
of the configuration, that carries the address of the peer and the empty string
as id; the list has length `1 + len(config.Peers)`. -/
theorem getMembers_newCluster (config : Config) :
    (NewCluster config).GetMembers =
      ⟨config.NodeID, config.ListenAddr⟩ :: config.Peers.map (fun addr => ⟨[], addr⟩) ∧
    (NewCluster config).GetMembers.length = 1 + config.Peers.length := by
  have h : (NewCluster config).GetMembers =
      ⟨config.NodeID, config.ListenAddr⟩ :: config.Peers.map (fun addr => ⟨[], addr⟩) := by
    unfold Cluster.GetMembers NewCluster
    rw [foldl_append_peers]
    rfl
  refine ⟨h, ?_⟩
  rw [h, List.length_cons, List.length_map]
  omega

/-- **C25, as stated, fails.** With one configured peer, the second member
listed has the empty string as id. -/
theorem getMembers_newCluster_counterexample :
    (NewCluster ⟨ascii "node1", ascii "127.0.0.1:9001", [], [ascii "127.0.0.1:9002"], true, [],
      []⟩).GetMembers =
      [⟨ascii "node1", ascii "127.0.0.1:9001"⟩, ⟨[], ascii "127.0.0.1:9002"⟩] ∧
    ¬ ∀ member ∈ (NewCluster ⟨ascii "node1", ascii "127.0.0.1:9001", [],
      [ascii "127.0.0.1:9002"], true, [], []⟩).GetMembers, member.ID ≠ [] ∧ member.Address ≠ [] := by
  decide

/-! ## Concurrent callers -/

theorem runInOrder_append (calls : List Call) (lin : List Nat) (i : Nat) (c : Call) (s0 : Store)
    (hc : calls[i]? = some c) :
    runInOrder calls (lin ++ [i]) s0 =
      ((runInOrder calls lin s0).1 ++ [(i, (c.run (runInOrder calls lin s0).2).1)],
        (c.run (runInOrder calls lin s0).2).2) := by
  unfold runInOrder
  rw [List.foldl_append, List.foldl_cons, List.foldl_nil, hc]

theorem lt_of_getElem?_some {calls : List Call} {i : Nat} {c : Call} (hc : calls[i]? = some c) :
    i < calls.length := by
  by_contra h
  rw [List.getElem?_eq_none (Nat.le_of_not_lt h)] at hc
  cases hc

/-! ### Counting the readers -/

theorem sum_map_range_update (g g' : Nat → Nat) (i : Nat) (h : ∀ j, j ≠ i → g' j = g j) :
    ∀ n, i < n →
      ((List.range n).map g').sum + g i = ((List.range n).map g).sum + g' i
  | 0, hi => absurd hi (Nat.not_lt_zero i)
  | n + 1, hi => by
    rw [List.range_succ, List.map_append, List.map_append, List.sum_append, List.sum_append]
    simp only [List.map_cons, List.map_nil, List.sum_cons, List.sum_nil, Nat.add_zero]
    by_cases hin : i = n
    · subst hin
      have hsame : (List.range i).map g' = (List.range i).map g := by
        apply List.map_congr_left
        intro j hj
        exact h j (Nat.ne_of_lt (List.mem_range.mp hj))
      rw [hsame]
      omega
    · have ih := sum_map_range_update g g' i h n (by omega)
      have hn : g' n = g n := h n (fun e => hin e.symm)
      omega

theorem le_sum_map_range (g : Nat → Nat) (j : Nat) :
    ∀ n, j < n → g j ≤ ((List.range n).map g).sum
  | 0, hj => absurd hj (Nat.not_lt_zero j)
  | n + 1, hj => by
    rw [List.range_succ, List.map_append, List.sum_append]
    simp only [List.map_cons, List.map_nil, List.sum_cons, List.sum_nil, Nat.add_zero]
    by_cases hjn : j = n
    · subst hjn; omega
    · have := le_sum_map_range g j n (by omega)
      omega

theorem readHolding_update_ne (calls : List Call) (pcs : Nat → Pc) (i j : Nat) (pc : Pc)
    (h : j ≠ i) : readHolding calls (Function.update pcs i pc) j = readHolding calls pcs j := by
  unfold readHolding
  rw [Function.update_noteq h]

/-- A step that leaves the goroutine where it is with respect to the mutex
leaves the number of readers. -/
theorem readHolders_update_same (calls : List Call) (pcs : Nat → Pc) (i : Nat) (pc : Pc)
    (h : readHolding calls (Function.update pcs i pc) i = readHolding calls pcs i) :
    readHolders calls (Function.update pcs i pc) = readHolders calls pcs := by
  unfold readHolders
  apply congrArg List.sum
  apply List.map_congr_left
  intro j _
  by_cases hji : j = i
  · rw [hji]; exact h
  · exact readHolding_update_ne calls pcs i j pc hji

theorem readHolders_update (calls : List Call) (pcs : Nat → Pc) (i : Nat) (pc : Pc)
    (hi : i < calls.length) :
    readHolders calls (Function.update pcs i pc) + readHolding calls pcs i =
      readHolders calls pcs + readHolding calls (Function.update pcs i pc) i :=
  sum_map_range_update (readHolding calls pcs) (readHolding calls (Function.update pcs i pc)) i
    (fun j hj => readHolding_update_ne calls pcs i j pc hj) calls.length hi

theorem readHolding_le (calls : List Call) (pcs : Nat → Pc) (j : Nat) (hj : j < calls.length) :
    readHolding calls pcs j ≤ readHolders calls pcs :=
  le_sum_map_range (readHolding calls pcs) j calls.length hj

theorem readHolding_get {calls : List Call} {pcs : Nat → Pc} {j : Nat} {key : Bytes}
    (hc : calls[j]? = some (.Get key)) :
    readHolding calls pcs j = if (pcs j).inside then 1 else 0 := by
  simp [readHolding, hc]

theorem readHolding_put {calls : List Call} {pcs : Nat → Pc} {j : Nat} {key val : Bytes}
    (hc : calls[j]? = some (.Put key val)) : readHolding calls pcs j = 0 := by
  simp [readHolding, hc]

theorem readHolding_delete {calls : List Call} {pcs : Nat → Pc} {j : Nat} {key : Bytes}
    (hc : calls[j]? = some (.Delete key)) : readHolding calls pcs j = 0 := by
  simp [readHolding, hc]

/-- A goroutine that holds the mutex for writing is in no `Get`. -/
theorem readHolding_of_holdsLock {calls : List Call} {j : Nat} {c : Call}
    (hc : calls[j]? = some c) (pc : Pc) (h : c.holdsLock pc = true) (pcs : Nat → Pc) :
    readHolding calls pcs j = 0 := by
  cases c with
  | Get key => simp [Call.holdsLock] at h
  | Put key val => exact readHolding_put hc
  | Delete key => exact readHolding_delete hc

/-! ### The initial state -/

theorem linearized_init (calls : List Call) (s0 : Store) :
    Linearized calls s0 (Shared.init s0.data) [] where
  started := fun i h => absurd rfl h
  nodup := List.nodup_nil
  mem := fun i => by simp [Shared.init, Pc.passed]
  seq := rfl

theorem readHolders_start (calls : List Call) : readHolders calls (fun _ => .start) = 0 := by
  unfold readHolders
  apply List.sum_eq_zero
  intro x hx
  obtain ⟨j, _, rfl⟩ := List.mem_map.mp hx
  unfold readHolding
  cases calls[j]? with
  | none => rfl
  | some c => cases c <;> rfl

theorem exclusive_init (calls : List Call) (data : GoMap) :
    Exclusive calls (Shared.init data) where
  norace := rfl
  held := fun i c _ h => by cases c <;> simp [Shared.init, Call.holdsLock, Pc.inside] at h
  alone := fun i j c c' _ _ h => by
    cases c <;> simp [Shared.init, Call.holdsLock, Pc.inside] at h
  count := (readHolders_start calls).symm
  apart := fun _ => rfl
  shape := fun i key _ h => by simp [Shared.init] at h
  flag := fun i key ok _ h => by simp [Shared.init] at h
  present := fun i key _ h => by simp [Shared.init] at h

/-! ### Steps and the linearization -/

/-- A step that neither passes the last statement on `s.data` nor changes the
map keeps the linearization. -/
theorem linearized_quiet {calls : List Call} {s0 : Store} {σ : Shared} {lin : List Nat}
    (H : Linearized calls s0 σ lin) {i : Nat} {c : Call} (hc : calls[i]? = some c)
    (pc : Pc) (mu : RWMutex) (rc : Bool) (hp : pc.passed = (σ.pcs i).passed)
    (hr : (σ.pcs i).passed = true → pc.ret = (σ.pcs i).ret) :
    Linearized calls s0 ⟨mu, σ.data, Function.update σ.pcs i pc, rc⟩ lin where
  started := fun j hj => by
    by_cases hji : j = i
    · rw [hji]; exact lt_of_getElem?_some hc
    · simp only [Function.update_noteq hji] at hj
      exact H.started j hj
  nodup := H.nodup
  mem := fun j => by
    by_cases hji : j = i
    · subst hji
      simp only [Function.update_same, hp]
      exact H.mem j
    · simp only [Function.update_noteq hji]
      exact H.mem j
  seq := by
    rw [H.seq]
    congr 1
    apply List.map_congr_left
    intro j hj
    by_cases hji : j = i
    · subst hji
      simp only [Function.update_same]
      rw [hr ((H.mem j).mp hj)]
    · simp only [Function.update_noteq hji]

/-- The step that ends the last statement of a call on `s.data` puts the call
at the end of the linearization. -/
theorem linearized_pass {calls : List Call} {s0 : Store} {σ : Shared} {lin : List Nat}
    (H : Linearized calls s0 σ lin) {i : Nat} {c : Call} (hc : calls[i]? = some c)
    (mu : RWMutex) (r : Ret) (data : GoMap) (rc : Bool) (hp : (σ.pcs i).passed = false)
    (hrun : c.run ⟨σ.data⟩ = (r, ⟨data⟩)) :
    Linearized calls s0 ⟨mu, data, Function.update σ.pcs i (.unlocking r), rc⟩ (lin ++ [i]) where
  started := fun j hj => by
    by_cases hji : j = i
    · rw [hji]; exact lt_of_getElem?_some hc
    · simp only [Function.update_noteq hji] at hj
      exact H.started j hj
  nodup := by
    have hi : i ∉ lin := fun h => by
      have := (H.mem i).mp h
      rw [hp] at this
      cases this
    exact List.Nodup.append H.nodup (List.nodup_singleton i) (List.disjoint_singleton.mpr hi)
  mem := fun j => by
    by_cases hji : j = i
    · subst hji
      simp [Pc.passed]
    · simp only [Function.update_noteq hji, List.mem_append, List.mem_singleton, hji, or_false]
      exact H.mem j
  seq := by
    have hi : i ∉ lin := fun h => by
      have := (H.mem i).mp h
      rw [hp] at this
      cases this
    rw [runInOrder_append calls lin i c s0 hc, H.seq]
    simp only [hrun, List.map_append, List.map_cons, List.map_nil, Function.update_same, Pc.ret]
    congr 2
    apply List.map_congr_left
    intro j hj
    have hji : j ≠ i := fun e => hi (e ▸ hj)
    simp only [Function.update_noteq hji]

/-! ### Steps and the exclusion -/

theorem holdsLock_congr (c : Call) {pc pc' : Pc} (h : pc.inside = pc'.inside) :
    c.holdsLock pc = c.holdsLock pc' := by
  cases c <;> simp [Call.holdsLock, h]

theorem inside_of_holdsLock {c : Call} {pc : Pc} (h : c.holdsLock pc = true) :
    pc.inside = true := by
  cases c <;> simp [Call.holdsLock] at h <;> exact h

theorem holdsLock_delete {key : Bytes} {pc : Pc} (h : pc.inside = true) :
    (Call.Delete key).holdsLock pc = true := h

theorem holdsLock_put {key val : Bytes} {pc : Pc} (h : pc.inside = true) :
    (Call.Put key val).holdsLock pc = true := h

/-- A step between the lock and the unlock that leaves the map as it is keeps
the exclusion. -/
theorem exclusive_quiet {calls : List Call} {σ : Shared} (X : Exclusive calls σ) {i : Nat}
    {c : Call} (hc : calls[i]? = some c) (pc : Pc)
    (hin : pc.inside = (σ.pcs i).inside)
    (hshape : ∀ key, c = .Get key → pc ≠ .writing)
    (hflag : ∀ key ok, c = .Delete key → pc = .checked ok → ok = (σ.data.index key).2)
    (hpres : ∀ key, c = .Delete key → pc = .writing → (σ.data.index key).2 = true) :
    Exclusive calls ⟨σ.mu, σ.data, Function.update σ.pcs i pc, false⟩ where
  norace := rfl
  held := fun j c' hj h => by
    by_cases hji : j = i
    · subst hji
      have hcc : c' = c := by rw [hc] at hj; exact (Option.some.inj hj).symm
      subst hcc
      simp only [Function.update_same] at h
      rw [holdsLock_congr c' hin] at h
      exact X.held j c' hj h
    · simp only [Function.update_noteq hji] at h
      exact X.held j c' hj h
  alone := fun j k c' c'' hj hk h h' => by
    have hj' : c'.holdsLock (σ.pcs j) = true := by
      by_cases hji : j = i
      · subst hji
        simp only [Function.update_same] at h
        rw [holdsLock_congr c' hin] at h
        exact h
      · simpa only [Function.update_noteq hji] using h
    have hk' : c''.holdsLock (σ.pcs k) = true := by
      by_cases hki : k = i
      · subst hki
        simp only [Function.update_same] at h'
        rw [holdsLock_congr c'' hin] at h'
        exact h'
      · simpa only [Function.update_noteq hki] using h'
    exact X.alone j k c' c'' hj hk hj' hk'
  count := by
    show σ.mu.readers = readHolders calls (Function.update σ.pcs i pc)
    rw [readHolders_update_same calls σ.pcs i pc
      (by unfold readHolding; rw [Function.update_same, hin]), X.count]
  apart := X.apart
  shape := fun j key hj h => by
    by_cases hji : j = i
    · subst hji
      simp only [Function.update_same] at h
      have hcc : c = .Get key := by rw [hc] at hj; exact Option.some.inj hj
      exact hshape key hcc h
    · simp only [Function.update_noteq hji] at h
      exact X.shape j key hj h
  flag := fun j key ok hj h => by
    by_cases hji : j = i
    · subst hji
      have hcc : c = .Delete key := by rw [hc] at hj; exact Option.some.inj hj
      simp only [Function.update_same] at h
      exact hflag key ok hcc h
    · simp only [Function.update_noteq hji] at h
      exact X.flag j key ok hj h
  present := fun j key hj h => by
    by_cases hji : j = i
    · subst hji
      have hcc : c = .Delete key := by rw [hc] at hj; exact Option.some.inj hj
      simp only [Function.update_same] at h
      exact hpres key hcc h
    · simp only [Function.update_noteq hji] at h
      exact X.present j key hj h

/-- The step that ends a write of `s.data` by the goroutine that holds the mutex
for writing keeps the exclusion. -/
theorem exclusive_write {calls : List Call} {σ : Shared} (X : Exclusive calls σ) {i : Nat}
    {c : Call} (hc : calls[i]? = some c) (r : Ret) (data : GoMap)
    (hh : c.holdsLock (σ.pcs i) = true) :
    Exclusive calls ⟨σ.mu, data, Function.update σ.pcs i (.unlocking r), false⟩ where
  norace := rfl
  held := fun j c' hj h => by
    by_cases hji : j = i
    · subst hji
      exact X.held j c hc hh
    · simp only [Function.update_noteq hji] at h
      exact X.held j c' hj h
  alone := fun j k c' c'' hj hk h h' => by
    have hj' : c'.holdsLock (σ.pcs j) = true := by
      by_cases hji : j = i
      · subst hji
        have hcc : c' = c := by rw [hc] at hj; exact (Option.some.inj hj).symm
        rw [hcc]; exact hh
      · simpa only [Function.update_noteq hji] using h
    have hk' : c''.holdsLock (σ.pcs k) = true := by
      by_cases hki : k = i
      · subst hki
        have hcc : c'' = c := by rw [hc] at hk; exact (Option.some.inj hk).symm
        rw [hcc]; exact hh
      · simpa only [Function.update_noteq hki] using h'
    exact X.alone j k c' c'' hj hk hj' hk'
  count := by
    show σ.mu.readers = readHolders calls (Function.update σ.pcs i (.unlocking r))
    rw [readHolders_update_same calls σ.pcs i _
      (by rw [readHolding_of_holdsLock hc _ hh, readHolding_of_holdsLock hc _ hh]), X.count]
  apart := X.apart
  shape := fun j key hj h => by
    by_cases hji : j = i
    · subst hji
      simp only [Function.update_same] at h
      cases h
    · simp only [Function.update_noteq hji] at h
      exact X.shape j key hj h
  flag := fun j key ok hj h => by
    by_cases hji : j = i
    · subst hji
      simp only [Function.update_same] at h
      cases h
    · exfalso
      simp only [Function.update_noteq hji] at h
      have hj' : (Call.Delete key).holdsLock (σ.pcs j) = true := by rw [h]; rfl
      exact hji (X.alone j i _ c hj hc hj' hh)
  present := fun j key hj h => by
    by_cases hji : j = i
    · subst hji
      simp only [Function.update_same] at h
      cases h
    · exfalso
      simp only [Function.update_noteq hji] at h
      have hj' : (Call.Delete key).holdsLock (σ.pcs j) = true := by rw [h]; rfl
      exact hji (X.alone j i _ c hj hc hj' hh)

/-- The step `Lock` keeps the exclusion. -/
theorem exclusive_lock {calls : List Call} {σ : Shared} (X : Exclusive calls σ) {i : Nat}
    {c : Call} (hc : calls[i]? = some c) (hcw : c.holdsLock .locked = true)
    (hfree : σ.mu.writer = false ∧ σ.mu.readers = 0) :
    Exclusive calls ⟨⟨true, 0⟩, σ.data, Function.update σ.pcs i .locked, false⟩ where
  norace := rfl
  held := fun _ _ _ _ => rfl
  alone := fun j k c' c'' hj hk h h' => by
    have hji : j = i := by
      by_contra hne
      simp only [Function.update_noteq hne] at h
      have := X.held j c' hj h
      rw [hfree.1] at this
      cases this
    have hki : k = i := by
      by_contra hne
      simp only [Function.update_noteq hne] at h'
      have := X.held k c'' hk h'
      rw [hfree.1] at this
      cases this
    rw [hji, hki]
  count := by
    show 0 = readHolders calls (Function.update σ.pcs i .locked)
    rw [readHolders_update_same calls σ.pcs i _
      (by rw [readHolding_of_holdsLock hc _ hcw, readHolding_of_holdsLock hc _ hcw]),
      ← X.count, hfree.2]
  apart := fun _ => rfl
  shape := fun j key hj h => by
    by_cases hji : j = i
    · subst hji
      simp only [Function.update_same] at h
      cases h
    · simp only [Function.update_noteq hji] at h
      exact X.shape j key hj h
  flag := fun j key ok hj h => by
    by_cases hji : j = i
    · subst hji
      simp only [Function.update_same] at h
      cases h
    · simp only [Function.update_noteq hji] at h
      exact X.flag j key ok hj h
  present := fun j key hj h => by
    by_cases hji : j = i
    · subst hji
      simp only [Function.update_same] at h
      cases h
    · simp only [Function.update_noteq hji] at h
      exact X.present j key hj h

/-- The step `RLock` keeps the exclusion. -/
theorem exclusive_rlock {calls : List Call} {σ : Shared} (X : Exclusive calls σ) {i : Nat}
    {key : Bytes} (hc : calls[i]? = some (.Get key)) (hs : σ.pcs i = .start)
    (hfree : σ.mu.writer = false) :
    Exclusive calls ⟨⟨false, σ.mu.readers + 1⟩, σ.data, Function.update σ.pcs i .locked, false⟩ where
  norace := rfl
  held := fun j c' hj h => by
    exfalso
    by_cases hji : j = i
    · subst hji
      have hcc : c' = .Get key := by rw [hc] at hj; exact (Option.some.inj hj).symm
      rw [hcc] at h
      simp [Call.holdsLock] at h
    · simp only [Function.update_noteq hji] at h
      have := X.held j c' hj h
      rw [hfree] at this
      cases this
  alone := fun j k c' c'' hj hk h h' => by
    exfalso
    by_cases hji : j = i
    · subst hji
      have hcc : c' = .Get key := by rw [hc] at hj; exact (Option.some.inj hj).symm
      rw [hcc] at h
      simp [Call.holdsLock] at h
    · simp only [Function.update_noteq hji] at h
      have := X.held j c' hj h
      rw [hfree] at this
      cases this
  count := by
    show σ.mu.readers + 1 = readHolders calls (Function.update σ.pcs i .locked)
    have h := readHolders_update calls σ.pcs i .locked (lt_of_getElem?_some hc)
    rw [readHolding_get hc, readHolding_get hc, Function.update_same, hs] at h
    simp only [Pc.inside, Bool.false_eq_true, if_false, if_true, Nat.add_zero] at h
    rw [h, X.count]
  apart := fun h => by cases h
  shape := fun j k hj h => by
    by_cases hji : j = i
    · subst hji
      simp only [Function.update_same] at h
      cases h
    · simp only [Function.update_noteq hji] at h
      exact X.shape j k hj h
  flag := fun j k ok hj h => by
    by_cases hji : j = i
    · subst hji
      simp only [Function.update_same] at h
      cases h
    · simp only [Function.update_noteq hji] at h
      exact X.flag j k ok hj h
  present := fun j k hj h => by
    by_cases hji : j = i
    · subst hji
      simp only [Function.update_same] at h
      cases h
    · simp only [Function.update_noteq hji] at h
      exact X.present j k hj h

/-- The step `Unlock` keeps the exclusion. -/
theorem exclusive_unlock {calls : List Call} {σ : Shared} (X : Exclusive calls σ) {i : Nat}
    {c : Call} (hc : calls[i]? = some c) (r : Ret) (hh : c.holdsLock (σ.pcs i) = true) :
    Exclusive calls ⟨σ.mu.Unlock, σ.data, Function.update σ.pcs i (.returned r), false⟩ where
  norace := rfl
  held := fun j c' hj h => by
    exfalso
    by_cases hji : j = i
    · subst hji
      simp only [Function.update_same] at h
      have := inside_of_holdsLock h
      cases this
    · simp only [Function.update_noteq hji] at h
      exact hji (X.alone j i c' c hj hc h hh)
  alone := fun j k c' c'' hj hk h h' => by
    exfalso
    by_cases hji : j = i
    · subst hji
      simp only [Function.update_same] at h
      have := inside_of_holdsLock h
      cases this
    · simp only [Function.update_noteq hji] at h
      exact hji (X.alone j i c' c hj hc h hh)
  count := by
    show σ.mu.readers = readHolders calls (Function.update σ.pcs i (.returned r))
    rw [readHolders_update_same calls σ.pcs i _
      (by rw [readHolding_of_holdsLock hc _ hh, readHolding_of_holdsLock hc _ hh]), X.count]
  apart := fun h => by cases h
  shape := fun j key hj h => by
    by_cases hji : j = i
    · subst hji
      simp only [Function.update_same] at h
      cases h
    · simp only [Function.update_noteq hji] at h
      exact X.shape j key hj h
  flag := fun j key ok hj h => by
    by_cases hji : j = i
    · subst hji
      simp only [Function.update_same] at h
      cases h
    · simp only [Function.update_noteq hji] at h
      exact X.flag j key ok hj h
  present := fun j key hj h => by
    by_cases hji : j = i
    · subst hji
      simp only [Function.update_same] at h
      cases h
    · simp only [Function.update_noteq hji] at h
      exact X.present j key hj h

/-- The step `RUnlock` keeps the exclusion. -/
theorem exclusive_runlock {calls : List Call} {σ : Shared} (X : Exclusive calls σ) {i : Nat}
    {key : Bytes} (hc : calls[i]? = some (.Get key)) (r : Ret)
    (hin : (σ.pcs i).inside = true) :
    Exclusive calls ⟨σ.mu.RUnlock, σ.data, Function.update σ.pcs i (.returned r), false⟩ where
  norace := rfl
  held := fun j c' hj h => by
    by_cases hji : j = i
    · subst hji
      simp only [Function.update_same] at h
      have := inside_of_holdsLock h
      cases this
    · simp only [Function.update_noteq hji] at h
      exact X.held j c' hj h
  alone := fun j k c' c'' hj hk h h' => by
    have hj' : c'.holdsLock (σ.pcs j) = true := by
      by_cases hji : j = i
      · subst hji
        simp only [Function.update_same] at h
        have := inside_of_holdsLock h
        cases this
      · simpa only [Function.update_noteq hji] using h
    have hk' : c''.holdsLock (σ.pcs k) = true := by
      by_cases hki : k = i
      · subst hki
        simp only [Function.update_same] at h'
        have := inside_of_holdsLock h'
        cases this
      · simpa only [Function.update_noteq hki] using h'
    exact X.alone j k c' c'' hj hk hj' hk'
  count := by
    show σ.mu.readers - 1 = readHolders calls (Function.update σ.pcs i (.returned r))
    have h := readHolders_update calls σ.pcs i (.returned r) (lt_of_getElem?_some hc)
    rw [readHolding_get hc, readHolding_get hc, Function.update_same, hin] at h
    simp only [Pc.inside, Bool.false_eq_true, if_false, if_true, Nat.add_zero] at h
    rw [X.count]
    omega
  apart := fun h => by
    show σ.mu.readers - 1 = 0
    have hw : σ.mu.writer = true := h
    rw [X.apart hw]
  shape := fun j k hj h => by
    by_cases hji : j = i
    · subst hji
      simp only [Function.update_same] at h
      cases h
    · simp only [Function.update_noteq hji] at h
      exact X.shape j k hj h
  flag := fun j k ok hj h => by
    by_cases hji : j = i
    · subst hji
      simp only [Function.update_same] at h
      cases h
    · simp only [Function.update_noteq hji] at h
      exact X.flag j k ok hj h
  present := fun j k hj h => by
    by_cases hji : j = i
    · subst hji
      simp only [Function.update_same] at h
      cases h
    · simp only [Function.update_noteq hji] at h
      exact X.present j k hj h

/-! ### No data race -/

theorem getElem?_of_mem_range {calls : List Call} {j : Nat} (hj : j ∈ List.range calls.length) :
    ∃ c, calls[j]? = some c := by
  have h : j < calls.length := List.mem_range.mp hj
  exact ⟨calls[j], List.getElem?_eq_getElem h⟩

/-- While a goroutine holds the mutex for writing and is not itself in the
middle of an access, no access to the map is in progress. -/
theorem quiet_of_writer {calls : List Call} {σ : Shared} (X : Exclusive calls σ) {i : Nat}
    {c : Call} (hc : calls[i]? = some c) (hh : c.holdsLock (σ.pcs i) = true)
    (hw : σ.pcs i ≠ .writing) (hr : σ.pcs i ≠ .reading) (j : Nat)
    (hj : j ∈ List.range calls.length) : σ.pcs j ≠ .writing ∧ σ.pcs j ≠ .reading := by
  obtain ⟨c', hc'⟩ := getElem?_of_mem_range hj
  have hin : ∀ pc : Pc, (pc = .writing ∨ pc = .reading) → pc.inside = true := by
    intro pc h
    rcases h with h | h <;> rw [h] <;> rfl
  have key : ¬ (σ.pcs j = .writing ∨ σ.pcs j = .reading) := by
    intro h
    have hjin := hin _ h
    cases c' with
    | Get k =>
      have h1 : readHolding calls σ.pcs j = 1 := by rw [readHolding_get hc', hjin]; rfl
      have h2 := readHolding_le calls σ.pcs j (List.mem_range.mp hj)
      have h3 := X.apart (X.held i c hc hh)
      have h4 := X.count
      omega
    | Put k v =>
      have hji := X.alone j i _ c hc' hc (holdsLock_put hjin) hh
      rw [hji] at h
      rcases h with h | h
      · exact hw h
      · exact hr h
    | Delete k =>
      have hji := X.alone j i _ c hc' hc (holdsLock_delete hjin) hh
      rw [hji] at h
      rcases h with h | h
      · exact hw h
      · exact hr h
  exact ⟨fun h => key (Or.inl h), fun h => key (Or.inr h)⟩

/-- An access that the goroutine holding the mutex for writing begins is no data
race. -/
theorem races_of_writer {calls : List Call} {σ : Shared} (X : Exclusive calls σ) {i : Nat}
    {c : Call} (hc : calls[i]? = some c) (hh : c.holdsLock (σ.pcs i) = true)
    (hw : σ.pcs i ≠ .writing) (hr : σ.pcs i ≠ .reading) (a : Access) :
    σ.races calls a = false := by
  cases a with
  | none => rfl
  | read =>
    simp only [Shared.races, List.any_eq_false, decide_eq_true_eq]
    intro j hj
    exact (quiet_of_writer X hc hh hw hr j hj).1
  | write =>
    simp only [Shared.races, List.any_eq_false, decide_eq_true_eq]
    intro j hj h
    rcases h with h | h
    · exact (quiet_of_writer X hc hh hw hr j hj).1 h
    · exact (quiet_of_writer X hc hh hw hr j hj).2 h

/-- A read that a goroutine holding the mutex for reading begins is no data
race. -/
theorem races_of_reader {calls : List Call} {σ : Shared} (X : Exclusive calls σ) {i : Nat}
    {key : Bytes} (hc : calls[i]? = some (.Get key)) (hin : (σ.pcs i).inside = true) :
    σ.races calls .read = false := by
  simp only [Shared.races, List.any_eq_false, decide_eq_true_eq]
  intro j hj h
  obtain ⟨c', hc'⟩ := getElem?_of_mem_range hj
  have hjin : (σ.pcs j).inside = true := by rw [h]; rfl
  have hreaders : 1 ≤ σ.mu.readers := by
    have h1 : readHolding calls σ.pcs i = 1 := by rw [readHolding_get hc, hin]; rfl
    have h2 := readHolding_le calls σ.pcs i (lt_of_getElem?_some hc)
    have h4 := X.count
    omega
  cases c' with
  | Get k => exact X.shape j k hc' h
  | Put k v =>
    have := X.apart (X.held j _ hc' (holdsLock_put hjin))
    omega
  | Delete k =>
    have := X.apart (X.held j _ hc' (holdsLock_delete hjin))
    omega

/-! ### Every step -/

theorem step_of_none {calls : List Call} {σ : Shared} {i : Nat} (hc : calls[i]? = none) :
    σ.step calls i = σ := by
  simp [Shared.step, hc]

theorem step_of_wait {calls : List Call} {σ : Shared} {i : Nat} {c : Call}
    (hc : calls[i]? = some c) (hs : c.step (σ.pcs i) σ.mu σ.data = none) :
    σ.step calls i = σ := by
  simp [Shared.step, hc, hs]

theorem step_of_some {calls : List Call} {σ : Shared} {i : Nat} {c : Call}
    (hc : calls[i]? = some c) (pc : Pc) (mu : RWMutex) (data : GoMap)
    (hs : c.step (σ.pcs i) σ.mu σ.data = some (pc, mu, data))
    (hrace : σ.raced = false) (hbegin : σ.races calls (c.begins (σ.pcs i)) = false) :
    σ.step calls i = ⟨mu, data, Function.update σ.pcs i pc, false⟩ := by
  simp [Shared.step, hc, hs, hrace, hbegin]

/-- Every step of every goroutine keeps the linearization, which grows by the
call of that goroutine at most, and the exclusion. -/
theorem linearized_step {calls : List Call} {s0 : Store} {σ : Shared} {lin : List Nat}
    (H : Linearized calls s0 σ lin) (X : Exclusive calls σ) (i : Nat) :
    ∃ lin', Linearized calls s0 (σ.step calls i) lin' ∧ Exclusive calls (σ.step calls i) := by
  cases hc : calls[i]? with
  | none => rw [step_of_none hc]; exact ⟨lin, H, X⟩
  | some c =>
    have hmu : (⟨σ.mu.writer, σ.mu.readers⟩ : RWMutex) = σ.mu := rfl
    cases c with
    | Put key val =>
      cases hpc : σ.pcs i with
      | start =>
        by_cases hfree : σ.mu.writer = false ∧ σ.mu.readers = 0
        · have hs : (Call.Put key val).step (σ.pcs i) σ.mu σ.data =
              some (.locked, ⟨true, 0⟩, σ.data) := by
            simp [hpc, Call.step, RWMutex.Lock, hfree]
          rw [step_of_some hc _ _ _ hs X.norace (by rw [hpc]; rfl)]
          exact ⟨lin, linearized_quiet H hc _ _ _ (by rw [hpc]; rfl)
              (fun h => by rw [hpc] at h; cases h),
            exclusive_lock X hc rfl hfree⟩
        · have hs : (Call.Put key val).step (σ.pcs i) σ.mu σ.data = none := by
            simp only [hpc, Call.step, RWMutex.Lock, if_neg hfree, Option.map_none']
          rw [step_of_wait hc hs]; exact ⟨lin, H, X⟩
      | locked =>
        have hs : (Call.Put key val).step (σ.pcs i) σ.mu σ.data =
            some (.writing, σ.mu, σ.data) := by simp [hpc, Call.step]
        have hh : (Call.Put key val).holdsLock (σ.pcs i) = true := by rw [hpc]; rfl
        rw [step_of_some hc _ _ _ hs X.norace
          (races_of_writer X hc hh (by rw [hpc]; simp) (by rw [hpc]; simp) _)]
        exact ⟨lin, linearized_quiet H hc _ _ _ (by rw [hpc]; rfl)
            (fun h => by rw [hpc] at h; cases h),
          exclusive_quiet X hc _ (by rw [hpc]; rfl) (fun _ h => by cases h)
            (fun _ _ h => by cases h) (fun _ h => by cases h)⟩
      | writing =>
        have hs : (Call.Put key val).step (σ.pcs i) σ.mu σ.data =
            some (.unlocking .unit, σ.mu, σ.data.insert key val) := by simp [hpc, Call.step]
        rw [step_of_some hc _ _ _ hs X.norace (by rw [hpc]; rfl)]
        exact ⟨lin ++ [i], linearized_pass H hc _ _ _ _ (by rw [hpc]; rfl) rfl,
          exclusive_write X hc _ _ (by rw [hpc]; rfl)⟩
      | unlocking r =>
        have hs : (Call.Put key val).step (σ.pcs i) σ.mu σ.data =
            some (.returned r, σ.mu.Unlock, σ.data) := by simp [hpc, Call.step]
        rw [step_of_some hc _ _ _ hs X.norace (by rw [hpc]; rfl)]
        exact ⟨lin, linearized_quiet H hc _ _ _ (by rw [hpc]; rfl) (fun _ => by rw [hpc]; rfl),
          exclusive_unlock X hc _ (by rw [hpc]; rfl)⟩
      | reading =>
        have hs : (Call.Put key val).step (σ.pcs i) σ.mu σ.data = none := by
          simp [hpc, Call.step]
        rw [step_of_wait hc hs]; exact ⟨lin, H, X⟩
      | checked ok =>
        have hs : (Call.Put key val).step (σ.pcs i) σ.mu σ.data = none := by
          simp [hpc, Call.step]
        rw [step_of_wait hc hs]; exact ⟨lin, H, X⟩
      | returned r =>
        have hs : (Call.Put key val).step (σ.pcs i) σ.mu σ.data = none := by
          simp [hpc, Call.step]
        rw [step_of_wait hc hs]; exact ⟨lin, H, X⟩
    | Get key =>
      cases hpc : σ.pcs i with
      | start =>
        cases hw : σ.mu.writer with
        | true =>
          have hs : (Call.Get key).step (σ.pcs i) σ.mu σ.data = none := by
            simp [hpc, Call.step, RWMutex.RLock, hw]
          rw [step_of_wait hc hs]; exact ⟨lin, H, X⟩
        | false =>
          have hs : (Call.Get key).step (σ.pcs i) σ.mu σ.data =
              some (.locked, ⟨false, σ.mu.readers + 1⟩, σ.data) := by
            simp [hpc, Call.step, RWMutex.RLock, hw]
          rw [step_of_some hc _ _ _ hs X.norace (by rw [hpc]; rfl)]
          exact ⟨lin, linearized_quiet H hc _ _ _ (by rw [hpc]; rfl)
              (fun h => by rw [hpc] at h; cases h),
            exclusive_rlock X hc hpc hw⟩
      | locked =>
        have hs : (Call.Get key).step (σ.pcs i) σ.mu σ.data =
            some (.reading, σ.mu, σ.data) := by simp [hpc, Call.step]
        have hb : (Call.Get key).begins (σ.pcs i) = .read := by rw [hpc]; rfl
        rw [step_of_some hc _ _ _ hs X.norace
          (by rw [hb]; exact races_of_reader X hc (by rw [hpc]; rfl))]
        exact ⟨lin, linearized_quiet H hc _ _ _ (by rw [hpc]; rfl)
            (fun h => by rw [hpc] at h; cases h),
          exclusive_quiet X hc _ (by rw [hpc]; rfl) (fun _ _ h => by cases h)
            (fun _ _ _ h => by cases h) (fun _ _ h => by cases h)⟩
      | reading =>
        have hs : (Call.Get key).step (σ.pcs i) σ.mu σ.data =
            some (.unlocking (.value (σ.data.index key).1 (σ.data.index key).2), σ.mu, σ.data) := by
          simp [hpc, Call.step]
        rw [step_of_some hc _ _ _ hs X.norace (by rw [hpc]; rfl)]
        exact ⟨lin ++ [i], linearized_pass H hc _ _ _ _ (by rw [hpc]; rfl) rfl,
          exclusive_quiet X hc _ (by rw [hpc]; rfl) (fun _ _ h => by cases h)
            (fun _ _ _ h => by cases h) (fun _ _ h => by cases h)⟩
      | unlocking r =>
        have hs : (Call.Get key).step (σ.pcs i) σ.mu σ.data =
            some (.returned r, σ.mu.RUnlock, σ.data) := by simp [hpc, Call.step]
        rw [step_of_some hc _ _ _ hs X.norace (by rw [hpc]; rfl)]
        exact ⟨lin, linearized_quiet H hc _ _ _ (by rw [hpc]; rfl) (fun _ => by rw [hpc]; rfl),
          exclusive_runlock X hc _ (by rw [hpc]; rfl)⟩
      | writing =>
        have hs : (Call.Get key).step (σ.pcs i) σ.mu σ.data = none := by
          simp [hpc, Call.step]
        rw [step_of_wait hc hs]; exact ⟨lin, H, X⟩
      | checked ok =>
        have hs : (Call.Get key).step (σ.pcs i) σ.mu σ.data = none := by
          simp [hpc, Call.step]
        rw [step_of_wait hc hs]; exact ⟨lin, H, X⟩
      | returned r =>
        have hs : (Call.Get key).step (σ.pcs i) σ.mu σ.data = none := by
          simp [hpc, Call.step]
        rw [step_of_wait hc hs]; exact ⟨lin, H, X⟩
    | Delete key =>
      cases hpc : σ.pcs i with
      | start =>
        by_cases hfree : σ.mu.writer = false ∧ σ.mu.readers = 0
        · have hs : (Call.Delete key).step (σ.pcs i) σ.mu σ.data =
              some (.locked, ⟨true, 0⟩, σ.data) := by
            simp [hpc, Call.step, RWMutex.Lock, hfree]
          rw [step_of_some hc _ _ _ hs X.norace (by rw [hpc]; rfl)]
          exact ⟨lin, linearized_quiet H hc _ _ _ (by rw [hpc]; rfl)
              (fun h => by rw [hpc] at h; cases h),
            exclusive_lock X hc rfl hfree⟩
        · have hs : (Call.Delete key).step (σ.pcs i) σ.mu σ.data = none := by
            simp only [hpc, Call.step, RWMutex.Lock, if_neg hfree, Option.map_none']
          rw [step_of_wait hc hs]; exact ⟨lin, H, X⟩
      | locked =>
        have hs : (Call.Delete key).step (σ.pcs i) σ.mu σ.data =
            some (.reading, σ.mu, σ.data) := by simp [hpc, Call.step]
        have hh : (Call.Delete key).holdsLock (σ.pcs i) = true := by rw [hpc]; rfl
        rw [step_of_some hc _ _ _ hs X.norace
          (races_of_writer X hc hh (by rw [hpc]; simp) (by rw [hpc]; simp) _)]
        exact ⟨lin, linearized_quiet H hc _ _ _ (by rw [hpc]; rfl)
            (fun h => by rw [hpc] at h; cases h),
          exclusive_quiet X hc _ (by rw [hpc]; rfl) (fun _ h => by cases h)
            (fun _ _ _ h => by cases h) (fun _ _ h => by cases h)⟩
      | reading =>
        have hs : (Call.Delete key).step (σ.pcs i) σ.mu σ.data =
            some (.checked (σ.data.index key).2, σ.mu, σ.data) := by simp [hpc, Call.step]
        rw [step_of_some hc _ _ _ hs X.norace (by rw [hpc]; rfl)]
        exact ⟨lin, linearized_quiet H hc _ _ _ (by rw [hpc]; rfl)
            (fun h => by rw [hpc] at h; cases h),
          exclusive_quiet X hc _ (by rw [hpc]; rfl) (fun _ h => by cases h)
            (fun k ok hk h => by cases hk; cases h; rfl) (fun _ _ h => by cases h)⟩
      | checked ok =>
        have hok : ok = (σ.data.index key).2 := X.flag i key ok hc hpc
        have hh : (Call.Delete key).holdsLock (σ.pcs i) = true := by rw [hpc]; rfl
        cases ok with
        | true =>
          have hs : (Call.Delete key).step (σ.pcs i) σ.mu σ.data =
              some (.writing, σ.mu, σ.data) := by simp [hpc, Call.step]
          rw [step_of_some hc _ _ _ hs X.norace
            (races_of_writer X hc hh (by rw [hpc]; simp) (by rw [hpc]; simp) _)]
          exact ⟨lin, linearized_quiet H hc _ _ _ (by rw [hpc]; rfl)
              (fun h => by rw [hpc] at h; cases h),
            exclusive_quiet X hc _ (by rw [hpc]; rfl) (fun _ h => by cases h)
              (fun _ _ _ h => by cases h) (fun k hk _ => by cases hk; exact hok.symm)⟩
        | false =>
          have hs : (Call.Delete key).step (σ.pcs i) σ.mu σ.data =
              some (.unlocking (.found false), σ.mu, σ.data) := by simp [hpc, Call.step]
          have hrun : (Call.Delete key).run ⟨σ.data⟩ = (.found false, ⟨σ.data⟩) := by
            simp [Call.run, Store.Delete, ← hok]
          rw [step_of_some hc _ _ _ hs X.norace (by rw [hpc]; rfl)]
          exact ⟨lin ++ [i], linearized_pass H hc _ _ _ _ (by rw [hpc]; rfl) hrun,
            exclusive_quiet X hc _ (by rw [hpc]; rfl) (fun _ h => by cases h)
              (fun _ _ _ h => by cases h) (fun _ _ h => by cases h)⟩
      | writing =>
        have hs : (Call.Delete key).step (σ.pcs i) σ.mu σ.data =
            some (.unlocking (.found true), σ.mu, σ.data.erase key) := by simp [hpc, Call.step]
        have hpres : (σ.data.index key).2 = true := X.present i key hc hpc
        have hrun : (Call.Delete key).run ⟨σ.data⟩ = (.found true, ⟨σ.data.erase key⟩) := by
          simp [Call.run, Store.Delete, hpres]
        rw [step_of_some hc _ _ _ hs X.norace (by rw [hpc]; rfl)]
        exact ⟨lin ++ [i], linearized_pass H hc _ _ _ _ (by rw [hpc]; rfl) hrun,
          exclusive_write X hc _ _ (by rw [hpc]; rfl)⟩
      | unlocking r =>
        have hs : (Call.Delete key).step (σ.pcs i) σ.mu σ.data =
            some (.returned r, σ.mu.Unlock, σ.data) := by simp [hpc, Call.step]
        rw [step_of_some hc _ _ _ hs X.norace (by rw [hpc]; rfl)]
        exact ⟨lin, linearized_quiet H hc _ _ _ (by rw [hpc]; rfl) (fun _ => by rw [hpc]; rfl),
          exclusive_unlock X hc _ (by rw [hpc]; rfl)⟩
      | returned r =>
        have hs : (Call.Delete key).step (σ.pcs i) σ.mu σ.data = none := by
          simp [hpc, Call.step]
        rw [step_of_wait hc hs]; exact ⟨lin, H, X⟩

theorem linearized_run {calls : List Call} {s0 : Store} (schedule : List Nat) :
    ∀ {σ : Shared} {lin : List Nat}, Linearized calls s0 σ lin → Exclusive calls σ →
      ∃ lin', Linearized calls s0 (σ.run calls schedule) lin' ∧
        Exclusive calls (σ.run calls schedule) := by
  induction schedule with
  | nil => intro σ lin H X; exact ⟨lin, H, X⟩
  | cons i rest ih =>
    intro σ lin H X
    obtain ⟨lin1, H1, X1⟩ := linearized_step H X i
    exact ih H1 X1

/-- The record of data races is not idle: a `Get` that begins its read of the map
while a write of the map is in progress, as it could without `RLock`, is
recorded as a data race. -/
theorem read_during_write_races (calls : List Call) (σ : Shared) (i j : Nat) (key : Bytes)
    (hc : calls[i]? = some (.Get key)) (hi : σ.pcs i = .locked) (hj : j < calls.length)
    (hw : σ.pcs j = .writing) : (σ.step calls i).raced = true := by
  have hany : σ.races calls .read = true := by
    simp only [Shared.races, List.any_eq_true, decide_eq_true_eq]
    exact ⟨j, List.mem_range.mpr hj, hw⟩
  simp [Shared.step, hc, hi, Call.step, Call.begins, hany]

/-- **C26.** For every list of `Put`, `Get` and `Delete` calls (on one key or on
several), every content of the store at the start, and every schedule of the
steps of the goroutines, where a read or a write of the map is not one step but
begins and ends: no access to the map begins while a write of the map is in
progress and no write begins while another access is in progress (no torn
read); and when all the calls have returned, there is an order of the calls such
that carrying them out one after the other in that order gives the map the
store holds at the end and, for each call, the value it returned (no lost
update). -/
theorem store_linearizable (calls : List Call) (s0 : Store) (schedule : List Nat) :
    ((Shared.init s0.data).run calls schedule).raced = false ∧
    (((Shared.init s0.data).run calls schedule).allDone calls = true →
      ∃ order : List Nat, order.Perm (List.range calls.length) ∧
        (runInOrder calls order s0).2.data = ((Shared.init s0.data).run calls schedule).data ∧
        (runInOrder calls order s0).1 =
          order.map (fun i => (i, (((Shared.init s0.data).run calls schedule).pcs i).ret)) ∧
        ∀ i ∈ order, (((Shared.init s0.data).run calls schedule).pcs i).done = true) := by
  obtain ⟨lin, H, X⟩ :=
    linearized_run schedule (linearized_init calls s0) (exclusive_init calls s0.data)
  refine ⟨X.norace, fun hdone => ?_⟩
  have hall : ∀ i, i < calls.length →
      (((Shared.init s0.data).run calls schedule).pcs i).done = true := by
    intro i hi
    unfold Shared.allDone at hdone
    rw [List.all_eq_true] at hdone
    exact hdone i (List.mem_range.mpr hi)
  have hmem : ∀ i, i ∈ lin ↔ i ∈ List.range calls.length := by
    intro i
    rw [List.mem_range, H.mem i]
    constructor
    · intro hp
      apply H.started i
      intro hs
      rw [hs] at hp
      cases hp
    · intro hi
      have hd := hall i hi
      cases hpc : ((Shared.init s0.data).run calls schedule).pcs i <;> rw [hpc] at hd <;>
        first | rfl | cases hd
  refine ⟨lin, (List.perm_ext_iff_of_nodup H.nodup (List.nodup_range _)).mpr hmem, ?_, ?_, ?_⟩
  · rw [H.seq]
  · rw [H.seq]
  · intro i hi
    exact hall i (List.mem_range.mp ((hmem i).mp hi))

/-- A `Put`, two `Get` and a `Delete` on the key `k` of a store that holds it:
the reads of the two `Get` overlap, the writers wait for the readers and for
each other, and all four calls return. -/
theorem store_linearizable_witness :
    ((Shared.init (NewStore.Put (ascii "k") (ascii "0")).data).run
      [.Put (ascii "k") (ascii "1"), .Get (ascii "k"), .Get (ascii "k"), .Delete (ascii "k")]
      [1, 2, 0, 1, 3, 2, 1, 2, 1, 0, 2, 0, 3, 1, 0, 0, 3, 0, 3, 3, 3, 3, 3, 3]).allDone
      [.Put (ascii "k") (ascii "1"), .Get (ascii "k"), .Get (ascii "k"), .Delete (ascii "k")]
        = true ∧
    ∃ order : List Nat, order.Perm (List.range 4) ∧
      (runInOrder
        [.Put (ascii "k") (ascii "1"), .Get (ascii "k"), .Get (ascii "k"), .Delete (ascii "k")]
        order (NewStore.Put (ascii "k") (ascii "0"))).2.data =
      ((Shared.init (NewStore.Put (ascii "k") (ascii "0")).data).run
        [.Put (ascii "k") (ascii "1"), .Get (ascii "k"), .Get (ascii "k"), .Delete (ascii "k")]
        [1, 2, 0, 1, 3, 2, 1, 2, 1, 0, 2, 0, 3, 1, 0, 0, 3, 0, 3, 3, 3, 3, 3, 3]).data :=
  ⟨by decide,
    ((store_linearizable
      [.Put (ascii "k") (ascii "1"), .Get (ascii "k"), .Get (ascii "k"), .Delete (ascii "k")]
      (NewStore.Put (ascii "k") (ascii "0"))
      [1, 2, 0, 1, 3, 2, 1, 2, 1, 0, 2, 0, 3, 1, 0, 0, 3, 0, 3, 3, 3, 3, 3, 3]).2
      (by decide)).imp
      (fun _ h => ⟨h.1, h.2.1⟩)⟩

theorem run_append (calls : List Call) (a b : List Nat) (σ : Shared) :
    σ.run calls (a ++ b) = (σ.run calls a).run calls b := by
  unfold Shared.run
  rw [List.foldl_append]

/-- A goroutine that finds the mutex free and runs without the others taking a
step carries out its call as in the sequential model and frees the mutex. -/
theorem run_alone (calls : List Call) (σ : Shared) (i : Nat) (c : Call)
    (hc : calls[i]? = some c) (hmu : σ.mu = ⟨false, 0⟩) (hpc : σ.pcs i = .start) :
    (σ.run calls [i, i, i, i, i, i]).mu = ⟨false, 0⟩ ∧
    (σ.run calls [i, i, i, i, i, i]).data = (c.run ⟨σ.data⟩).2.data ∧
    (σ.run calls [i, i, i, i, i, i]).pcs =
      Function.update σ.pcs i (.returned (c.run ⟨σ.data⟩).1) := by
  obtain ⟨mu, data, pcs, raced⟩ := σ
  simp only at hmu hpc
  subst hmu
  cases c with
  | Put key val =>
    simp [Shared.run, Shared.step, hc, Call.step, hpc, RWMutex.Lock, RWMutex.Unlock, Call.run,
      Store.Put]
  | Get key =>
    simp [Shared.run, Shared.step, hc, Call.step, hpc, RWMutex.RLock, RWMutex.RUnlock, Call.run,
      Store.Get]
  | Delete key =>
    cases hok : (data.index key).2 <;>
      simp [Shared.run, Shared.step, hc, Call.step, hpc, RWMutex.Lock, RWMutex.Unlock, Call.run,
        Store.Delete, hok]

/-- For every list of calls there is a schedule under which all of them
return. -/
theorem exists_schedule_allDone (calls : List Call) (data : GoMap) :
    ∃ schedule, ((Shared.init data).run calls schedule).allDone calls = true := by
  have key : ∀ k, k ≤ calls.length → ∃ schedule,
      ((Shared.init data).run calls schedule).mu = ⟨false, 0⟩ ∧
      (∀ j, j < k → (((Shared.init data).run calls schedule).pcs j).done = true) ∧
      (∀ j, k ≤ j → ((Shared.init data).run calls schedule).pcs j = .start) := by
    intro k
    induction k with
    | zero =>
      intro _
      exact ⟨[], rfl, fun j hj => absurd hj (Nat.not_lt_zero j), fun j _ => rfl⟩
    | succ k ih =>
      intro hk
      obtain ⟨schedule, hmu, hlt, hge⟩ := ih (Nat.le_of_succ_le hk)
      have hkl : k < calls.length := hk
      have hc : calls[k]? = some calls[k] := List.getElem?_eq_getElem hkl
      obtain ⟨h1, _, h3⟩ := run_alone calls _ k _ hc hmu (hge k (Nat.le_refl k))
      refine ⟨schedule ++ [k, k, k, k, k, k], ?_⟩
      rw [run_append]
      refine ⟨h1, fun j hj => ?_, fun j hj => ?_⟩
      · rw [h3]
        by_cases hjk : j = k
        · subst hjk
          simp [Pc.done]
        · simp only [Function.update_noteq hjk]
          exact hlt j (by omega)
      · rw [h3]
        have hjk : j ≠ k := by omega
        simp only [Function.update_noteq hjk]
        exact hge j (by omega)
  obtain ⟨schedule, _, hlt, _⟩ := key calls.length (Nat.le_refl _)
  refine ⟨schedule, ?_⟩
  unfold Shared.allDone
  rw [List.all_eq_true]
  intro j hj
  exact hlt j (List.mem_range.mp hj)

/-! ## Dump and Load over the memory -/

theorem getD_set_ne {α : Type} (l : List α) (i j : Nat) (x d : α) (h : i ≠ j) :
    (l.set i x).getD j d = l.getD j d := by
  simp [List.getD_eq_getElem?_getD, List.getElem?_set_ne h]

theorem getD_set_same {α : Type} (l : List α) (i : Nat) (x d : α) (h : i < l.length) :
    (l.set i x).getD i d = x := by
  simp [List.getD_eq_getElem?_getD, h]

theorem getD_append_lt {α : Type} (l t : List α) (j : Nat) (d : α) (h : j < l.length) :
    (l ++ t).getD j d = l.getD j d := by
  simp [List.getD_eq_getElem?_getD, List.getElem?_append_left h]

theorem getD_append_length {α : Type} (l : List α) (x d : α) :
    (l ++ [x]).getD l.length d = x := by
  simp [List.getD_eq_getElem?_getD]

theorem set_append_length {α : Type} (l : List α) (x y : α) :
    (l ++ [y]).set l.length x = l ++ [x] := by
  induction l with
  | nil => rfl
  | cons a l ih => simp [List.set, ih]

theorem getD_of_length_le {α : Type} (l : List α) (j : Nat) (d : α) (h : l.length ≤ j) :
    l.getD j d = d := by
  simp [List.getD_eq_getElem?_getD, List.getElem?_eq_none h]

theorem length_goCopy (dst src : Bytes) : (goCopy dst src).length = dst.length := by
  simp only [goCopy, List.length_append, List.length_take, List.length_drop]
  omega

theorem goCopy_make (src : Bytes) : goCopy (makeBytes src.length) src = src := cloneBytes_eq src

theorem length_bytes_le (m : Mem) (v : SliceRef) : (m.bytes v).length ≤ v.len := by
  simp only [Mem.bytes, List.length_take]
  omega

theorem length_bytes_of_valid (m : Mem) (v : SliceRef)
    (h : v.off + v.len ≤ (m.arrayAt v.array).length) : (m.bytes v).length = v.len := by
  simp only [Mem.bytes, List.length_take, List.length_drop]
  omega

/-- The elements of a slice depend on its backing array only, and on nothing when
the slice is empty. -/
theorem bytes_congr (m m' : Mem) (v : SliceRef)
    (h : v.len = 0 ∨ m'.arrayAt v.array = m.arrayAt v.array) : m'.bytes v = m.bytes v := by
  rcases h with h | h
  · simp [Mem.bytes, h]
  · simp [Mem.bytes, h]

/-- A slice that lies within its backing array is empty or points to an
allocated array. -/
theorem valid_cases (m : Mem) (v : SliceRef)
    (h : v.off + v.len ≤ (m.arrayAt v.array).length) : v.len = 0 ∨ v.array < m.arrays.length := by
  by_cases hl : v.array < m.arrays.length
  · exact Or.inr hl
  · left
    have : m.arrayAt v.array = [] := getD_of_length_le _ _ _ (Nat.le_of_not_lt hl)
    rw [this] at h
    simp at h
    exact h.2

/-- One turn of the loops of `Dump` and `Load`: one array is added, which holds
the elements of the source slice, and the destination map gets a slice over the
whole of it. -/
theorem copyEntry_spec (dst : Nat) (m : Mem) (e : Sigma (fun _ : Bytes => SliceRef)) :
    (Mem.copyEntry dst m e).data = m.data ∧
    (Mem.copyEntry dst m e).maps =
      m.maps.set dst ((m.mapAt dst).insert e.1 ⟨m.arrays.length, 0, e.2.len⟩) ∧
    ∃ array : Bytes, (Mem.copyEntry dst m e).arrays = m.arrays ++ [array] ∧
      array.length = e.2.len ∧
      (e.2.off + e.2.len ≤ (m.arrayAt e.2.array).length → array = m.bytes e.2) := by
  refine ⟨rfl, rfl, ?_⟩
  refine ⟨goCopy (makeBytes e.2.len)
    (Mem.bytes { m with arrays := m.arrays ++ [makeBytes e.2.len] } e.2), ?_, ?_, ?_⟩
  · have hz : Mem.arrayAt { m with arrays := m.arrays ++ [makeBytes e.2.len] } m.arrays.length =
        makeBytes e.2.len := getD_append_length _ _ _
    have hb : Mem.bytes { m with arrays := m.arrays ++ [makeBytes e.2.len] }
        ⟨m.arrays.length, 0, e.2.len⟩ = makeBytes e.2.len := by
      simp only [Mem.bytes, hz, List.drop_zero]
      simp [makeBytes]
    simp only [Mem.copyEntry, Mem.makeSlice, Mem.mapAssign, Mem.copy, Mem.setElems, hz, hb]
    rw [set_append_length]
    congr 2
    simp [length_goCopy, makeBytes]
  · rw [length_goCopy]; simp [makeBytes]
  · intro hv
    have hsame : Mem.bytes { m with arrays := m.arrays ++ [makeBytes e.2.len] } e.2 = m.bytes e.2 := by
      apply bytes_congr
      rcases valid_cases m e.2 hv with h | h
      · exact Or.inl h
      · exact Or.inr (getD_append_lt _ _ _ _ h)
    rw [hsame]
    have hl := length_bytes_of_valid m e.2 hv
    rw [← hl]
    exact goCopy_make _

theorem mapAt_set_ne (m : Mem) (mp a : Nat) (x : MapObj) (h : a ≠ mp) :
    Mem.mapAt { m with maps := m.maps.set mp x } a = m.mapAt a :=
  getD_set_ne _ _ _ _ _ (Ne.symm h)

theorem mapAt_set_same (m : Mem) (mp : Nat) (x : MapObj) (h : mp < m.maps.length) :
    Mem.mapAt { m with maps := m.maps.set mp x } mp = x :=
  getD_set_same _ _ _ _ h

theorem mapAt_copyEntry_ne (dst : Nat) (m : Mem) (e : Sigma (fun _ : Bytes => SliceRef)) (a : Nat)
    (h : a ≠ dst) : (Mem.copyEntry dst m e).mapAt a = m.mapAt a := by
  unfold Mem.mapAt
  rw [(copyEntry_spec dst m e).2.1]
  exact getD_set_ne _ _ _ _ _ (Ne.symm h)

theorem mapAt_copyEntry_same (dst : Nat) (m : Mem) (e : Sigma (fun _ : Bytes => SliceRef))
    (h : dst < m.maps.length) :
    (Mem.copyEntry dst m e).mapAt dst =
      (m.mapAt dst).insert e.1 ⟨m.arrays.length, 0, e.2.len⟩ := by
  unfold Mem.mapAt
  rw [(copyEntry_spec dst m e).2.1]
  exact getD_set_same _ _ _ _ h

/-- The loops of `Dump` and `Load` leave the field `data`, the other maps and
the arrays that exist alone; what they put in the destination map points to
new arrays. -/
theorem copyLoop_frame (dst : Nat) :
    ∀ (es : List (Sigma (fun _ : Bytes => SliceRef))) (m : Mem),
      (es.foldl (Mem.copyEntry dst) m).data = m.data ∧
      (es.foldl (Mem.copyEntry dst) m).maps.length = m.maps.length ∧
      (∀ a, a ≠ dst → (es.foldl (Mem.copyEntry dst) m).mapAt a = m.mapAt a) ∧
      (∃ extra, (es.foldl (Mem.copyEntry dst) m).arrays = m.arrays ++ extra) ∧
      (∀ key v, ((es.foldl (Mem.copyEntry dst) m).mapAt dst).lookup key = some v →
        (m.mapAt dst).lookup key = some v ∨
          (m.arrays.length ≤ v.array ∧ v.array < (es.foldl (Mem.copyEntry dst) m).arrays.length))
  | [], m => ⟨rfl, rfl, fun _ _ => rfl, ⟨[], (List.append_nil _).symm⟩, fun _ _ h => Or.inl h⟩
  | e :: es, m => by
    obtain ⟨hd, hl, hm, ⟨extra, hx⟩, hf⟩ := copyLoop_frame dst es (Mem.copyEntry dst m e)
    obtain ⟨hd1, hm1, array, ha1, _, _⟩ := copyEntry_spec dst m e
    rw [List.foldl_cons]
    refine ⟨hd.trans hd1, ?_, fun a ha => ?_, ⟨array :: extra, ?_⟩, fun key v hv => ?_⟩
    · rw [hl, hm1, List.length_set]
    · rw [hm a ha, mapAt_copyEntry_ne dst m e a ha]
    · rw [hx, ha1, List.append_assoc]; rfl
    · rcases hf key v hv with h | h
      · by_cases hlt : dst < m.maps.length
        · rw [mapAt_copyEntry_same dst m e hlt] at h
          by_cases hk : key = e.1
          · subst hk
            rw [AList.lookup_insert] at h
            right
            rw [← Option.some.inj h, hx, ha1]
            simp only [List.length_append, List.length_singleton]
            omega
          · rw [AList.lookup_insert_ne hk] at h
            exact Or.inl h
        · have hsame : (Mem.copyEntry dst m e).mapAt dst = m.mapAt dst := by
            unfold Mem.mapAt
            rw [hm1, getD_of_length_le _ _ _ (by rw [List.length_set]; omega),
              getD_of_length_le _ _ _ (by omega)]
          rw [hsame] at h
          exact Or.inl h
      · right
        rw [ha1, List.length_append] at h
        exact ⟨by omega, h.2⟩

theorem arrayAt_of_append (m m' : Mem) (extra : List Bytes) (h : m'.arrays = m.arrays ++ extra)
    (a : Nat) (ha : a < m.arrays.length) : m'.arrayAt a = m.arrayAt a := by
  unfold Mem.arrayAt
  rw [h]
  exact getD_append_lt _ _ _ _ ha

/-- What lies within its backing array reads the same after arrays are added. -/
theorem bytes_of_append (m m' : Mem) (extra : List Bytes) (h : m'.arrays = m.arrays ++ extra)
    (v : SliceRef) (hv : v.off + v.len ≤ (m.arrayAt v.array).length) :
    m'.bytes v = m.bytes v ∧ v.off + v.len ≤ (m'.arrayAt v.array).length := by
  by_cases hl : v.array < m.arrays.length
  · have := arrayAt_of_append m m' extra h _ hl
    exact ⟨bytes_congr m m' v (Or.inr this), by rw [this]; exact hv⟩
  · have hnil : m.arrayAt v.array = [] := getD_of_length_le _ _ _ (Nat.le_of_not_lt hl)
    rw [hnil] at hv
    simp only [List.length_nil, Nat.le_zero_eq, Nat.add_eq_zero_iff] at hv
    refine ⟨bytes_congr m m' v (Or.inl hv.2), ?_⟩
    omega

/-- The loops of `Dump` and `Load` copy: under each key of the source the
destination map holds the elements the source slice has. -/
theorem copyLoop_content (dst : Nat) :
    ∀ (es : List (Sigma (fun _ : Bytes => SliceRef))) (m : Mem), es.NodupKeys →
      dst < m.maps.length →
      (∀ e ∈ es, e.2.off + e.2.len ≤ (m.arrayAt e.2.array).length) →
      (∀ key v, (m.mapAt dst).lookup key = some v →
        v.off + v.len ≤ (m.arrayAt v.array).length) →
      ∀ key, (es.foldl (Mem.copyEntry dst) m).index dst key =
        match es.dlookup key with
        | some v => (m.bytes v, true)
        | none => m.index dst key
  | [], m, _, _, _, _ => fun key => rfl
  | e :: es, m, hnd, hdst, hval, hold => by
    intro key
    obtain ⟨k₀, v₀⟩ := e
    obtain ⟨hd1, hm1, array, ha1, hlen, hcopy⟩ := copyEntry_spec dst m ⟨k₀, v₀⟩
    have hnd' := List.nodupKeys_cons.mp hnd
    have hv₀ := hval ⟨k₀, v₀⟩ (List.mem_cons_self _ _)
    have hmap := mapAt_copyEntry_same dst m ⟨k₀, v₀⟩ hdst
    have hfresh : (Mem.copyEntry dst m ⟨k₀, v₀⟩).arrayAt m.arrays.length = array := by
      unfold Mem.arrayAt
      rw [ha1]
      exact getD_append_length _ _ _
    have hfb : (Mem.copyEntry dst m ⟨k₀, v₀⟩).bytes ⟨m.arrays.length, 0, v₀.len⟩ = m.bytes v₀ := by
      have hwhole : (Mem.copyEntry dst m ⟨k₀, v₀⟩).bytes ⟨m.arrays.length, 0, v₀.len⟩ = array := by
        simp only [Mem.bytes, hfresh, List.drop_zero]
        rw [← hlen]
        exact List.take_length _
      rw [hwhole]
      exact hcopy hv₀
    have ih := copyLoop_content dst es (Mem.copyEntry dst m ⟨k₀, v₀⟩) hnd'.2
      (by rw [hm1, List.length_set]; exact hdst)
      (fun e he => (bytes_of_append m _ [array] ha1 e.2 (hval e (List.mem_cons_of_mem _ he))).2)
      (fun k v hk => by
        rw [hmap] at hk
        by_cases hkk : k = k₀
        · subst hkk
          rw [AList.lookup_insert] at hk
          rw [← Option.some.inj hk]
          simp only [hfresh, hlen]
          omega
        · rw [AList.lookup_insert_ne hkk] at hk
          exact (bytes_of_append m _ [array] ha1 v (hold k v hk)).2)
      key
    rw [List.foldl_cons, ih]
    by_cases hk : key = k₀
    · subst hk
      have hnone : es.dlookup key = none := List.dlookup_eq_none.mpr hnd'.1
      rw [hnone, List.dlookup_cons_eq]
      simp only [Mem.index, hmap, AList.lookup_insert, hfb]
    · rw [List.dlookup_cons_ne _ _ hk]
      cases hl : es.dlookup key with
      | some v =>
        have hmem : (⟨key, v⟩ : Sigma (fun _ : Bytes => SliceRef)) ∈ es :=
          List.of_mem_dlookup hl
        simp only
        rw [(bytes_of_append m _ [array] ha1 v (hval ⟨key, v⟩ (List.mem_cons_of_mem _ hmem))).1]
      | none =>
        simp only [Mem.index, hmap, AList.lookup_insert_ne hk]
        cases hlk : (m.mapAt dst).lookup key with
        | none => rfl
        | some v =>
          simp only
          rw [(bytes_of_append m _ [array] ha1 v (hold key v hlk)).1]

theorem validMap_spec (m : Mem) (mp : Nat) (h : m.validMap mp = true) :
    mp < m.maps.length ∧
    (∀ e ∈ (m.mapAt mp).entries, e.2.off + e.2.len ≤ (m.arrayAt e.2.array).length) ∧
    ∀ key v, (m.mapAt mp).lookup key = some v → v.off + v.len ≤ (m.arrayAt v.array).length := by
  unfold Mem.validMap at h
  rw [Bool.and_eq_true, decide_eq_true_eq, List.all_eq_true] at h
  have hall : ∀ e ∈ (m.mapAt mp).entries, e.2.off + e.2.len ≤ (m.arrayAt e.2.array).length :=
    fun e he => of_decide_eq_true (h.2 e he)
  refine ⟨h.1, hall, fun key v hk => ?_⟩
  have hmem : (⟨key, v⟩ : Sigma (fun _ : Bytes => SliceRef)) ∈ (m.mapAt mp).entries :=
    List.of_mem_dlookup hk
  exact hall _ hmem

theorem mapAt_makeMap (m : Mem) (a : Nat) (h : a ≠ m.maps.length) :
    m.makeMap.2.mapAt a = m.mapAt a := by
  unfold Mem.mapAt Mem.makeMap
  by_cases hlt : a < m.maps.length
  · exact getD_append_lt _ _ _ _ hlt
  · rw [getD_of_length_le _ _ _ (by simp only [List.length_append, List.length_singleton]; omega),
      getD_of_length_le _ _ _ (by omega)]

theorem mapAt_makeMap_new (m : Mem) : m.makeMap.2.mapAt m.maps.length = ∅ :=
  getD_append_length _ _ _

theorem dump_eq (m : Mem) :
    m.Dump = (m.maps.length,
      List.foldl (Mem.copyEntry m.maps.length) m.makeMap.2 (m.mapAt m.data).entries) := rfl

theorem load_eq (m : Mem) (state : Nat) :
    m.Load state = List.foldl (Mem.copyEntry m.maps.length)
      { m.makeMap.2 with data := m.maps.length } (m.mapAt state).entries := rfl

/-- What `Dump` leaves alone, and where the values of the map it returns
live. -/
theorem dump_frame (m : Mem) :
    m.Dump.1 = m.maps.length ∧ m.Dump.2.data = m.data ∧
    m.Dump.2.maps.length = m.maps.length + 1 ∧
    (∀ a, a ≠ m.maps.length → m.Dump.2.mapAt a = m.mapAt a) ∧
    (∃ extra, m.Dump.2.arrays = m.arrays ++ extra) ∧
    (∀ key v, (m.Dump.2.mapAt m.Dump.1).lookup key = some v →
      m.arrays.length ≤ v.array ∧ v.array < m.Dump.2.arrays.length) := by
  obtain ⟨hd, hl, hm, hx, hf⟩ :=
    copyLoop_frame m.maps.length (m.mapAt m.data).entries m.makeMap.2
  rw [dump_eq]
  refine ⟨rfl, hd, ?_, fun a ha => ?_, hx, fun key v hv => ?_⟩
  · simp only [hl]
    simp [Mem.makeMap]
  · simp only [hm a ha, mapAt_makeMap m a ha]
  · rcases hf key v hv with h | h
    · rw [mapAt_makeMap_new] at h
      cases h
    · exact h

/-- The map `Dump` returns holds, under each key, the elements the store
holds. -/
theorem dump_content (m : Mem) (h : m.validMap m.data = true) (key : Bytes) :
    m.Dump.2.index m.Dump.1 key = m.index m.data key := by
  obtain ⟨hlt, hall, _⟩ := validMap_spec m m.data h
  have hc := copyLoop_content m.maps.length (m.mapAt m.data).entries m.makeMap.2
    (m.mapAt m.data).nodupKeys (by simp [Mem.makeMap]) hall
    (fun k v hk => by rw [mapAt_makeMap_new] at hk; cases hk) key
  rw [dump_eq]
  simp only [hc]
  have hnew : m.makeMap.2.index m.maps.length key = ([], false) := by
    simp only [Mem.index, mapAt_makeMap_new]
    rfl
  rw [hnew]
  unfold Mem.index AList.lookup
  cases (m.mapAt m.data).entries.dlookup key <;> rfl

/-- What `Load` leaves alone, and where the values of the new map of the store
live. -/
theorem load_frame (m : Mem) (state : Nat) :
    (m.Load state).data = m.maps.length ∧
    (m.Load state).maps.length = m.maps.length + 1 ∧
    (∀ a, a ≠ m.maps.length → (m.Load state).mapAt a = m.mapAt a) ∧
    (∃ extra, (m.Load state).arrays = m.arrays ++ extra) ∧
    (∀ key v, ((m.Load state).mapAt (m.Load state).data).lookup key = some v →
      m.arrays.length ≤ v.array ∧ v.array < (m.Load state).arrays.length) := by
  obtain ⟨hd, hl, hm, hx, hf⟩ :=
    copyLoop_frame m.maps.length (m.mapAt state).entries { m.makeMap.2 with data := m.maps.length }
  have hdata : (m.Load state).data = m.maps.length := hd
  rw [load_eq] at hdata ⊢
  refine ⟨hdata, ?_, fun a ha => ?_, hx, fun key v hv => ?_⟩
  · rw [hl]
    simp [Mem.makeMap]
  · rw [hm a ha]
    exact mapAt_makeMap m a ha
  · rw [hdata] at hv
    rcases hf key v hv with h | h
    · have hnew : Mem.mapAt { m.makeMap.2 with data := m.maps.length } m.maps.length = ∅ :=
        mapAt_makeMap_new m
      rw [hnew] at h
      cases h
    · exact h

/-- After `Load` the store holds, under each key, the elements the loaded map
holds. -/
theorem load_content (m : Mem) (state : Nat) (h : m.validMap state = true) (key : Bytes) :
    (m.Load state).index (m.Load state).data key = m.index state key := by
  obtain ⟨hlt, hall, _⟩ := validMap_spec m state h
  rw [(load_frame m state).1]
  have hnewmap : Mem.mapAt { m.makeMap.2 with data := m.maps.length } m.maps.length = ∅ :=
    mapAt_makeMap_new m
  have hc := copyLoop_content m.maps.length (m.mapAt state).entries
    { m.makeMap.2 with data := m.maps.length }
    (m.mapAt state).nodupKeys (by simp [Mem.makeMap]) hall
    (fun k v hk => by rw [hnewmap] at hk; cases hk) key
  rw [load_eq, hc]
  have hnew : Mem.index { m.makeMap.2 with data := m.maps.length } m.maps.length key =
      ([], false) := by
    simp only [Mem.index, hnewmap]
    rfl
  rw [hnew]
  unfold Mem.index AList.lookup
  cases (m.mapAt state).entries.dlookup key <;> rfl

/-- A call on the store adds arrays and leaves the maps other than the map of
the store alone. -/
theorem apply_frame (m : Mem) (op : StoreOp) :
    (∃ extra, (m.apply op).arrays = m.arrays ++ extra) ∧
    m.maps.length ≤ (m.apply op).maps.length ∧
    (∀ a, a < m.maps.length → a ≠ m.data → (m.apply op).mapAt a = m.mapAt a) ∧
    ((m.apply op).data = m.data ∨ (m.apply op).data = m.maps.length) := by
  cases op with
  | Put key val =>
    refine ⟨⟨[], (List.append_nil _).symm⟩, ?_, fun a _ ha => ?_, Or.inl rfl⟩
    · simp [Mem.apply, Mem.Put, Mem.mapAssign]
    · exact mapAt_set_ne m m.data a _ ha
  | Delete key =>
    cases hok : (m.Get key).2 with
    | false =>
      have h : m.apply (.Delete key) = m := by simp [Mem.apply, Mem.Delete, hok]
      rw [h]
      exact ⟨⟨[], (List.append_nil _).symm⟩, Nat.le_refl _, fun _ _ _ => rfl, Or.inl rfl⟩
    | true =>
      have h : m.apply (.Delete key) = m.mapDelete m.data key := by
        simp [Mem.apply, Mem.Delete, hok]
      rw [h]
      refine ⟨⟨[], (List.append_nil _).symm⟩, ?_, fun a _ ha => ?_, Or.inl rfl⟩
      · simp [Mem.mapDelete]
      · exact mapAt_set_ne m m.data a _ ha
  | Load state =>
    obtain ⟨hd, hl, hm, hx, _⟩ := load_frame m state
    refine ⟨hx, ?_, fun a ha _ => ?_, Or.inr hd⟩
    · show m.maps.length ≤ (m.Load state).maps.length
      omega
    · exact hm a (by omega)

/-- Calls on the store leave a map that is not the map of the store, and the
arrays that exist, alone. -/
theorem ops_frame (d : Nat) :
    ∀ (ops : List StoreOp) (m : Mem), d < m.maps.length → m.data ≠ d →
      (ops.foldl Mem.apply m).mapAt d = m.mapAt d ∧
      ∃ extra, (ops.foldl Mem.apply m).arrays = m.arrays ++ extra
  | [], m, _, _ => ⟨rfl, [], (List.append_nil _).symm⟩
  | op :: ops, m, hd, hne => by
    obtain ⟨⟨extra, hx⟩, hl, hm, hdata⟩ := apply_frame m op
    have hne' : (m.apply op).data ≠ d := by
      rcases hdata with h | h <;> rw [h] <;> omega
    obtain ⟨ih1, extra', ih2⟩ := ops_frame d ops (m.apply op) (by omega) hne'
    rw [List.foldl_cons]
    refine ⟨ih1.trans (hm d hd (Ne.symm hne)), extra ++ extra', ?_⟩
    rw [ih2, hx, List.append_assoc]

/-- One change by the holder of the map at `mp` leaves the field `data` and the
other maps alone, and an array it does not write to. -/
theorem change_frame (mp : Nat) (m : Mem) (ch : Change) :
    (Mem.change mp m ch).data = m.data ∧
    (∀ a, a ≠ mp → (Mem.change mp m ch).mapAt a = m.mapAt a) ∧
    (∀ a, (∀ v i b, ch = .write v i b → v.len = 0 ∨ v.array ≠ a) →
      (Mem.change mp m ch).arrayAt a = m.arrayAt a) := by
  cases ch with
  | assign key val =>
    exact ⟨rfl, fun a ha => mapAt_set_ne m mp a _ ha, fun _ _ => rfl⟩
  | delete key =>
    exact ⟨rfl, fun a ha => mapAt_set_ne m mp a _ ha, fun _ _ => rfl⟩
  | write v i b =>
    by_cases hi : i < v.len
    · have h : Mem.change mp m (.write v i b) =
          { m with arrays := m.arrays.set v.array ((m.arrayAt v.array).set (v.off + i) b) } := by
        simp [Mem.change, Mem.setIndex, hi]
      rw [h]
      refine ⟨rfl, fun _ _ => rfl, fun a ha => ?_⟩
      rcases ha v i b rfl with h0 | hne
      · omega
      · exact getD_set_ne _ _ _ _ _ hne
    · have h : Mem.change mp m (.write v i b) = m := by
        simp [Mem.change, Mem.setIndex, hi]
      rw [h]
      exact ⟨rfl, fun _ _ => rfl, fun _ _ => rfl⟩

/-- Changes by the holder of the map at `mp` leave the field `data` and the
other maps alone, and every array in a set `keep` none of them writes to. -/
theorem changes_frame (mp : Nat) (keep : Nat → Prop) :
    ∀ (changes : List Change) (m : Mem),
      (∀ v i b, Change.write v i b ∈ changes → v.len = 0 ∨ ¬ keep v.array) →
      (changes.foldl (Mem.change mp) m).data = m.data ∧
      (∀ a, a ≠ mp → (changes.foldl (Mem.change mp) m).mapAt a = m.mapAt a) ∧
      (∀ a, keep a → (changes.foldl (Mem.change mp) m).arrayAt a = m.arrayAt a)
  | [], m, _ => ⟨rfl, fun _ _ => rfl, fun _ _ => rfl⟩
  | ch :: changes, m, h => by
    obtain ⟨hd, hm, ha⟩ := change_frame mp m ch
    obtain ⟨ihd, ihm, iha⟩ := changes_frame mp keep changes (Mem.change mp m ch)
      (fun v i b hv => h v i b (List.mem_cons_of_mem _ hv))
    rw [List.foldl_cons]
    refine ⟨ihd.trans hd, fun a hne => (ihm a hne).trans (hm a hne), fun a hk => ?_⟩
    rw [iha a hk]
    apply ha a
    intro v i b hch
    rcases h v i b (by rw [hch]; exact List.mem_cons_self _ _) with h0 | hn
    · exact Or.inl h0
    · exact Or.inr (fun e => hn (e ▸ hk))

theorem index_congr (m m' : Mem) (mp mp' : Nat) (key : Bytes)
    (hmap : m'.mapAt mp' = m.mapAt mp)
    (hb : ∀ v, (m.mapAt mp).lookup key = some v → m'.bytes v = m.bytes v) :
    m'.index mp' key = m.index mp key := by
  unfold Mem.index
  rw [hmap]
  cases h : (m.mapAt mp).lookup key with
  | none => rfl
  | some v => simp only [hb v h]

theorem get_congr (m m' : Mem) (key : Bytes) (hmap : m'.mapAt m'.data = m.mapAt m.data) :
    m'.Get key = m.Get key := by
  unfold Mem.Get
  rw [hmap]

/-- Over the memory, `Get` returns the slice whose elements `Mem.index` reads
in the map of the store. -/
theorem mem_get_index (m : Mem) (key : Bytes) :
    (m.bytes (m.Get key).1, (m.Get key).2) = m.index m.data key := by
  unfold Mem.Get Mem.index
  cases (m.mapAt m.data).lookup key with
  | none => simp [Mem.bytes, SliceRef.nil]
  | some v => rfl

/-- Over the memory, `Put` acts on the contents as in the sequential model:
the key reads as the elements of the slice given, every other key reads as
before. -/
theorem mem_put_index (m : Mem) (key : Bytes) (val : SliceRef) (h : m.data < m.maps.length)
    (k : Bytes) :
    (m.Put key val).index (m.Put key val).data k =
      if k = key then (m.bytes val, true) else m.index m.data k := by
  have hmap : (m.Put key val).mapAt (m.Put key val).data = (m.mapAt m.data).insert key val :=
    mapAt_set_same m m.data _ h
  have hb : ∀ v, (m.Put key val).bytes v = m.bytes v := fun v => rfl
  unfold Mem.index
  rw [hmap]
  by_cases hk : k = key
  · subst hk
    simp [AList.lookup_insert, hb]
  · rw [AList.lookup_insert_ne hk, if_neg hk]
    cases (m.mapAt m.data).lookup k <;> simp [hb]

/-- Over the memory, `Delete` acts on the contents as in the sequential model. -/
theorem mem_delete_index (m : Mem) (key : Bytes) (h : m.data < m.maps.length) (k : Bytes) :
    (m.Delete key).1 = (m.index m.data key).2 ∧
    (m.Delete key).2.index (m.Delete key).2.data k =
      if k = key then ([], false) else m.index m.data k := by
  have hflag : (m.Get key).2 = (m.index m.data key).2 := congrArg Prod.snd (mem_get_index m key)
  cases hok : (m.Get key).2 with
  | false =>
    have hd : m.Delete key = (false, m) := by simp [Mem.Delete, hok]
    rw [hd, ← hflag, hok]
    refine ⟨rfl, ?_⟩
    by_cases hk : k = key
    · subst hk
      rw [if_pos rfl]
      have h2 := hflag.symm.trans hok
      unfold Mem.index at h2 ⊢
      cases hl : (m.mapAt m.data).lookup k with
      | none => rfl
      | some v => rw [hl] at h2; cases h2
    · rw [if_neg hk]
  | true =>
    have hd : m.Delete key = (true, m.mapDelete m.data key) := by simp [Mem.Delete, hok]
    rw [hd, ← hflag, hok]
    refine ⟨rfl, ?_⟩
    have hmap : (m.mapDelete m.data key).mapAt (m.mapDelete m.data key).data =
        (m.mapAt m.data).erase key := mapAt_set_same m m.data _ h
    unfold Mem.index
    simp only [hmap]
    by_cases hk : k = key
    · subst hk
      simp [AList.lookup_erase]
    · rw [AList.lookup_erase_ne hk, if_neg hk]
      rfl

/-- **C23.** `Dump` and `Load` are deep copies, in every memory in which the map
of the store and the map `state` are allocated and their values lie within their
backing arrays.  The map returned by `Dump`, which
is the state an FSM snapshot holds, has under each key the elements the store
has, and keeps them through every later `Put`, `Delete` and `Load` on the store;
later assignments to and deletions from that map, and later writes to the bytes
of its values, leave every `Get` on the store as it was, slice and elements.
After `Load(state)` the store has under each key the elements `state` has, and
later assignments to and deletions from `state`, and later writes to the bytes
of its values, leave every `Get` on the store as it was. -/
theorem dump_load_deep_copy (m : Mem) (state : Nat) (hstore : m.validMap m.data = true)
    (hstate : m.validMap state = true) :
    (∀ key, m.Dump.2.index m.Dump.1 key = m.index m.data key) ∧
    (∀ (ops : List StoreOp) key,
      (ops.foldl Mem.apply m.Dump.2).index m.Dump.1 key = m.Dump.2.index m.Dump.1 key) ∧
    (∀ changes : List Change,
      (∀ v i b, Change.write v i b ∈ changes →
        ∃ key, (m.Dump.2.mapAt m.Dump.1).lookup key = some v) →
      ∀ key,
        (changes.foldl (Mem.change m.Dump.1) m.Dump.2).Get key = m.Get key ∧
        (changes.foldl (Mem.change m.Dump.1) m.Dump.2).index
          (changes.foldl (Mem.change m.Dump.1) m.Dump.2).data key = m.index m.data key) ∧
    (∀ key, (m.Load state).index (m.Load state).data key = m.index state key) ∧
    (∀ changes : List Change,
      (∀ v i b, Change.write v i b ∈ changes → ∃ key, (m.mapAt state).lookup key = some v) →
      ∀ key,
        (changes.foldl (Mem.change state) (m.Load state)).Get key = (m.Load state).Get key ∧
        (changes.foldl (Mem.change state) (m.Load state)).index
          (changes.foldl (Mem.change state) (m.Load state)).data key =
            (m.Load state).index (m.Load state).data key) := by
  obtain ⟨hdlt, _, hdval⟩ := validMap_spec m m.data hstore
  obtain ⟨hslt, _, hsval⟩ := validMap_spec m state hstate
  obtain ⟨hd1, hddata, hdlen, hdmap, ⟨dextra, hdx⟩, hdfresh⟩ := dump_frame m
  obtain ⟨hldata, hllen, hlmap, ⟨lextra, hlx⟩, hlfresh⟩ := load_frame m state
  refine ⟨dump_content m hstore, fun ops key => ?_, fun changes hch key => ?_,
    load_content m state hstate, fun changes hch key => ?_⟩
  · obtain ⟨hmap, extra, hx⟩ := ops_frame m.Dump.1 ops m.Dump.2
      (by rw [hd1, hdlen]; omega) (by rw [hd1, hddata]; omega)
    apply index_congr _ _ _ _ _ hmap
    intro v hv
    apply bytes_congr
    right
    exact arrayAt_of_append _ _ extra hx _ (hdfresh key v hv).2
  · obtain ⟨hcd, hcm, hca⟩ := changes_frame m.Dump.1 (fun a => a < m.arrays.length) changes
      m.Dump.2 (fun v i b hv => by
        obtain ⟨k, hk⟩ := hch v i b hv
        right
        have := (hdfresh k v hk).1
        omega)
    have hne : m.data ≠ m.Dump.1 := by rw [hd1]; omega
    have hmap : (changes.foldl (Mem.change m.Dump.1) m.Dump.2).mapAt
        (changes.foldl (Mem.change m.Dump.1) m.Dump.2).data = m.mapAt m.data := by
      rw [hcd, hddata, hcm _ hne, hdmap _ (by omega)]
    refine ⟨get_congr _ _ key hmap, ?_⟩
    apply index_congr _ _ _ _ _ hmap
    intro v hv
    apply bytes_congr
    rcases valid_cases m v (hdval key v hv) with h0 | hlt
    · exact Or.inl h0
    · right
      rw [hca _ hlt]
      exact arrayAt_of_append _ _ dextra hdx _ hlt
  · obtain ⟨hcd, hcm, hca⟩ := changes_frame state (fun a => m.arrays.length ≤ a) changes
      (m.Load state) (fun v i b hv => by
        obtain ⟨k, hk⟩ := hch v i b hv
        rcases valid_cases m v (hsval k v hk) with h0 | hlt
        · exact Or.inl h0
        · right; omega)
    have hne : (m.Load state).data ≠ state := by rw [hldata]; omega
    have hmap : (changes.foldl (Mem.change state) (m.Load state)).mapAt
        (changes.foldl (Mem.change state) (m.Load state)).data =
          (m.Load state).mapAt (m.Load state).data := by
      rw [hcd, hcm _ hne]
    refine ⟨get_congr _ _ key hmap, ?_⟩
    apply index_congr _ _ _ _ _ hmap
    intro v hv
    apply bytes_congr
    right
    exact hca _ (hlfresh key v hv).1

/-- A store that holds `key1`, and a second map that holds `a`: after `Dump`, a
write to the first byte of the copy of `value1` and the deletion of `key1` from
the returned map leave `key1` in the store as it was; after `Load` of the second
map, a write to the first byte of its value leaves `a` in the store as it
was. -/
theorem dump_load_deep_copy_witness :
    Mem.validMap ⟨[ascii "value1", ascii "xy"],
      [(∅ : MapObj).insert (ascii "key1") ⟨0, 0, 6⟩, (∅ : MapObj).insert (ascii "a") ⟨1, 0, 2⟩],
      0⟩ 0 = true ∧
    Mem.validMap ⟨[ascii "value1", ascii "xy"],
      [(∅ : MapObj).insert (ascii "key1") ⟨0, 0, 6⟩, (∅ : MapObj).insert (ascii "a") ⟨1, 0, 2⟩],
      0⟩ 1 = true ∧
    (List.foldl (Mem.change 2)
      (Mem.Dump ⟨[ascii "value1", ascii "xy"],
        [(∅ : MapObj).insert (ascii "key1") ⟨0, 0, 6⟩, (∅ : MapObj).insert (ascii "a") ⟨1, 0, 2⟩],
        0⟩).2
      [.write ⟨2, 0, 6⟩ 0 (ch 'X'), .delete (ascii "key1")]).Get (ascii "key1") =
        (⟨0, 0, 6⟩, true) ∧
    (List.foldl (Mem.change 1)
      (Mem.Load ⟨[ascii "value1", ascii "xy"],
        [(∅ : MapObj).insert (ascii "key1") ⟨0, 0, 6⟩, (∅ : MapObj).insert (ascii "a") ⟨1, 0, 2⟩],
        0⟩ 1)
      [.write ⟨1, 0, 2⟩ 0 (ch 'X')]).Get (ascii "a") = (⟨2, 0, 2⟩, true) :=
  ⟨by decide, by decide,
   (((dump_load_deep_copy ⟨[ascii "value1", ascii "xy"],
      [(∅ : MapObj).insert (ascii "key1") ⟨0, 0, 6⟩, (∅ : MapObj).insert (ascii "a") ⟨1, 0, 2⟩],
      0⟩ 1 (by decide) (by decide)).2.2.1
      [.write ⟨2, 0, 6⟩ 0 (ch 'X'), .delete (ascii "key1")]
      (fun v i b h => by
        simp only [List.mem_cons, Change.write.injEq, List.mem_singleton, reduceCtorEq,
          or_false, List.not_mem_nil] at h
        exact ⟨ascii "key1", by rw [h.1]; decide⟩)
      (ascii "key1")).1).trans (by decide),
   (((dump_load_deep_copy ⟨[ascii "value1", ascii "xy"],
      [(∅ : MapObj).insert (ascii "key1") ⟨0, 0, 6⟩, (∅ : MapObj).insert (ascii "a") ⟨1, 0, 2⟩],
      0⟩ 1 (by decide) (by decide)).2.2.2.2
      [.write ⟨1, 0, 2⟩ 0 (ch 'X')]
      (fun v i b h => by
        simp only [List.mem_singleton, Change.write.injEq] at h
        exact ⟨ascii "a", by rw [h.1]; decide⟩)
      (ascii "a")).1).trans (by decide)⟩

end KV
